import Mathlib

/-!
# cidrcalc: IPv4 range-set algebra

A shallow embedding of `pkg/cidrcalc/cidrcalc.go` together with the parts of
Go's `net/netip`, `encoding/binary`, `math/bits` and `sort` that it calls.

Conventions.
* `uint64` values are natural numbers; every operation that can wrap in Go is
  written with an explicit `% 2 ^ 64`.
* A Go `string` is a Lean `String`; parsers work on its list of characters.
  Every byte the parsers accept is ASCII, so working on characters instead of
  bytes does not change which texts are accepted or what they denote.
* A Go `panic` is the `Except.error` of `Panic`; a loop that may run forever
  takes a fuel argument and returns `none` when the fuel runs out.
* Slices are lists: only the visible elements of a slice are modelled.
-/

namespace Cidrcalc

/-! ## Library model: `net/netip`

The parsers follow the standard library as of Go 1.22: `ParsePrefix` rejects a
sign and leading zeros in the prefix length, `parseIPv4` rejects leading zeros
in an octet.  Error values keep the rejected text and leave the message out. -/

namespace netip

/-- An `netip.Addr`: the zero value, an IPv4 address (its 32-bit value) or an
IPv6 address (its sixteen bytes and zone). -/
inductive Addr where
  | zero : Addr
  | v4 (a : Nat) : Addr
  | v6 (bytes : List Nat) (zone : List Char) : Addr
deriving DecidableEq, Repr

/-- Model of `Addr.Is4`. -/
def Addr.Is4 : Addr → Bool
  | .v4 _ => true
  | _ => false

/-- Model of `Addr.Is6`. -/
def Addr.Is6 : Addr → Bool
  | .v6 _ _ => true
  | _ => false

/-- Model of `Addr.IsValid`. -/
def Addr.IsValid : Addr → Bool
  | .zero => false
  | _ => true

/-- Model of `AddrFrom4`: the address of four bytes, most significant first. -/
def AddrFrom4 (f : List Nat) : Addr :=
  .v4 (f.getD 0 0 % 256 * 2 ^ 24 + f.getD 1 0 % 256 * 2 ^ 16 + f.getD 2 0 % 256 * 2 ^ 8
    + f.getD 3 0 % 256)

/-- Model of `Addr.AsSlice`: four bytes for IPv4, sixteen for IPv6, none for the zero
address. -/
def Addr.AsSlice : Addr → List Nat
  | .zero => []
  | .v4 a => [a / 2 ^ 24 % 256, a / 2 ^ 16 % 256, a / 2 ^ 8 % 256, a % 256]
  | .v6 bytes _ => bytes

/-- Model of `AddrFromSlice`: defined for slices of length 4 and 16 only. -/
def AddrFromSlice (b : List Nat) : Addr × Bool :=
  if b.length = 4 then (AddrFrom4 b, true)
  else if b.length = 16 then (.v6 b [], true)
  else (.zero, false)

/-- A `netip.Prefix`; `bits = -1` marks an invalid prefix. -/
structure Prefix where
  ip : Addr
  bits : Int
deriving DecidableEq, Repr

/-- Model of `Addr.BitLen`. -/
def Addr.BitLen : Addr → Int
  | .zero => 0
  | .v4 _ => 32
  | .v6 _ _ => 128

/-- Model of `PrefixFrom`: an out-of-range length or an invalid address gives an
invalid prefix. -/
def PrefixFrom (ip : Addr) (bits : Int) : Prefix :=
  if ip.IsValid = false ∨ bits < 0 ∨ bits > ip.BitLen then ⟨ip, -1⟩ else ⟨ip, bits⟩

/-- Model of `Prefix.IsValid`. -/
def Prefix.IsValid (p : Prefix) : Bool := decide (0 ≤ p.bits)

/-- Model of `Prefix.Addr`. -/
def Prefix.Addr (p : Prefix) : Addr := p.ip

/-- Model of `Prefix.Bits`. -/
def Prefix.Bits (p : Prefix) : Int := p.bits

/-- Model of `Prefix.Masked`: the prefix with the host bits of its address cleared.  For
IPv4 the address is and-ed with the mask of the `bits` leading ones; the zero
prefix comes out of an invalid one. -/
def Prefix.Masked (p : Prefix) : Prefix :=
  if p.bits < 0 then ⟨.zero, -1⟩
  else match p.ip with
    | .zero => ⟨.zero, -1⟩
    | .v4 a =>
      if p.bits > 32 then ⟨.zero, -1⟩
      else PrefixFrom (.v4 (a &&& (2 ^ 32 - 2 ^ (32 - p.bits.toNat)))) p.bits
    | .v6 bytes zone =>
      if p.bits > 128 then ⟨.zero, -1⟩
      else
        let n := p.bits.toNat
        PrefixFrom (.v6 ((List.range 16).map (fun i =>
          bytes.getD i 0 &&& (2 ^ 8 - 2 ^ (8 - (min 8 (n - 8 * i)))))) zone) p.bits

/-- Decimal digit test. -/
def isDigit (c : Char) : Bool := decide ('0' ≤ c ∧ c ≤ '9')

/-- State of the loop of `parseIPv4Fields`. -/
structure v4State where
  val : Nat
  pos : Nat
  digLen : Nat
  fields : List Nat
deriving DecidableEq, Repr

/-- The loop of `parseIPv4Fields` over the remaining characters; `prev` is the
previous character (`none` at index 0). -/
def parseIPv4Loop : List Char → Option Char → v4State → Option v4State
  | [], _, st => some st
  | c :: rest, prev, st =>
    if isDigit c then
      if st.digLen = 1 ∧ st.val = 0 then none
      else
        let val := st.val * 10 + (c.toNat - '0'.toNat)
        if val > 255 then none
        else parseIPv4Loop rest (some c) { st with val := val, digLen := st.digLen + 1 }
    else if c = '.' then
      if prev = none ∨ rest = [] ∨ prev = some '.' then none
      else if st.pos = 3 then none
      else parseIPv4Loop rest (some c)
        { val := 0, pos := st.pos + 1, digLen := 0, fields := st.fields ++ [st.val] }
    else none

/-- Model of `parseIPv4Fields`: the four octets of a dotted quad. -/
def parseIPv4Fields (s : List Char) : Option (List Nat) :=
  match parseIPv4Loop s none ⟨0, 0, 0, []⟩ with
  | none => none
  | some st => if st.pos < 3 then none else some (st.fields ++ [st.val])

/-- Model of `parseIPv4`. -/
def parseIPv4 (s : List Char) : Option Addr :=
  (parseIPv4Fields s).map AddrFrom4

/-- Value of a hexadecimal digit. -/
def hexVal (c : Char) : Option Nat :=
  if '0' ≤ c ∧ c ≤ '9' then some (c.toNat - '0'.toNat)
  else if 'a' ≤ c ∧ c ≤ 'f' then some (c.toNat - 'a'.toNat + 10)
  else if 'A' ≤ c ∧ c ≤ 'F' then some (c.toNat - 'A'.toNat + 10)
  else none

/-- The hexadecimal group scan of `parseIPv6`: the accumulated value, the
number of digits read and the rest; `none` on a fifth digit. -/
def hexGroup : List Char → Nat → Nat → Option (Nat × Nat × List Char)
  | [], acc, off => some (acc, off, [])
  | c :: rest, acc, off =>
    match hexVal c with
    | none => some (acc, off, c :: rest)
    | some d =>
      let acc := acc * 16 + d
      if off > 3 then none
      else if acc > 65535 then none
      else hexGroup rest acc (off + 1)

/-- The group loop of `parseIPv6`: `ip` holds the bytes written so far (`i` of
them); the result is the bytes, the ellipsis position and the unread rest. -/
def parseIPv6Loop : Nat → List Char → List Nat → Option Nat →
    Option (List Nat × Option Nat × List Char)
  | 0, s, ip, ellipsis => some (ip, ellipsis, s)
  | fuel + 1, s, ip, ellipsis =>
    if ip.length < 16 then
      match hexGroup s 0 0 with
      | none => none
      | some (acc, off, rest) =>
        if off = 0 then none
        else if rest.head? = some '.' then
          if ellipsis = none ∧ ip.length ≠ 12 then none
          else if ip.length + 4 > 16 then none
          else match parseIPv4Fields s with
            | none => none
            | some f => some (ip ++ f, ellipsis, [])
        else
          let ip := ip ++ [acc / 256, acc % 256]
          match rest with
          | [] => some (ip, ellipsis, [])
          | c :: rest1 =>
            if c ≠ ':' then none
            else match rest1 with
              | [] => none
              | c1 :: rest2 =>
                if c1 = ':' then
                  if ellipsis.isSome then none
                  else if rest2 = [] then some (ip, some ip.length, [])
                  else parseIPv6Loop fuel rest2 ip (some ip.length)
                else parseIPv6Loop fuel rest1 ip ellipsis
    else some (ip, ellipsis, s)

/-- Model of `parseIPv6`. -/
def parseIPv6 (text : List Char) : Option Addr :=
  let s := text.takeWhile (fun c => c ≠ '%')
  let hasZone := decide (s.length < text.length)
  let zone := text.drop (s.length + 1)
  if hasZone ∧ zone = [] then none
  else
    let lead := decide (s.take 2 = [':', ':'])
    let s1 := if lead then s.drop 2 else s
    if lead ∧ s1 = [] then some (.v6 (List.replicate 16 0) zone)
    else match parseIPv6Loop 8 s1 [] (if lead then some 0 else none) with
      | none => none
      | some (ip, ellipsis, rest) =>
        if rest ≠ [] then none
        else if ip.length < 16 then
          match ellipsis with
          | none => none
          | some e => some (.v6 (ip.take e ++ List.replicate (16 - ip.length) 0 ++ ip.drop e) zone)
        else if ellipsis.isSome then none
        else some (.v6 ip zone)

/-- Model of `ParseAddr`: the first of `.`, `:` and `%` in the text selects the parser. -/
def ParseAddr (s : List Char) : Option Addr :=
  match s.find? (fun c => c = '.' ∨ c = ':' ∨ c = '%') with
  | some '.' => parseIPv4 s
  | some ':' => parseIPv6 s
  | _ => none

/-- Value of a string of decimal digits, as `strconv.Atoi` reads it once a
sign is excluded; `none` for the empty string or a non-digit. -/
def atoiDigits : List Char → Nat → Option Nat
  | [], acc => some acc
  | c :: rest, acc => if isDigit c then atoiDigits rest (acc * 10 + (c.toNat - '0'.toNat)) else none

/-- The error of `ParsePrefix`: the text it was given (the message is left
out). -/
structure parsePrefixError where
  input : String
deriving DecidableEq, Repr

/-- Position of the last `/` of a text: the text before it and the text after
it. -/
def splitLastSlash (s : List Char) : Option (List Char × List Char) :=
  let after := (s.reverse.takeWhile (fun c => c ≠ '/')).reverse
  if after.length = s.length then none
  else some (s.take (s.length - after.length - 1), after)

/-- Model of `ParsePrefix`. -/
def ParsePrefix (s : String) : Except parsePrefixError Prefix :=
  match splitLastSlash s.data with
  | none => .error ⟨s⟩
  | some (addrStr, bitsStr) =>
    match ParseAddr addrStr with
    | none => .error ⟨s⟩
    | some ip =>
      if (match ip with | .v6 _ zone => decide (zone ≠ []) | _ => false) then .error ⟨s⟩
      else if bitsStr.length > 1 ∧ ¬ ('1' ≤ bitsStr.headD '0' ∧ bitsStr.headD '0' ≤ '9') then
        .error ⟨s⟩
      else if bitsStr = [] then .error ⟨s⟩
      else match atoiDigits bitsStr 0 with
        | none => .error ⟨s⟩
        | some bits =>
          let maxBits : Nat := if ip.Is6 then 128 else 32
          if bits > maxBits then .error ⟨s⟩
          else .ok (PrefixFrom ip bits)

/-- Decimal digits of a number, most significant first. -/
def fmtUint (n : Nat) : List Char := (Nat.toDigits 10 n)

/-- The text of `%d` for an `int`. -/
def fmtInt (i : Int) : List Char :=
  if i < 0 then '-' :: fmtUint (-i).toNat else fmtUint i.toNat

/-- Model of `Addr.String` for an IPv4 address: the dotted quad. -/
def Addr.String4 (a : Nat) : List Char :=
  fmtUint (a / 2 ^ 24 % 256) ++ ('.' :: (fmtUint (a / 2 ^ 16 % 256) ++ ('.' ::
    (fmtUint (a / 2 ^ 8 % 256) ++ ('.' :: fmtUint (a % 256))))))

end netip

/-! ## Library model: `encoding/binary` and `math/bits` -/

/-- Model of `binary.BigEndian.Uint32` of a slice of (at least) four bytes. -/
def BigEndianUint32 (b : List Nat) : Nat :=
  b.getD 3 0 % 256 + b.getD 2 0 % 256 * 2 ^ 8 + b.getD 1 0 % 256 * 2 ^ 16
    + b.getD 0 0 % 256 * 2 ^ 24

/-- Model of `binary.BigEndian.PutUint32`: the four bytes of a 32-bit value. -/
def BigEndianPutUint32 (v : Nat) : List Nat :=
  [v / 2 ^ 24 % 256, v / 2 ^ 16 % 256, v / 2 ^ 8 % 256, v % 256]

/-- Number of trailing zero bits of a nonzero number, at most `fuel`. -/
def trailingZeros : Nat → Nat → Nat
  | 0, _ => 0
  | fuel + 1, x => if x % 2 = 1 then 0 else trailingZeros fuel (x / 2) + 1

/-- Model of `bits.TrailingZeros64`: 64 for zero. -/
def TrailingZeros64 (x : Nat) : Nat :=
  if x % 2 ^ 64 = 0 then 64 else trailingZeros 64 (x % 2 ^ 64)

/-! ## `pkg/cidrcalc/cidrcalc.go` -/

/-- The `IPRange` struct: the half-open interval from `start` to `stop`. -/
structure IPRange where
  start : Nat
  stop : Nat
deriving DecidableEq, Repr

/-- The errors `FromCIDR` returns: the error of `ParsePrefix`, and the two
`fmt.Errorf` values. -/
inductive CidrError where
  | parse (e : netip.parsePrefixError) : CidrError
  | invalid (pfx : netip.Prefix) (cidr : String) : CidrError
  | notV4 (pfx : netip.Prefix) (cidr : String) : CidrError
deriving DecidableEq, Repr

/-- Model of `FromCIDR`.  The shift count `32 - prefix.Bits()` is never negative
here: the prefix is valid and its address is IPv4, so its length is at most 32. -/
def FromCIDR (cidr : String) : Except CidrError IPRange :=
  match netip.ParsePrefix cidr with
  | .error err => .error (.parse err)
  | .ok pfx =>
    if !pfx.IsValid then .error (.invalid pfx cidr)
    else if !pfx.Addr.Is4 then .error (.notV4 pfx cidr)
    else
      let start := BigEndianUint32 pfx.Masked.Addr.AsSlice
      let stop := (start + (1 <<< (32 - pfx.Bits).toNat) % 2 ^ 64) % 2 ^ 64
      .ok { start := start, stop := stop }

/-- Model of `toCIDR`: the text of the block at `start` of size `step`.  The slice
handed to `AddrFromSlice` has four bytes, so the panic branch is dead. -/
def toCIDR (start step : Nat) : String :=
  let b4 := BigEndianPutUint32 (start % 2 ^ 32)
  match (netip.AddrFromSlice b4).1 with
  | .v4 a => String.mk (netip.Addr.String4 a ++ '/' :: netip.fmtInt (32 - (TrailingZeros64 step : Int)))
  | _ => String.mk ('/' :: netip.fmtInt (32 - (TrailingZeros64 step : Int)))

/-- The inner loop of `IPRange.CIDRs`: `for start+step > a.stop { step >>= 1 }`. -/
def halveStep : Nat → Nat → Nat → Nat → Option Nat
  | 0, _, _, _ => none
  | fuel + 1, start, step, stop =>
    if (start + step) % 2 ^ 64 > stop then halveStep fuel start (step >>> 1) stop
    else some step

/-- The first value of `step` in an iteration of `IPRange.CIDRs`:
`start & ^(start - 1)`, replaced by `1 << 32` when `start == 0`. -/
def firstStep (start : Nat) : Nat :=
  let step := start &&& (2 ^ 64 - 1 - (start + 2 ^ 64 - 1) % 2 ^ 64)
  if start = 0 then 1 <<< 32 else step

/-- The outer loop of `IPRange.CIDRs`, generic in what is appended for a block
(`toCIDR` in the source). -/
def cidrsLoop {α : Type} (emit : Nat → Nat → α) : Nat → Nat → Nat → List α → Option (List α)
  | 0, _, _, _ => none
  | fuel + 1, start, stop, cidrs =>
    if start < stop then
      match halveStep fuel start (firstStep start) stop with
      | none => none
      | some step => cidrsLoop emit fuel ((start + step) % 2 ^ 64) stop (cidrs ++ [emit start step])
    else some cidrs

/-- Model of `IPRange.CIDRs`; `none` when the fuel does not suffice. -/
def IPRange.CIDRs (fuel : Nat) (a : IPRange) : Option (List String) :=
  cidrsLoop toCIDR fuel a.start a.stop []

/-- The `endpoint` struct. -/
structure endpoint where
  ip : Nat
  ss : Int
deriving DecidableEq, Repr

/-- Model of `byIP.Less` on two elements. -/
def byIP.Less (a b : endpoint) : Bool :=
  if a.ip < b.ip then true
  else if a.ip > b.ip then false
  else decide (a.ss > b.ss)

/-- The order `sort.Sort` leaves a `byIP` in: no element is `Less` than one
before it. -/
def byIP.le (a b : endpoint) : Prop := byIP.Less b a = false

instance : DecidableRel byIP.le := fun a b => inferInstanceAs (Decidable (byIP.Less b a = false))

/-- Model of `sort.Sort(byIP(endpoints))`.  The library sort is not stable, but two
endpoints neither of which is `Less` than the other are equal, so the sorted
slice is the same for every correct sort (`sortByIP_unique`). -/
def sortByIP (endpoints : List endpoint) : List endpoint :=
  endpoints.insertionSort byIP.le

/-- The `IPRanges` struct. -/
structure IPRanges where
  ranges : List IPRange
  simplified : Bool
deriving DecidableEq, Repr

/-- The loop of `FromCIDRs`. -/
def FromCIDRs.loop : List String → List IPRange → Except CidrError (List IPRange)
  | [], ranges => .ok ranges
  | cidr :: rest, ranges =>
    match FromCIDR cidr with
    | .error err => .error err
    | .ok ipRange => FromCIDRs.loop rest (ranges ++ [ipRange])

/-- Model of `FromCIDRs`. -/
def FromCIDRs (cidrs : List String) : Except CidrError IPRanges :=
  match FromCIDRs.loop cidrs [] with
  | .error err => .error err
  | .ok ranges => .ok { ranges := ranges, simplified := decide (cidrs.length < 2) }

/-- The loop of `IPRanges.CIDRs`. -/
def IPRanges.CIDRs.loop (fuel : Nat) : List IPRange → List String → Option (List String)
  | [], cidrs => some cidrs
  | ipRange :: rest, cidrs =>
    match ipRange.CIDRs fuel with
    | none => none
    | some l => IPRanges.CIDRs.loop fuel rest (cidrs ++ l)

/-- Model of `IPRanges.CIDRs`. -/
def IPRanges.CIDRs (fuel : Nat) (a : IPRanges) : Option (List String) :=
  IPRanges.CIDRs.loop fuel a.ranges []

/-- Model of `IPRanges.Add`. -/
def IPRanges.Add (a b : IPRanges) : IPRanges :=
  { ranges := a.ranges ++ b.ranges, simplified := false }

/-- The panic of `endpointsToRanges`. -/
inductive Panic where
  | unclosedEndpoints (endpoints : List endpoint) : Panic
deriving DecidableEq, Repr

/-- The variables of the loop of `endpointsToRanges`. -/
structure sweepState where
  cnt : Int
  start : Nat
  ranges : List IPRange
deriving DecidableEq, Repr

/-- One iteration of the loop of `endpointsToRanges`. -/
def sweepStep (st : sweepState) (ep : endpoint) : sweepState :=
  let newCnt := st.cnt + ep.ss
  if st.cnt = 0 ∧ newCnt = 1 then
    { cnt := newCnt, start := ep.ip, ranges := st.ranges }
  else if st.cnt = 1 ∧ newCnt = 0 ∧ st.start ≠ ep.ip then
    { cnt := newCnt, start := st.start, ranges := st.ranges ++ [{ start := st.start, stop := ep.ip }] }
  else
    { cnt := newCnt, start := st.start, ranges := st.ranges }

/-- Model of `endpointsToRanges`. -/
def endpointsToRanges (endpoints : List endpoint) : Except Panic (List IPRange) :=
  let st := endpoints.foldl sweepStep { cnt := 0, start := 0, ranges := [] }
  if st.cnt ≠ 0 then .error (.unclosedEndpoints endpoints) else .ok st.ranges

/-- Model of `IPRanges.toEndpoints`. -/
def IPRanges.toEndpoints (a : IPRanges) (invert : Bool) : List endpoint :=
  let ss : Int × Int := if invert then (-1, 1) else (1, -1)
  a.ranges.foldl (fun endpoints ipRange =>
    endpoints ++ [{ ip := ipRange.start, ss := ss.1 }, { ip := ipRange.stop, ss := ss.2 }]) []

/-- Model of `IPRanges.Simplify`. -/
def IPRanges.Simplify (a : IPRanges) : Except Panic IPRanges :=
  if a.simplified then .ok a
  else
    let endpoints := sortByIP (a.toEndpoints false)
    match endpointsToRanges endpoints with
    | .error p => .error p
    | .ok ranges => .ok { ranges := ranges, simplified := true }

/-- Model of `IPRanges.Subtract`. -/
def IPRanges.Subtract (a b : IPRanges) : Except Panic IPRanges :=
  match a.Simplify with
  | .error p => .error p
  | .ok a =>
    let aEndpoints := a.toEndpoints false
    let bEndpoints := b.toEndpoints true
    let endpoints := sortByIP (aEndpoints ++ bEndpoints)
    match endpointsToRanges endpoints with
    | .error p => .error p
    | .ok ranges => .ok { ranges := ranges, simplified := true }

/-! ## Specification vocabulary -/

/-- Address `p` lies in the half-open range `r`. -/
def IPRange.contains (r : IPRange) (p : Nat) : Prop := r.start ≤ p ∧ p < r.stop

instance (r : IPRange) (p : Nat) : Decidable (r.contains p) :=
  inferInstanceAs (Decidable (_ ∧ _))

/-- Address `p` lies in some range of the list. -/
def covers (l : List IPRange) (p : Nat) : Prop := ∃ r ∈ l, r.contains p

/-- Sum of the deltas of the endpoints at or below `p`. -/
def depth (eps : List endpoint) (p : Nat) : Int :=
  ((eps.filter (fun e => decide (e.ip ≤ p))).map endpoint.ss).sum

/-- Every delta is `+1` or `-1`. -/
def unitDeltas (eps : List endpoint) : Prop := ∀ e ∈ eps, e.ss = 1 ∨ e.ss = -1

/-- The loop of `endpointsToRanges` from an arbitrary state. -/
def sweepFrom (st : sweepState) (l : List endpoint) : sweepState := l.foldl sweepStep st

/-- State invariant while the endpoints at or below `p` are read: no range
emitted so far reaches beyond `p`, and an open range starts at or below `p`. -/
def belowInv (p : Nat) (st : sweepState) : Prop :=
  (∀ r ∈ st.ranges, r.stop ≤ p) ∧ (1 ≤ st.cnt → st.start ≤ p)

/-- State invariant while the endpoints above `p` are read from a closed state:
`p` stays uncovered. -/
def aboveInv (p : Nat) (st : sweepState) : Prop :=
  ¬ covers st.ranges p ∧ (1 ≤ st.cnt → p < st.start)

/-- A range list in canonical form: every range is non-empty and each range
stops strictly before every later one starts. -/
def Canonical (l : List IPRange) : Prop :=
  l.Pairwise (fun r1 r2 => r1.stop < r2.start) ∧ ∀ r ∈ l, r.start < r.stop

/-- State invariant of the sweep over a list sorted by `byIP.Less`, stated
against the endpoints still to be read. -/
def canonInv (st : sweepState) (rest : List endpoint) : Prop :=
  Canonical st.ranges ∧
  (∀ r ∈ st.ranges, ∀ e ∈ rest, r.stop ≤ e.ip ∧ (e.ss = 1 → r.stop < e.ip)) ∧
  (1 ≤ st.cnt → (∀ r ∈ st.ranges, r.stop < st.start) ∧ ∀ e ∈ rest, st.start ≤ e.ip)

/-- The two endpoints `toEndpoints` appends for one range. -/
def rangeEndpoints (invert : Bool) (r : IPRange) : List endpoint :=
  [{ ip := r.start, ss := if invert then -1 else 1 },
   { ip := r.stop, ss := if invert then 1 else -1 }]

/-- Number of ranges of the list that contain `p`. -/
def coverCount (l : List IPRange) (p : Nat) : Nat :=
  (l.filter (fun r => decide (r.contains p))).length

/-- The 32-bit value of four octets, most significant first. -/
def quadValue (f : List Nat) : Nat :=
  f.getD 0 0 % 256 * 2 ^ 24 + f.getD 1 0 % 256 * 2 ^ 16 + f.getD 2 0 % 256 * 2 ^ 8
    + f.getD 3 0 % 256

/-- The ranges are non-empty and lie within the 32-bit address space. -/
def WellFormed (l : List IPRange) : Prop := ∀ r ∈ l, r.start < r.stop ∧ r.stop ≤ 2 ^ 32

/-- The data-model invariant of a range set: a set flagged simplified holds a
canonical range list. -/
def IPRanges.Inv (a : IPRanges) : Prop := a.simplified = true → Canonical a.ranges

/-- The range sets of the public operations. -/
inductive Built : IPRanges → Prop where
  | fromCIDRs (cidrs : List String) (x : IPRanges) : FromCIDRs cidrs = .ok x → Built x
  | add (a b : IPRanges) : Built a → Built b → Built (a.Add b)
  | simplify (a x : IPRanges) : Built a → a.Simplify = .ok x → Built x
  | subtract (a b x : IPRanges) : Built a → Built b → a.Subtract b = .ok x → Built x

/-- No address lies in both ranges. -/
def IPRange.disjoint (r1 r2 : IPRange) : Prop := ∀ p, ¬ (r1.contains p ∧ r2.contains p)

/-- The block the loop of `IPRange.CIDRs` takes at `s`: the largest power of
two, at most `2 ^ 32`, that divides `s` and fits before `t`. -/
def GreedyStep (s t step : Nat) : Prop :=
  ∃ j, j ≤ 32 ∧ step = 2 ^ j ∧ 2 ^ j ∣ s ∧ s + 2 ^ j ≤ t ∧
    ∀ j', j' ≤ 32 → 2 ^ j' ∣ s → s + 2 ^ j' ≤ t → j' ≤ j

/-- The list of `(start, step)` pairs is a run of the loop from `s` to `t`. -/
def Trace : List (Nat × Nat) → Nat → Nat → Prop
  | [], s, t => s = t
  | b :: rest, s, t => b.1 = s ∧ GreedyStep s t b.2 ∧ Trace rest (s + b.2) t

/-- A CIDR block: its address and its prefix length. -/
structure Block where
  addr : Nat
  bits : Int
deriving DecidableEq, Repr

/-- Number of addresses of a block. -/
def Block.size (b : Block) : Nat := 2 ^ (32 - b.bits).toNat

/-- Address `p` lies in the block. -/
def Block.contains (b : Block) (p : Nat) : Prop := b.addr ≤ p ∧ p < b.addr + b.size

/-- The text `a.b.c.d/n` of a block. -/
def Block.text (b : Block) : String :=
  String.mk (netip.Addr.String4 b.addr ++ '/' :: netip.fmtInt b.bits)

/-- The block `toCIDR` prints for `start` and `step`. -/
def toBlock (start step : Nat) : Block :=
  { addr := start % 2 ^ 32, bits := 32 - (TrailingZeros64 step : Int) }

/-- The blocks of `IPRange.CIDRs` before they are printed. -/
def IPRange.blocks (fuel : Nat) (a : IPRange) : Option (List Block) :=
  cidrsLoop toBlock fuel a.start a.stop []

/-- The blocks tile the interval from `s` to `t`: each is aligned, has a prefix
length between 0 and 32, starts where the one before ends, the first starts at
`s` and the last ends at `t`. -/
def Tiles : List Block → Nat → Nat → Prop
  | [], s, t => s = t
  | b :: bs, s, t =>
    b.addr = s ∧ 0 ≤ b.bits ∧ b.bits ≤ 32 ∧ b.size ∣ b.addr ∧ Tiles bs (s + b.size) t

/-- A CIDR-aligned block: prefix length between 0 and 32, address a multiple of
the size. -/
def Block.aligned (b : Block) : Prop := 0 ≤ b.bits ∧ b.bits ≤ 32 ∧ b.size ∣ b.addr

/-- No aligned block inside the interval from `s0` to `t` straddles `cur`. -/
def noStraddle (s0 t cur : Nat) : Prop :=
  ∀ x i, i ≤ 32 → 2 ^ i ∣ x → s0 ≤ x → x + 2 ^ i ≤ t → ¬ (x < cur ∧ cur < x + 2 ^ i)

/-- The aligned block at `g` of size `2 ^ j` lies in no other aligned block
inside the interval from `s0` to `t`. -/
def maximalIn (s0 t g j : Nat) : Prop :=
  ∀ x i, i ≤ 32 → 2 ^ i ∣ x → s0 ≤ x → x + 2 ^ i ≤ t → x ≤ g → g + 2 ^ j ≤ x + 2 ^ i →
    x = g ∧ i = j

/-- The digit part of the loop of `parseIPv4Fields`, from the value and digit
count reached so far. -/
def scanDigits : List Char → Nat → Nat → Option (Nat × Nat)
  | [], val, n => some (val, n)
  | c :: ds, val, n =>
    if netip.isDigit c then
      if n = 1 ∧ val = 0 then none
      else if val * 10 + (c.toNat - '0'.toNat) > 255 then none
      else scanDigits ds (val * 10 + (c.toNat - '0'.toNat)) (n + 1)
    else none

/-- The canonical text `a.b.c.d/n` of the block at address `v` with prefix
length `n`: decimal octets and length without leading zeros. -/
def cidrText (v n : Nat) : String :=
  String.mk (netip.Addr.String4 v ++ '/' :: netip.fmtUint n)

/-- The value `v` with its low `k` bits cleared. -/
def clearLow (v k : Nat) : Nat := v - v % 2 ^ k

/-- Invariant of the loop of `parseIPv4Fields`: as many octets as dots, at most
three dots, every octet at most 255. -/
def v4Inv (st : netip.v4State) : Prop :=
  st.fields.length = st.pos ∧ st.pos ≤ 3 ∧ st.val ≤ 255 ∧ ∀ x ∈ st.fields, x ≤ 255

/-- State invariant of the sweep: every endpoint of an emitted range, and the
start of an open range, is the address of an endpoint read so far (`S` holds
those addresses). -/
def fromInputInv (S : Nat → Prop) (st : sweepState) : Prop :=
  (∀ r ∈ st.ranges, S r.start ∧ S r.stop) ∧ (1 ≤ st.cnt → S st.start)

instance (l : List IPRange) (p : Nat) : Decidable (covers l p) :=
  inferInstanceAs (Decidable (∃ r ∈ l, r.contains p))

/-- Number of 32-bit addresses that lie in some range of the list, each counted
once. -/
def coveredCount (l : List IPRange) : Nat :=
  ((Finset.range (2 ^ 32)).filter (fun p => covers l p)).card

/-- The runs of the loop of `IPRange.CIDRs`, one for each range of the list. -/
def Traces (rs : List IPRange) (trs : List (List (Nat × Nat))) : Prop :=
  List.Forall₂ (fun r tr => Trace tr r.start r.stop) rs trs

instance (l : List IPRange) : Decidable (WellFormed l) :=
  inferInstanceAs (Decidable (∀ r ∈ l, r.start < r.stop ∧ r.stop ≤ 2 ^ 32))

instance (l : List IPRange) : Decidable (Canonical l) :=
  inferInstanceAs (Decidable (_ ∧ ∀ r ∈ l, r.start < r.stop))

instance (a : IPRanges) : Decidable a.Inv :=
  inferInstanceAs (Decidable (a.simplified = true → Canonical a.ranges))

/-! ## Slices and their backing arrays

The list model above gives the value of a range list when an operation returns
it.  What follows models where the list is stored: a slice is a window on a
backing array, and `append` writes into the array of its first argument when
the capacity allows. -/

namespace Slices

/-- A Go slice of `IPRange`: the backing array it points into (always at its
first cell here), its length and its capacity. -/
structure Slice where
  arr : Nat
  len : Nat
  cap : Nat
deriving DecidableEq, Repr

/-- The backing arrays allocated so far, each with as many cells as its
capacity. -/
abbrev Heap := List (List IPRange)

/-- The elements of a slice. -/
def Heap.read (h : Heap) (s : Slice) : List IPRange := (h.getD s.arr []).take s.len

/-- The slice literal `[]IPRange{}`: no cell. -/
def emptySlice : Slice := { arr := 0, len := 0, cap := 0 }

/-- The table `class_to_size` of the gc runtime (`runtime/sizeclasses.go`): the
sizes, in bytes, of the small allocation classes. -/
def class_to_size : List Nat :=
  [0, 8, 16, 24, 32, 48, 64, 80, 96, 112, 128, 144, 160, 176, 192, 208, 224, 240, 256,
    288, 320, 352, 384, 416, 448, 480, 512, 576, 640, 704, 768, 896, 1024,
    1152, 1280, 1408, 1536, 1792, 2048, 2304, 2688, 3072, 3200, 3456, 4096,
    4864, 5376, 6144, 6528, 6784, 6912, 8192, 9472, 9728, 10240, 10880, 12288,
    13568, 14336, 16384, 18432, 19072, 20480, 21760, 24576, 27264, 28672, 32768]

/-- Model of `roundupsize` of the gc runtime, for memory without pointers (an
`IPRange` is two `uint64`): the bytes the allocator hands out for a request of
`size` bytes, the smallest size class that holds a small request, and whole
pages of 8192 bytes for a large one. -/
def roundupsize (size : Nat) : Nat :=
  if size ≤ 32768 - 8 then
    (class_to_size.find? (fun c => decide (size ≤ c))).getD size
  else
    (size + 8191) / 8192 * 8192

/-- The loop of `nextslicecap`: grow by a quarter and 192 until `newLen`
fits.  Every turn adds at least 192, so `fuel = newLen` turns are enough
(`nextslicecap_loop_ge`). -/
def nextslicecap.loop : Nat → Nat → Nat → Nat
  | 0, newcap, _ => newcap
  | fuel + 1, newcap, newLen =>
    if newcap + (newcap + 3 * 256) / 4 ≥ newLen then newcap + (newcap + 3 * 256) / 4
    else nextslicecap.loop fuel (newcap + (newcap + 3 * 256) / 4) newLen

/-- Model of `nextslicecap` of the gc runtime (Go 1.18 and later, where the
doubling stops at 256 elements): the capacity `append` asks for when `newLen`
elements do not fit in `oldCap`. -/
def nextslicecap (newLen oldCap : Nat) : Nat :=
  if newLen > oldCap + oldCap then newLen
  else if oldCap < 256 then oldCap + oldCap
  else nextslicecap.loop newLen oldCap newLen

/-- Capacity of the array `append` allocates, in the gc runtime (`growslice`),
for elements of 16 bytes: the capacity of `nextslicecap`, raised to what the
allocated size class holds.  (The overflow checks of `growslice` are left out:
they need a slice of more than 2^59 elements.) -/
def gcGrow (oldCap newLen : Nat) : Nat :=
  roundupsize (nextslicecap newLen oldCap * 16) / 16

/-- The cells of an array after `xs` is written from cell `i` on. -/
def writeAt (cells : List IPRange) (i : Nat) (xs : List IPRange) : List IPRange :=
  cells.take i ++ xs ++ cells.drop (i + xs.length)

/-- The built-in `append(s, xs...)`: in place when the capacity of `s` allows,
into a new array of capacity `grow s.cap newLen` otherwise. -/
def appendSlice (grow : Nat → Nat → Nat) (h : Heap) (s : Slice) (xs : List IPRange) :
    Heap × Slice :=
  if s.len + xs.length ≤ s.cap then
    (h.set s.arr (writeAt (h.getD s.arr []) s.len xs), { s with len := s.len + xs.length })
  else
    let cap := grow s.cap (s.len + xs.length)
    (h ++ [h.read s ++ xs ++ List.replicate (cap - (s.len + xs.length)) ⟨0, 0⟩],
      { arr := h.length, len := s.len + xs.length, cap := cap })

/-- The `IPRanges` struct, with its range list as a slice. -/
structure IPRanges where
  ranges : Slice
  simplified : Bool
deriving DecidableEq, Repr

/-- The loop of `FromCIDRs`, on slices. -/
def FromCIDRs.loop (grow : Nat → Nat → Nat) :
    List String → Heap → Slice → Except CidrError (Heap × Slice)
  | [], h, ranges => .ok (h, ranges)
  | cidr :: rest, h, ranges =>
    match FromCIDR cidr with
    | .error err => .error err
    | .ok ipRange =>
      FromCIDRs.loop grow rest (appendSlice grow h ranges [ipRange]).1
        (appendSlice grow h ranges [ipRange]).2

/-- Model of `FromCIDRs`, on slices. -/
def FromCIDRs (grow : Nat → Nat → Nat) (cidrs : List String) (h : Heap) :
    Except CidrError (Heap × IPRanges) :=
  match FromCIDRs.loop grow cidrs h emptySlice with
  | .error err => .error err
  | .ok (h', ranges) => .ok (h', { ranges := ranges, simplified := decide (cidrs.length < 2) })

/-- Model of `IPRanges.Add`, on slices: `append(a.ranges, b.ranges...)`. -/
def Add (grow : Nat → Nat → Nat) (h : Heap) (a b : IPRanges) : Heap × IPRanges :=
  ((appendSlice grow h a.ranges (h.read b.ranges)).1,
    { ranges := (appendSlice grow h a.ranges (h.read b.ranges)).2, simplified := false })

/-- The slice lies within an allocated array of the heap. -/
def Slice.valid (h : Heap) (s : Slice) : Prop :=
  s.len ≤ s.cap ∧ (s.cap = 0 ∨ (s.arr < h.length ∧ (h.getD s.arr []).length = s.cap))

end Slices

/-! ## The order of `byIP` -/

theorem byIP.le_iff (a b : endpoint) :
    byIP.le a b ↔ a.ip < b.ip ∨ (a.ip = b.ip ∧ b.ss ≤ a.ss) := by
  unfold byIP.le byIP.Less
  by_cases h1 : b.ip < a.ip
  · simp [h1]; omega
  · by_cases h2 : b.ip > a.ip
    · simp [h1, h2]
    · simp [h1, h2]; omega

instance : IsTotal endpoint byIP.le := ⟨fun a b => by
  simp only [byIP.le_iff]; omega⟩

instance : IsTrans endpoint byIP.le := ⟨fun a b c => by
  simp only [byIP.le_iff]; omega⟩

instance : IsAntisymm endpoint byIP.le := ⟨fun a b => by
  simp only [byIP.le_iff]
  intro h1 h2
  cases a; cases b
  simp only [endpoint.mk.injEq] at *
  omega⟩

theorem sortByIP_sorted (l : List endpoint) : (sortByIP l).Sorted byIP.le :=
  List.sorted_insertionSort _ l

theorem sortByIP_perm (l : List endpoint) : (sortByIP l).Perm l :=
  List.perm_insertionSort _ l

/-- Every sorted rearrangement of an endpoint list is the one `sortByIP`
returns: the result of `sort.Sort` does not depend on the algorithm. -/
theorem sortByIP_unique (l l' : List endpoint) (hp : l'.Perm l) (hs : l'.Sorted byIP.le) :
    l' = sortByIP l :=
  List.eq_of_perm_of_sorted (hp.trans (sortByIP_perm l).symm) hs (sortByIP_sorted l)

theorem sorted_ip_of_sorted {l : List endpoint} (h : l.Sorted byIP.le) :
    l.Pairwise (fun a b => a.ip ≤ b.ip) := by
  refine List.Pairwise.imp ?_ h
  intro a b hab
  rw [byIP.le_iff] at hab
  omega

/-! ## The sweep: counting -/

theorem sweepFrom_nil (st : sweepState) : sweepFrom st [] = st := rfl

theorem sweepFrom_cons (st : sweepState) (e : endpoint) (l : List endpoint) :
    sweepFrom st (e :: l) = sweepFrom (sweepStep st e) l := rfl

theorem sweepFrom_append (st : sweepState) (l1 l2 : List endpoint) :
    sweepFrom st (l1 ++ l2) = sweepFrom (sweepFrom st l1) l2 := by
  simp [sweepFrom, List.foldl_append]

theorem sweepStep_cnt (st : sweepState) (e : endpoint) :
    (sweepStep st e).cnt = st.cnt + e.ss := by
  simp only [sweepStep]
  split_ifs <;> rfl

theorem sweepFrom_cnt (st : sweepState) (l : List endpoint) :
    (sweepFrom st l).cnt = st.cnt + (l.map endpoint.ss).sum := by
  induction l generalizing st with
  | nil => simp [sweepFrom_nil]
  | cons e l ih => rw [sweepFrom_cons, ih, sweepStep_cnt]; simp [add_assoc]

theorem sweepStep_ranges_sub (st : sweepState) (e : endpoint) :
    ∀ r ∈ st.ranges, r ∈ (sweepStep st e).ranges := by
  intro r hr
  simp only [sweepStep]
  split_ifs <;> simp [hr]

theorem sweepFrom_ranges_sub (st : sweepState) (l : List endpoint) :
    ∀ r ∈ st.ranges, r ∈ (sweepFrom st l).ranges := by
  induction l generalizing st with
  | nil => intro r hr; exact hr
  | cons e l ih =>
    intro r hr
    rw [sweepFrom_cons]
    exact ih _ r (sweepStep_ranges_sub st e r hr)

theorem sweepStep_belowInv {p : Nat} {st : sweepState} {e : endpoint}
    (he : e.ip ≤ p) (hu : e.ss = 1 ∨ e.ss = -1) (h : belowInv p st) :
    belowInv p (sweepStep st e) := by
  obtain ⟨h1, h2⟩ := h
  simp only [sweepStep]
  split_ifs with c1 c2
  · exact ⟨h1, fun _ => he⟩
  · refine ⟨?_, fun hc => ?_⟩
    · intro r hr
      rcases List.mem_append.1 hr with hr | hr
      · exact h1 r hr
      · simp at hr; subst hr; exact he
    · simp at hc; omega
  · refine ⟨h1, fun hc => h2 ?_⟩
    simp at hc
    by_contra hlt
    apply c1
    constructor <;> omega

theorem sweepFrom_belowInv {p : Nat} (l : List endpoint) (st : sweepState)
    (hl : ∀ e ∈ l, e.ip ≤ p) (hu : unitDeltas l) (h : belowInv p st) :
    belowInv p (sweepFrom st l) := by
  induction l generalizing st with
  | nil => exact h
  | cons e l ih =>
    rw [sweepFrom_cons]
    exact ih _ (fun x hx => hl x (List.mem_cons_of_mem _ hx))
      (fun x hx => hu x (List.mem_cons_of_mem _ hx))
      (sweepStep_belowInv (hl e (List.mem_cons_self _ _)) (hu e (List.mem_cons_self _ _)) h)

/-- With only endpoints above `p` left, an open range that started at or below
`p` is closed above `p`, so `p` is covered at the end. -/
theorem sweepFrom_covers {p : Nat} (l : List endpoint) (st : sweepState)
    (hl : ∀ e ∈ l, p < e.ip) (hu : unitDeltas l) (hc : 1 ≤ st.cnt) (hs : st.start ≤ p)
    (hz : (sweepFrom st l).cnt = 0) : covers (sweepFrom st l).ranges p := by
  induction l generalizing st with
  | nil => rw [sweepFrom_nil] at hz; omega
  | cons e l ih =>
    rw [sweepFrom_cons] at hz ⊢
    have hep := hl e (List.mem_cons_self _ _)
    have hl' : ∀ x ∈ l, p < x.ip := fun x hx => hl x (List.mem_cons_of_mem _ hx)
    have hu' : unitDeltas l := fun x hx => hu x (List.mem_cons_of_mem _ hx)
    by_cases hclose : st.cnt = 1 ∧ e.ss = -1
    · have hr : (⟨st.start, e.ip⟩ : IPRange) ∈ (sweepStep st e).ranges := by
        simp only [sweepStep]
        rw [if_neg (by omega), if_pos ⟨hclose.1, by omega, by omega⟩]
        simp
      exact ⟨_, sweepFrom_ranges_sub _ l _ hr, hs, hep⟩
    · have h1 : 1 ≤ (sweepStep st e).cnt := by
        rw [sweepStep_cnt]
        rcases hu e (List.mem_cons_self _ _) with h | h <;> omega
      have h2 : (sweepStep st e).start = st.start := by
        simp only [sweepStep]
        split_ifs with c1 <;> first | rfl | omega
      exact ih _ hl' hu' h1 (h2 ▸ hs) hz

theorem sweepStep_aboveInv {p : Nat} {st : sweepState} {e : endpoint}
    (he : p < e.ip) (hu : e.ss = 1 ∨ e.ss = -1) (h : aboveInv p st) :
    aboveInv p (sweepStep st e) := by
  obtain ⟨h1, h2⟩ := h
  simp only [sweepStep]
  split_ifs with c1 c2
  · exact ⟨h1, fun _ => he⟩
  · refine ⟨?_, fun hc => ?_⟩
    · rintro ⟨r, hr, hrp⟩
      rcases List.mem_append.1 hr with hr | hr
      · exact h1 ⟨r, hr, hrp⟩
      · simp at hr; subst hr
        have := h2 (by omega)
        have := hrp.1
        simp at this; omega
    · simp at hc; omega
  · refine ⟨h1, fun hc => h2 ?_⟩
    simp at hc
    by_contra hlt
    apply c1
    constructor <;> omega

theorem sweepFrom_aboveInv {p : Nat} (l : List endpoint) (st : sweepState)
    (hl : ∀ e ∈ l, p < e.ip) (hu : unitDeltas l) (h : aboveInv p st) :
    aboveInv p (sweepFrom st l) := by
  induction l generalizing st with
  | nil => exact h
  | cons e l ih =>
    rw [sweepFrom_cons]
    exact ih _ (fun x hx => hl x (List.mem_cons_of_mem _ hx))
      (fun x hx => hu x (List.mem_cons_of_mem _ hx))
      (sweepStep_aboveInv (hl e (List.mem_cons_self _ _)) (hu e (List.mem_cons_self _ _)) h)

theorem split_at_of_sorted (p : Nat) {l : List endpoint}
    (h : l.Pairwise (fun a b => a.ip ≤ b.ip)) :
    l = l.filter (fun e => decide (e.ip ≤ p)) ++ l.filter (fun e => decide (p < e.ip)) := by
  induction l with
  | nil => rfl
  | cons e l ih =>
    rw [List.pairwise_cons] at h
    by_cases he : e.ip ≤ p
    · rw [List.filter_cons_of_pos (by simpa using he),
        List.filter_cons_of_neg (by simpa using he)]
      simp only [List.cons_append]
      rw [← ih h.2]
    · have hall : ∀ x ∈ l, ¬ x.ip ≤ p := fun x hx => by have := h.1 x hx; omega
      have e1 : (e :: l).filter (fun e => decide (e.ip ≤ p)) = [] := by
        rw [List.filter_eq_nil_iff]
        intro x hx
        rcases List.mem_cons.1 hx with rfl | hx
        · simpa using he
        · simpa using hall x hx
      have e2 : (e :: l).filter (fun e => decide (p < e.ip)) = e :: l := by
        rw [List.filter_eq_self]
        intro x hx
        rcases List.mem_cons.1 hx with rfl | hx
        · simp; omega
        · have := hall x hx; simp; omega
      rw [e1, e2]; rfl

/-- Coverage of the sweep: on an endpoint list sorted by address, with unit
deltas that sum to zero, `endpointsToRanges` returns a range list that covers
exactly the addresses of depth at least one. -/
theorem endpointsToRanges_covers {l : List endpoint}
    (hs : l.Pairwise (fun a b => a.ip ≤ b.ip)) (hu : unitDeltas l)
    (hz : (l.map endpoint.ss).sum = 0) :
    ∃ out, endpointsToRanges l = .ok out ∧ ∀ p, covers out p ↔ 1 ≤ depth l p := by
  have hcnt : (sweepFrom ⟨0, 0, []⟩ l).cnt = 0 := by rw [sweepFrom_cnt]; simpa using hz
  refine ⟨(sweepFrom ⟨0, 0, []⟩ l).ranges, ?_, ?_⟩
  · unfold endpointsToRanges
    simp only []
    rw [if_neg]
    · rfl
    · simpa [sweepFrom] using hcnt
  · intro p
    have hsplit := split_at_of_sorted p hs
    set lo := l.filter (fun e => decide (e.ip ≤ p)) with hlo
    set hi := l.filter (fun e => decide (p < e.ip)) with hhi
    have hlo_le : ∀ e ∈ lo, e.ip ≤ p := fun e he => by simpa using (List.mem_filter.1 he).2
    have hhi_gt : ∀ e ∈ hi, p < e.ip := fun e he => by simpa using (List.mem_filter.1 he).2
    have hlo_u : unitDeltas lo := fun e he => hu e (List.mem_filter.1 he).1
    have hhi_u : unitDeltas hi := fun e he => hu e (List.mem_filter.1 he).1
    have hmid := sweepFrom_belowInv lo ⟨0, 0, []⟩ hlo_le hlo_u
      ⟨by simp, by simp⟩
    have hmidc : (sweepFrom ⟨0, 0, []⟩ lo).cnt = depth l p := by
      rw [sweepFrom_cnt]; simp [depth, hlo]
    have hrun : sweepFrom ⟨0, 0, []⟩ l = sweepFrom (sweepFrom ⟨0, 0, []⟩ lo) hi := by
      rw [← sweepFrom_append, ← hsplit]
    rw [hrun] at hcnt ⊢
    constructor
    · intro hcov
      by_contra hlt
      have hab : aboveInv p (sweepFrom ⟨0, 0, []⟩ lo) := by
        refine ⟨?_, fun h => ?_⟩
        · rintro ⟨r, hr, hrp⟩
          have := hmid.1 r hr
          have := hrp.2
          omega
        · rw [hmidc] at h; omega
      exact (sweepFrom_aboveInv hi _ hhi_gt hhi_u hab).1 hcov
    · intro hd
      exact sweepFrom_covers hi _ hhi_gt hhi_u (by rw [hmidc]; exact hd)
        (hmid.2 (by rw [hmidc]; exact hd)) hcnt

/-! ## The sweep: shape of the output -/

theorem sweepStep_canonInv {st : sweepState} {e : endpoint} {rest : List endpoint}
    (hs : (e :: rest).Sorted byIP.le) (hu : e.ss = 1 ∨ e.ss = -1)
    (h : canonInv st (e :: rest)) : canonInv (sweepStep st e) rest := by
  obtain ⟨⟨hpw, hwf⟩, hfut, hopen⟩ := h
  have hle : ∀ x ∈ rest, e.ip < x.ip ∨ (e.ip = x.ip ∧ x.ss ≤ e.ss) := fun x hx => by
    have := List.rel_of_sorted_cons hs x hx
    rwa [byIP.le_iff] at this
  have hfut' : ∀ r ∈ st.ranges, ∀ x ∈ rest, r.stop ≤ x.ip ∧ (x.ss = 1 → r.stop < x.ip) :=
    fun r hr x hx => hfut r hr x (List.mem_cons_of_mem _ hx)
  simp only [sweepStep]
  split_ifs with c1 c2
  · -- a range is opened at `e`
    refine ⟨⟨hpw, hwf⟩, hfut', fun _ => ⟨fun r hr => ?_, fun x hx => ?_⟩⟩
    · exact (hfut r hr e (List.mem_cons_self _ _)).2 (by omega)
    · show e.ip ≤ x.ip
      have := hle x hx; omega
  · -- the open range is closed at `e`
    obtain ⟨hbefore, hafter⟩ := hopen (by omega)
    have hlt : st.start < e.ip := by
      have := hafter e (List.mem_cons_self _ _)
      omega
    refine ⟨⟨?_, ?_⟩, ?_, fun hc => ?_⟩
    · rw [List.pairwise_append]
      refine ⟨hpw, List.pairwise_singleton _ _, ?_⟩
      intro r hr r' hr'
      simp at hr'; subst hr'
      exact hbefore r hr
    · intro r hr
      rcases List.mem_append.1 hr with hr | hr
      · exact hwf r hr
      · simp at hr; subst hr; exact hlt
    · intro r hr x hx
      rcases List.mem_append.1 hr with hr | hr
      · exact hfut' r hr x hx
      · simp at hr; subst hr
        have := hle x hx
        simp only
        omega
    · simp at hc; omega
  · refine ⟨⟨hpw, hwf⟩, hfut', fun hc => ?_⟩
    simp at hc
    have h1 : 1 ≤ st.cnt := by
      by_contra hlt
      apply c1
      constructor <;> omega
    obtain ⟨hbefore, hafter⟩ := hopen h1
    exact ⟨hbefore, fun x hx => hafter x (List.mem_cons_of_mem _ hx)⟩

theorem sweepFrom_canonInv (l : List endpoint) (st : sweepState)
    (hs : l.Sorted byIP.le) (hu : unitDeltas l) (h : canonInv st l) :
    canonInv (sweepFrom st l) [] := by
  induction l generalizing st with
  | nil => exact h
  | cons e l ih =>
    rw [sweepFrom_cons]
    exact ih _ (List.Sorted.of_cons hs) (fun x hx => hu x (List.mem_cons_of_mem _ hx))
      (sweepStep_canonInv hs (hu e (List.mem_cons_self _ _)) h)

/-- On a list sorted by `byIP.Less` with unit deltas, whatever
`endpointsToRanges` returns is canonical. -/
theorem endpointsToRanges_canonical {l : List endpoint} {out : List IPRange}
    (hs : l.Sorted byIP.le) (hu : unitDeltas l) (h : endpointsToRanges l = .ok out) :
    Canonical out := by
  have hinv := sweepFrom_canonInv l ⟨0, 0, []⟩ hs hu
    ⟨⟨List.Pairwise.nil, by simp⟩, by simp, by simp⟩
  unfold endpointsToRanges at h
  simp only [] at h
  split_ifs at h
  injection h with h
  rw [← h]
  exact hinv.1

/-! ## Endpoints of a range list -/

theorem toEndpoints_eq (a : IPRanges) (invert : Bool) :
    a.toEndpoints invert = a.ranges.flatMap (rangeEndpoints invert) := by
  have key : ∀ (l : List IPRange) (acc : List endpoint),
      l.foldl (fun endpoints ipRange =>
        endpoints ++ [{ ip := ipRange.start, ss := (if invert then ((-1 : Int), (1 : Int)) else (1, -1)).1 },
          { ip := ipRange.stop, ss := (if invert then ((-1 : Int), (1 : Int)) else (1, -1)).2 }]) acc
      = acc ++ l.flatMap (rangeEndpoints invert) := by
    intro l
    induction l with
    | nil => intro acc; simp
    | cons r l ih =>
      intro acc
      rw [List.foldl_cons, ih, List.flatMap_cons, ← List.append_assoc]
      cases invert <;> rfl
  unfold IPRanges.toEndpoints
  simpa using key a.ranges []

theorem unitDeltas_bind (invert : Bool) (l : List IPRange) :
    unitDeltas (l.flatMap (rangeEndpoints invert)) := by
  intro e he
  rw [List.mem_flatMap] at he
  obtain ⟨r, _, he⟩ := he
  cases invert <;> simp [rangeEndpoints] at he <;> rcases he with rfl | rfl <;> simp

theorem sum_bind (invert : Bool) (l : List IPRange) :
    ((l.flatMap (rangeEndpoints invert)).map endpoint.ss).sum = 0 := by
  induction l with
  | nil => rfl
  | cons r l ih =>
    rw [List.flatMap_cons, List.map_append, List.sum_append, ih]
    cases invert <;> simp [rangeEndpoints]

theorem depth_append (l1 l2 : List endpoint) (p : Nat) :
    depth (l1 ++ l2) p = depth l1 p + depth l2 p := by
  simp [depth]

theorem depth_perm {l1 l2 : List endpoint} (h : l1.Perm l2) (p : Nat) :
    depth l1 p = depth l2 p := by
  unfold depth
  exact ((h.filter _).map _).sum_eq

theorem coverCount_pos_iff (l : List IPRange) (p : Nat) :
    0 < coverCount l p ↔ covers l p := by
  unfold coverCount covers
  rw [List.length_pos_iff_exists_mem]
  constructor
  · rintro ⟨r, hr⟩
    rw [List.mem_filter] at hr
    exact ⟨r, hr.1, by simpa using hr.2⟩
  · rintro ⟨r, hr, hp⟩
    exact ⟨r, List.mem_filter.2 ⟨hr, by simpa using hp⟩⟩

theorem depth_bind (invert : Bool) (l : List IPRange) (p : Nat)
    (hwf : ∀ r ∈ l, r.start ≤ r.stop) :
    depth (l.flatMap (rangeEndpoints invert)) p
      = (if invert then -1 else 1) * (coverCount l p : Int) := by
  induction l with
  | nil => simp [depth, coverCount]
  | cons r l ih =>
    rw [List.flatMap_cons, depth_append, ih (fun x hx => hwf x (List.mem_cons_of_mem _ hx))]
    have hr := hwf r (List.mem_cons_self _ _)
    have hc : coverCount (r :: l) p = (if r.contains p then 1 else 0) + coverCount l p := by
      unfold coverCount
      by_cases h : r.contains p
      · rw [List.filter_cons_of_pos (by simpa using h)]; simp [h]; omega
      · rw [List.filter_cons_of_neg (by simpa using h)]; simp [h]
    rw [hc]
    have hd : depth (rangeEndpoints invert r) p
        = (if invert then -1 else 1) * ((if r.contains p then 1 else 0 : Nat) : Int) := by
      unfold depth rangeEndpoints IPRange.contains
      by_cases h1 : r.start ≤ p <;> by_cases h2 : r.stop ≤ p <;>
        cases invert <;> simp [List.filter_cons, h1, h2] <;> omega
    rw [hd]
    push_cast
    ring

/-! ## Parsing arithmetic -/

theorem bigEndian_asSlice (m : Nat) :
    BigEndianUint32 (netip.Addr.AsSlice (.v4 m)) = m % 2 ^ 32 := by
  simp only [BigEndianUint32, netip.Addr.AsSlice, List.getD_cons_zero, List.getD_cons_succ]
  omega

theorem maskBits (k : Nat) (hk : k ≤ 32) (i : Nat) :
    (2 ^ 32 - 2 ^ k).testBit i = (decide (k ≤ i) && decide (i < 32)) := by
  have h1 : 2 ^ 32 - 2 ^ k = 2 ^ 32 - ((2 ^ k - 1) + 1) := by
    have : 0 < 2 ^ k := Nat.two_pow_pos k
    omega
  have h2 : 2 ^ k - 1 < 2 ^ 32 := by
    have : 2 ^ k ≤ 2 ^ 32 := Nat.pow_le_pow_right (by decide) hk
    have : 0 < 2 ^ k := Nat.two_pow_pos k
    omega
  rw [h1, Nat.testBit_two_pow_sub_succ h2, Nat.testBit_two_pow_sub_one]
  by_cases c1 : i < 32 <;> by_cases c2 : i < k <;> simp [c1, c2] <;> omega

/-- And-ing a 32-bit value with the mask of the leading `32 - k` ones clears
its low `k` bits. -/
theorem land_mask (a k : Nat) (ha : a < 2 ^ 32) (hk : k ≤ 32) :
    a &&& (2 ^ 32 - 2 ^ k) = a / 2 ^ k * 2 ^ k := by
  rw [← Nat.shiftRight_eq_div_pow, ← Nat.shiftLeft_eq]
  apply Nat.eq_of_testBit_eq
  intro i
  rw [Nat.testBit_and, maskBits k hk, Nat.testBit_shiftLeft, Nat.testBit_shiftRight]
  by_cases c1 : k ≤ i
  · have e : k + (i - k) = i := by omega
    by_cases c2 : i < 32
    · simp [c1, c2, e]
    · have : a.testBit i = false :=
        Nat.testBit_lt_two_pow (lt_of_lt_of_le ha (Nat.pow_le_pow_right (by decide) (by omega)))
      simp [c1, c2, this, e]
  · simp [c1]

theorem quadValue_lt (f : List Nat) : quadValue f < 2 ^ 32 := by
  unfold quadValue
  omega

theorem parseIPv6_not_v4 {s : List Char} {ip : netip.Addr} (h : netip.parseIPv6 s = some ip) :
    ∃ b z, ip = .v6 b z := by
  simp only [netip.parseIPv6] at h
  repeat' split at h
  all_goals (cases h; try exact ⟨_, _, rfl⟩)

/-- What `ParseAddr` returns is an IPv4 address read by `parseIPv4Fields` or an
IPv6 address, never the zero address. -/
theorem ParseAddr_some {s : List Char} {ip : netip.Addr} (h : netip.ParseAddr s = some ip) :
    (∃ f, netip.parseIPv4Fields s = some f ∧ ip = .v4 (quadValue f)) ∨ ∃ b z, ip = .v6 b z := by
  unfold netip.ParseAddr at h
  split at h
  · left
    unfold netip.parseIPv4 at h
    cases hf : netip.parseIPv4Fields s with
    | none => rw [hf] at h; exact absurd h (by simp)
    | some f =>
      rw [hf] at h
      simp only [Option.map_some', Option.some.injEq] at h
      exact ⟨f, rfl, h.symm⟩
  · right; exact parseIPv6_not_v4 h
  · exact absurd h (by simp)

/-- What a successful `ParsePrefix` returns: the text splits at its last `/`
into an address text that `ParseAddr` accepts and a digit string whose value is
at most the bit length of the address. -/
theorem ParsePrefix_ok {s : String} {pfx : netip.Prefix} (h : netip.ParsePrefix s = .ok pfx) :
    ∃ addrStr bitsStr ip, ∃ n : Nat,
      netip.splitLastSlash s.data = some (addrStr, bitsStr) ∧
      netip.ParseAddr addrStr = some ip ∧ netip.atoiDigits bitsStr 0 = some n ∧
      (n : Int) ≤ ip.BitLen ∧ ip ≠ .zero ∧ pfx = ⟨ip, n⟩ := by
  unfold netip.ParsePrefix at h
  cases hsplit : netip.splitLastSlash s.data with
  | none => simp only [hsplit] at h; cases h
  | some pr =>
    obtain ⟨addrStr, bitsStr⟩ := pr
    simp only [hsplit] at h
    cases hip : netip.ParseAddr addrStr with
    | none => simp only [hip] at h; cases h
    | some ip =>
      simp only [hip] at h
      have hnz : ip ≠ .zero := by
        rcases ParseAddr_some hip with ⟨f, _, rfl⟩ | ⟨b, z, rfl⟩ <;> simp
      cases hn : netip.atoiDigits bitsStr 0 with
      | none => simp only [hn] at h; split_ifs at h
      | some n =>
        simp only [hn] at h
        have hfrom : (n : Int) ≤ ip.BitLen → netip.PrefixFrom ip n = ⟨ip, n⟩ := by
          intro hle
          unfold netip.PrefixFrom
          rw [if_neg]
          rintro (h1 | h1 | h1)
          · cases ip <;> simp [netip.Addr.IsValid] at h1 hnz
          · omega
          · omega
        split_ifs at h with c1 c2 c3 c4 c5
        all_goals
          have hle : (n : Int) ≤ ip.BitLen := by
            rcases ParseAddr_some hip with ⟨f, _, rfl⟩ | ⟨b, z, rfl⟩ <;>
              simp [netip.Addr.Is6, netip.Addr.BitLen] at c4 ⊢ <;> omega
          injection h with h
          exact ⟨addrStr, bitsStr, ip, n, rfl, hip, hn, hle, hnz, by rw [← h, hfrom hle]⟩

/-- What a successful `FromCIDR` returns, in terms of the text. -/
theorem FromCIDR_ok {cidr : String} {r : IPRange} (h : FromCIDR cidr = .ok r) :
    ∃ addrStr bitsStr f, ∃ n : Nat,
      netip.splitLastSlash cidr.data = some (addrStr, bitsStr) ∧
      netip.parseIPv4Fields addrStr = some f ∧ netip.atoiDigits bitsStr 0 = some n ∧
      n ≤ 32 ∧
      r.start = quadValue f / 2 ^ (32 - n) * 2 ^ (32 - n) ∧
      r.stop = r.start + 2 ^ (32 - n) := by
  unfold FromCIDR at h
  split at h
  · exact absurd h (by simp)
  · rename_i pfx hp
    obtain ⟨addrStr, bitsStr, ip, n, hsplit, hip, hn, hle, hnz, rfl⟩ := ParsePrefix_ok hp
    split_ifs at h with c1 c2
    injection h with h
    rcases ParseAddr_some hip with ⟨f, hf, rfl⟩ | ⟨b, z, rfl⟩
    · simp only [netip.Addr.BitLen] at hle
      have hn32 : n ≤ 32 := by omega
      have hk : 32 - n ≤ 32 := by omega
      have hm : netip.Prefix.Masked ⟨.v4 (quadValue f), n⟩
          = ⟨.v4 (quadValue f / 2 ^ (32 - n) * 2 ^ (32 - n)), n⟩ := by
        unfold netip.Prefix.Masked
        simp only []
        rw [if_neg (by omega), if_neg (by omega)]
        simp only [Int.toNat_ofNat]
        rw [land_mask _ _ (quadValue_lt f) hk]
        unfold netip.PrefixFrom
        rw [if_neg]
        simp [netip.Addr.IsValid, netip.Addr.BitLen]
        omega
      have hlt : quadValue f / 2 ^ (32 - n) * 2 ^ (32 - n) < 2 ^ 32 :=
        lt_of_le_of_lt (Nat.div_mul_le_self _ _) (quadValue_lt f)
      have hpow : 2 ^ (32 - n) ≤ 2 ^ 32 := Nat.pow_le_pow_right (by decide) hk
      have hsh : (32 - ((n : Nat) : Int)).toNat = 32 - n := by omega
      refine ⟨addrStr, bitsStr, f, n, hsplit, hf, hn, hn32, ?_, ?_⟩
      · rw [← h]
        simp only [netip.Prefix.Addr, hm, bigEndian_asSlice]
        exact Nat.mod_eq_of_lt hlt
      · rw [← h]
        simp only [netip.Prefix.Addr, netip.Prefix.Bits, hm, bigEndian_asSlice, hsh,
          Nat.one_shiftLeft]
        rw [Nat.mod_eq_of_lt hlt, Nat.mod_eq_of_lt (a := 2 ^ (32 - n)), Nat.mod_eq_of_lt]
        · omega
        · omega
    · simp [netip.Prefix.Addr, netip.Addr.Is4] at c2

/-- Every range `FromCIDR` returns is non-empty and lies within the 32-bit
address space. -/
theorem FromCIDR_wf {cidr : String} {r : IPRange} (h : FromCIDR cidr = .ok r) :
    r.start < r.stop ∧ r.stop ≤ 2 ^ 32 := by
  obtain ⟨_, _, f, n, _, _, _, hn, hs, ht⟩ := FromCIDR_ok h
  have hpos : 0 < 2 ^ (32 - n) := Nat.two_pow_pos _
  refine ⟨by omega, ?_⟩
  rw [ht, hs]
  have hq : quadValue f / 2 ^ (32 - n) < 2 ^ n := by
    rw [Nat.div_lt_iff_lt_mul hpos, ← Nat.pow_add]
    have : n + (32 - n) = 32 := by omega
    rw [this]
    exact quadValue_lt f
  calc quadValue f / 2 ^ (32 - n) * 2 ^ (32 - n) + 2 ^ (32 - n)
      = (quadValue f / 2 ^ (32 - n) + 1) * 2 ^ (32 - n) := by ring
    _ ≤ 2 ^ n * 2 ^ (32 - n) := Nat.mul_le_mul_right _ hq
    _ = 2 ^ 32 := by rw [← Nat.pow_add]; congr 1; omega

/-! ## Simplify and Subtract -/

/-- The sweep after the sort: it does not panic, its output is canonical and
covers exactly the addresses of depth at least one. -/
theorem sweep_sorted (l : List endpoint) (hu : unitDeltas l)
    (hz : (l.map endpoint.ss).sum = 0) :
    ∃ out, endpointsToRanges (sortByIP l) = .ok out ∧ Canonical out ∧
      ∀ p, covers out p ↔ 1 ≤ depth l p := by
  have hperm := sortByIP_perm l
  have hsort := sortByIP_sorted l
  have hu' : unitDeltas (sortByIP l) := fun e he => hu e (hperm.subset he)
  have hz' : ((sortByIP l).map endpoint.ss).sum = 0 := by
    rw [(hperm.map _).sum_eq]; exact hz
  obtain ⟨out, hout, hcov⟩ := endpointsToRanges_covers (sorted_ip_of_sorted hsort) hu' hz'
  refine ⟨out, hout, endpointsToRanges_canonical hsort hu' hout, fun p => ?_⟩
  rw [hcov p, depth_perm hperm p]

/-- Model of `Simplify` on a set that is not flagged simplified. -/
theorem Simplify_unflagged (a : IPRanges) (hf : a.simplified = false) :
    ∃ out, a.Simplify = .ok { ranges := out, simplified := true } ∧ Canonical out ∧
      ((∀ r ∈ a.ranges, r.start ≤ r.stop) → ∀ p, covers out p ↔ covers a.ranges p) := by
  obtain ⟨out, hout, hcan, hcov⟩ := sweep_sorted (a.ranges.flatMap (rangeEndpoints false))
    (unitDeltas_bind _ _) (sum_bind _ _)
  refine ⟨out, ?_, hcan, fun hwf p => ?_⟩
  · unfold IPRanges.Simplify
    rw [hf]
    simp only [Bool.false_eq_true, if_false, toEndpoints_eq, hout]
  · rw [hcov p, depth_bind false _ p hwf, ← coverCount_pos_iff]
    simp
    omega

/-- Model of `Simplify` never panics, returns a set flagged simplified, and leaves a
flagged set as it is. -/
theorem Simplify_ok (a : IPRanges) :
    ∃ y, a.Simplify = .ok y ∧ y.simplified = true ∧ (a.simplified = true → y = a) ∧
      (a.simplified = false → Canonical y.ranges) := by
  cases hf : a.simplified with
  | true =>
    refine ⟨a, ?_, hf, fun _ => rfl, fun h => absurd h (by simp)⟩
    unfold IPRanges.Simplify
    rw [hf]; rfl
  | false =>
    obtain ⟨out, hout, hcan, _⟩ := Simplify_unflagged a hf
    exact ⟨_, hout, rfl, fun h => absurd h (by simp), fun _ => hcan⟩

theorem Canonical.coverCount_le_one {l : List IPRange} (h : Canonical l) (p : Nat) :
    coverCount l p ≤ 1 := by
  induction l with
  | nil => simp [coverCount]
  | cons r l ih =>
    obtain ⟨hpw, hwf⟩ := h
    rw [List.pairwise_cons] at hpw
    have ihl := ih ⟨hpw.2, fun x hx => hwf x (List.mem_cons_of_mem _ hx)⟩
    unfold coverCount at ihl ⊢
    by_cases hr : r.contains p
    · rw [List.filter_cons_of_pos (by simpa using hr)]
      have : l.filter (fun r => decide (r.contains p)) = [] := by
        rw [List.filter_eq_nil_iff]
        intro x hx
        have h1 := hpw.1 x hx
        have h2 := hr.2
        simp only [decide_eq_true_eq]
        intro hxp
        have := hxp.1
        omega
      simp [this]
    · rw [List.filter_cons_of_neg (by simpa using hr)]
      exact ihl

/-- Model of `Subtract` never panics; its result is flagged simplified and canonical,
and when the minuend satisfies the data-model invariant and all ranges have
`start ≤ stop`, it covers the addresses of `a` that `b` does not cover. -/
theorem Subtract_spec (a b : IPRanges) :
    ∃ out, a.Subtract b = .ok { ranges := out, simplified := true } ∧ Canonical out ∧
      (a.Inv → (∀ r ∈ a.ranges, r.start ≤ r.stop) → (∀ r ∈ b.ranges, r.start ≤ r.stop) →
        ∀ p, covers out p ↔ (covers a.ranges p ∧ ¬ covers b.ranges p)) := by
  obtain ⟨a', ha', _, hflag, hunfl⟩ := Simplify_ok a
  obtain ⟨out, hout, hcan, hcov⟩ := sweep_sorted
    (a'.ranges.flatMap (rangeEndpoints false) ++ b.ranges.flatMap (rangeEndpoints true))
    (by
      intro e he
      rcases List.mem_append.1 he with he | he
      · exact unitDeltas_bind _ _ e he
      · exact unitDeltas_bind _ _ e he)
    (by rw [List.map_append, List.sum_append, sum_bind, sum_bind]; rfl)
  refine ⟨out, ?_, hcan, fun hinv hwa hwb p => ?_⟩
  · unfold IPRanges.Subtract
    simp only [ha', toEndpoints_eq, hout]
  · have hcan' : Canonical a'.ranges := by
      cases hf : a.simplified with
      | true => rw [hflag hf]; exact hinv hf
      | false => exact hunfl hf
    have hcova : covers a'.ranges p ↔ covers a.ranges p := by
      cases hf : a.simplified with
      | true => rw [hflag hf]
      | false =>
        obtain ⟨o, ho, _, hc⟩ := Simplify_unflagged a hf
        rw [ha'] at ho
        injection ho with ho
        rw [ho]
        exact hc hwa p
    have hwa' : ∀ r ∈ a'.ranges, r.start ≤ r.stop := fun r hr => le_of_lt (hcan'.2 r hr)
    rw [hcov p, depth_append, depth_bind false _ p hwa', depth_bind true _ p hwb,
      ← hcova, ← coverCount_pos_iff, ← coverCount_pos_iff]
    have := hcan'.coverCount_le_one p
    simp
    omega

theorem FromCIDRs_loop_ok (cidrs : List String) (acc rs : List IPRange)
    (h : FromCIDRs.loop cidrs acc = .ok rs) :
    ∃ new, rs = acc ++ new ∧ cidrs.map FromCIDR = new.map Except.ok := by
  induction cidrs generalizing acc with
  | nil =>
    simp only [FromCIDRs.loop] at h
    injection h with h
    exact ⟨[], by simp [h], rfl⟩
  | cons c cs ih =>
    simp only [FromCIDRs.loop] at h
    cases hc : FromCIDR c with
    | error e => rw [hc] at h; cases h
    | ok r =>
      rw [hc] at h
      obtain ⟨new, h1, h2⟩ := ih _ h
      exact ⟨r :: new, by simp [h1], by simp [h2, hc]⟩

/-- The shape of what `FromCIDRs` returns. -/
theorem FromCIDRs_ok (cidrs : List String) (x : IPRanges) (h : FromCIDRs cidrs = .ok x) :
    cidrs.map FromCIDR = x.ranges.map Except.ok ∧
      x.simplified = decide (cidrs.length < 2) := by
  unfold FromCIDRs at h
  cases hl : FromCIDRs.loop cidrs [] with
  | error e => rw [hl] at h; cases h
  | ok rs =>
    rw [hl] at h
    injection h with h
    obtain ⟨new, h1, h2⟩ := FromCIDRs_loop_ok _ _ _ hl
    rw [← h]
    simp only [List.nil_append] at h1
    exact ⟨by rw [h1]; exact h2, rfl⟩

theorem FromCIDRs_wf (cidrs : List String) (x : IPRanges) (h : FromCIDRs cidrs = .ok x) :
    WellFormed x.ranges := by
  obtain ⟨hmap, _⟩ := FromCIDRs_ok cidrs x h
  intro r hr
  have : Except.ok r ∈ cidrs.map FromCIDR := by
    rw [hmap]; exact List.mem_map_of_mem _ hr
  obtain ⟨c, _, hc⟩ := List.mem_map.1 this
  exact FromCIDR_wf hc

/-- Every range set of the public operations satisfies the data-model
invariant. -/
theorem Built.inv {x : IPRanges} (h : Built x) : x.Inv := by
  induction h with
  | fromCIDRs cidrs x hx =>
    intro hf
    obtain ⟨hmap, hflag⟩ := FromCIDRs_ok cidrs x hx
    have hwf := FromCIDRs_wf cidrs x hx
    have hlen : x.ranges.length < 2 := by
      have := congrArg List.length hmap
      simp only [List.length_map] at this
      rw [hf] at hflag
      have := of_decide_eq_true hflag.symm
      omega
    refine ⟨?_, fun r hr => (hwf r hr).1⟩
    match hx' : x.ranges with
    | [] => exact List.Pairwise.nil
    | [r] => exact List.pairwise_singleton _ _
    | _ :: _ :: _ => rw [hx'] at hlen; simp at hlen; omega
  | add a b _ _ _ _ => intro hf; simp [IPRanges.Add] at hf
  | simplify a x _ hx ih =>
    obtain ⟨y, hy, _, h1, h2⟩ := Simplify_ok a
    rw [hy] at hx
    injection hx with hx
    subst hx
    intro _
    cases hf : a.simplified with
    | true => rw [h1 hf]; exact ih hf
    | false => exact h2 hf
  | subtract a b x _ _ hx _ _ =>
    obtain ⟨out, hout, hcan, _⟩ := Subtract_spec a b
    rw [hout] at hx
    injection hx with hx
    subst hx
    intro _
    exact hcan

/-! ## Canonical form, as the specification words it -/

theorem Canonical.sorted {l : List IPRange} (h : Canonical l) :
    l.Sorted (fun r1 r2 => r1.start < r2.start) := by
  obtain ⟨hpw, hwf⟩ := h
  induction l with
  | nil => exact List.Pairwise.nil
  | cons r l ih =>
    rw [List.pairwise_cons] at hpw
    refine List.Pairwise.cons (fun x hx => ?_)
      (ih hpw.2 (fun x hx => hwf x (List.mem_cons_of_mem _ hx)))
    have := hpw.1 x hx
    have := hwf r (List.mem_cons_self _ _)
    omega

theorem Canonical.pairwise_disjoint {l : List IPRange} (h : Canonical l) :
    l.Pairwise IPRange.disjoint := by
  refine List.Pairwise.imp ?_ h.1
  intro r1 r2 h12 p hp
  have := hp.1.2
  have := hp.2.1
  omega

theorem Canonical.chain {l : List IPRange} (h : Canonical l) :
    l.Chain' (fun r1 r2 => r1.stop < r2.start) :=
  List.Pairwise.chain' h.1

/-- The data-model invariant cannot be dropped from the coverage part of
`Subtract_spec`: on a struct flagged simplified that holds a range twice (no
public operation builds one, see `Built.inv`), `Simplify` is skipped and the
sweep keeps the range that the subtrahend covers. -/
theorem Subtract_flagged_duplicate :
    IPRanges.Subtract ⟨[⟨0, 10⟩, ⟨0, 10⟩], true⟩ ⟨[⟨0, 10⟩], false⟩
      = .ok ⟨[⟨0, 10⟩], true⟩ := rfl

/-! ## The decomposition loop -/

theorem testBit_odd_mul (k m i : Nat) :
    (2 ^ k * (2 * m + 1)).testBit i
      = (decide (i = k) || (decide (k < i) && m.testBit (i - (k + 1)))) := by
  have e : 2 ^ k * (2 * m + 1) = 2 ^ (k + 1) * m + 2 ^ k := by ring
  have hb : 2 ^ k < 2 ^ (k + 1) := Nat.pow_lt_pow_right (by decide) (by omega)
  rw [e, Nat.testBit_mul_pow_two_add m hb, Nat.testBit_two_pow]
  by_cases c1 : i < k + 1
  · by_cases c2 : i = k
    · simp [c1, c2]
    · have : ¬ k < i := by omega
      have : ¬ k = i := by omega
      simp [c1, c2, *]
  · have : k < i := by omega
    have : ¬ i = k := by omega
    simp [c1, *]

theorem testBit_odd_mul_pred (k m i : Nat) :
    (2 ^ k * (2 * m + 1) - 1).testBit i
      = (decide (i < k) || (decide (k < i) && m.testBit (i - (k + 1)))) := by
  have hpos : 0 < 2 ^ k := Nat.two_pow_pos k
  have e : 2 ^ k * (2 * m + 1) - 1 = 2 ^ (k + 1) * m + (2 ^ k - 1) := by
    have : 2 ^ k * (2 * m + 1) = 2 ^ (k + 1) * m + 2 ^ k := by ring
    omega
  have hb : 2 ^ k - 1 < 2 ^ (k + 1) := by
    have : 2 ^ k < 2 ^ (k + 1) := Nat.pow_lt_pow_right (by decide) (by omega)
    omega
  rw [e, Nat.testBit_mul_pow_two_add m hb, Nat.testBit_two_pow_sub_one]
  by_cases c1 : i < k + 1
  · by_cases c2 : i < k
    · simp [c1, c2]
    · have : ¬ k < i := by omega
      simp [c1, c2, *]
  · have : k < i := by omega
    have : ¬ i < k := by omega
    simp [c1, *]

/-- For a nonzero 64-bit value, `start & ^(start - 1)` is the lowest set bit. -/
theorem firstStep_pos (k m : Nat) (h : 2 ^ k * (2 * m + 1) < 2 ^ 64) :
    firstStep (2 ^ k * (2 * m + 1)) = 2 ^ k := by
  have hpos : 0 < 2 ^ k := Nat.two_pow_pos k
  have hs : 0 < 2 ^ k * (2 * m + 1) := Nat.mul_pos hpos (by omega)
  have hk : k < 64 := by
    by_contra hk
    have : 2 ^ 64 ≤ 2 ^ k := Nat.pow_le_pow_right (by decide) (by omega)
    have : 2 ^ k ≤ 2 ^ k * (2 * m + 1) := Nat.le_mul_of_pos_right _ (by omega)
    omega
  unfold firstStep
  simp only []
  rw [if_neg (by omega)]
  have e1 : (2 ^ k * (2 * m + 1) + 2 ^ 64 - 1) % 2 ^ 64 = 2 ^ k * (2 * m + 1) - 1 := by
    have : 2 ^ k * (2 * m + 1) + 2 ^ 64 - 1 = (2 ^ k * (2 * m + 1) - 1) + 2 ^ 64 := by omega
    rw [this, Nat.add_mod_right, Nat.mod_eq_of_lt (by omega)]
  have e2 : 2 ^ 64 - 1 - (2 ^ k * (2 * m + 1) - 1) = 2 ^ 64 - ((2 ^ k * (2 * m + 1) - 1) + 1) := by
    omega
  rw [e1, e2]
  apply Nat.eq_of_testBit_eq
  intro i
  rw [Nat.testBit_and, Nat.testBit_two_pow_sub_succ (by omega), testBit_odd_mul,
    testBit_odd_mul_pred, Nat.testBit_two_pow]
  by_cases c1 : i = k
  · subst c1
    simp [hk]
  · by_cases c2 : k < i
    · have : ¬ i < k := by omega
      have : ¬ k = i := by omega
      simp [c1, c2, *]
      exact fun h _ => h
    · have : ¬ k = i := by omega
      simp [c1, c2, *]

theorem firstStep_zero : firstStep 0 = 2 ^ 32 := by decide

/-- The step the loop of `IPRange.CIDRs` starts from: a power of two that
divides `start`, the largest one at most `2 ^ 32`. -/
theorem firstStep_spec (s : Nat) (hs : s < 2 ^ 32) :
    ∃ j0, j0 ≤ 32 ∧ firstStep s = 2 ^ j0 ∧ 2 ^ j0 ∣ s ∧
      ∀ j, j ≤ 32 → 2 ^ j ∣ s → j ≤ j0 := by
  by_cases h0 : s = 0
  · subst h0
    exact ⟨32, le_refl _, firstStep_zero, dvd_zero _, fun j hj _ => hj⟩
  · obtain ⟨k, n, hn, hsn⟩ := Nat.exists_eq_pow_mul_and_not_dvd h0 2 (by decide)
    have hodd : n = 2 * (n / 2) + 1 := by omega
    rw [hodd] at hsn
    have hpos : 0 < 2 ^ k := Nat.two_pow_pos k
    have hk : k < 32 := by
      by_contra hk
      have : 2 ^ 32 ≤ 2 ^ k := Nat.pow_le_pow_right (by decide) (by omega)
      have : 2 ^ k ≤ 2 ^ k * (2 * (n / 2) + 1) := Nat.le_mul_of_pos_right _ (by omega)
      omega
    refine ⟨k, by omega, ?_, ?_, ?_⟩
    · rw [hsn]
      apply firstStep_pos
      rw [← hsn]
      exact lt_trans hs (by decide)
    · rw [hsn]; exact Dvd.intro _ rfl
    · intro j _ hj
      by_contra hlt
      have h1 : 2 ^ (k + 1) ∣ s := dvd_trans (Nat.pow_dvd_pow 2 (by omega)) hj
      rw [hsn, Nat.pow_succ] at h1
      have h2 : 2 ∣ 2 * (n / 2) + 1 := (Nat.mul_dvd_mul_iff_left hpos).1 h1
      omega

/-- The halving loop started from `2 ^ j0`: it stops at the largest power of
two at most `2 ^ j0` that fits before `t`. -/
theorem halveStep_spec (s t : Nat) (hst : s < t) (ht : t ≤ 2 ^ 32) :
    ∀ j0 fuel, j0 ≤ 32 → j0 < fuel →
      ∃ j, j ≤ j0 ∧ halveStep fuel s (2 ^ j0) t = some (2 ^ j) ∧ s + 2 ^ j ≤ t ∧
        (j < j0 → t < s + 2 ^ (j + 1)) := by
  intro j0
  induction j0 with
  | zero =>
    intro fuel _ hf
    obtain ⟨f, rfl⟩ : ∃ f, fuel = f + 1 := ⟨fuel - 1, by omega⟩
    refine ⟨0, le_refl _, ?_, by simp; omega, fun h => absurd h (by omega)⟩
    simp only [halveStep, pow_zero]
    rw [if_neg]
    rw [Nat.mod_eq_of_lt (by omega)]
    omega
  | succ j0 ih =>
    intro fuel hj hf
    obtain ⟨f, rfl⟩ : ∃ f, fuel = f + 1 := ⟨fuel - 1, by omega⟩
    have hp : 2 ^ (j0 + 1) ≤ 2 ^ 32 := Nat.pow_le_pow_right (by decide) hj
    have hmod : (s + 2 ^ (j0 + 1)) % 2 ^ 64 = s + 2 ^ (j0 + 1) :=
      Nat.mod_eq_of_lt (by omega)
    simp only [halveStep, hmod]
    by_cases hc : s + 2 ^ (j0 + 1) > t
    · rw [if_pos hc]
      have hsh : 2 ^ (j0 + 1) >>> 1 = 2 ^ j0 := by
        rw [Nat.shiftRight_eq_div_pow, Nat.pow_succ]; simp
      rw [hsh]
      obtain ⟨j, hj1, hj2, hj3, hj4⟩ := ih f (by omega) (by omega)
      refine ⟨j, by omega, hj2, hj3, fun _ => ?_⟩
      by_cases hjj : j < j0
      · exact hj4 hjj
      · have : j = j0 := by omega
        subst this
        exact hc
    · rw [if_neg hc]
      exact ⟨j0 + 1, le_refl _, rfl, by omega, fun h => absurd h (by omega)⟩

theorem halveStep_greedy (s t fuel : Nat) (hst : s < t) (ht : t ≤ 2 ^ 32) (hf : 33 ≤ fuel) :
    ∃ step, halveStep fuel s (firstStep s) t = some step ∧ GreedyStep s t step := by
  obtain ⟨j0, hj0, hfirst, hdvd, hmax⟩ := firstStep_spec s (by omega)
  obtain ⟨j, hj1, hj2, hj3, hj4⟩ := halveStep_spec s t hst ht j0 fuel hj0 (by omega)
  refine ⟨2 ^ j, by rw [hfirst]; exact hj2, j, by omega, rfl, ?_, hj3, ?_⟩
  · exact dvd_trans (Nat.pow_dvd_pow 2 hj1) hdvd
  · intro j' hj' hd hfit
    by_contra hlt
    have h1 : j' ≤ j0 := hmax j' hj' hd
    have h2 := hj4 (by omega)
    have : 2 ^ (j + 1) ≤ 2 ^ j' := Nat.pow_le_pow_right (by decide) (by omega)
    omega

/-- The loop of `IPRange.CIDRs` ends: with fuel beyond the length of the range
it returns a run from `s` to `t`, appended to what it was given. -/
theorem cidrsLoop_trace (t : Nat) (ht : t ≤ 2 ^ 32) :
    ∀ fuel s acc, s ≤ t → t - s + 34 ≤ fuel →
      ∃ tr, cidrsLoop Prod.mk fuel s t acc = some (acc ++ tr) ∧ Trace tr s t := by
  intro fuel
  induction fuel with
  | zero => intro s acc _ hf; omega
  | succ f ih =>
    intro s acc hst hf
    by_cases hlt : s < t
    · obtain ⟨step, hstep, hg⟩ := halveStep_greedy s t f hlt ht (by omega)
      obtain ⟨j, hj, rfl, hdvd, hfit, hmax⟩ := hg
      have hpos : 0 < 2 ^ j := Nat.two_pow_pos j
      obtain ⟨tr, htr, htrace⟩ := ih (s + 2 ^ j) (acc ++ [(s, 2 ^ j)]) hfit (by omega)
      refine ⟨(s, 2 ^ j) :: tr, ?_, rfl, ⟨j, hj, rfl, hdvd, hfit, hmax⟩, htrace⟩
      simp only [cidrsLoop, if_pos hlt, hstep]
      rw [Nat.mod_eq_of_lt (by omega), htr]
      simp
    · have : s = t := by omega
      exact ⟨[], by simp [cidrsLoop, hlt], this⟩

/-- More fuel does not change a result of the halving loop. -/
theorem halveStep_mono (fuel s step t r : Nat) (h : halveStep fuel s step t = some r) :
    halveStep (fuel + 1) s step t = some r := by
  induction fuel generalizing step with
  | zero => simp [halveStep] at h
  | succ f ih =>
    rw [halveStep] at h
    rw [halveStep]
    split_ifs at h ⊢ with c
    · exact ih _ h
    · exact h

/-- More fuel does not change a result of the loop of `IPRange.CIDRs`. -/
theorem cidrsLoop_mono {α : Type} (emit : Nat → Nat → α) (fuel s t : Nat) (acc r : List α)
    (h : cidrsLoop emit fuel s t acc = some r) :
    cidrsLoop emit (fuel + 1) s t acc = some r := by
  induction fuel generalizing s acc with
  | zero => simp [cidrsLoop] at h
  | succ f ih =>
    rw [cidrsLoop] at h
    rw [cidrsLoop]
    split_ifs at h ⊢ with c
    · cases hh : halveStep f s (firstStep s) t with
      | none => rw [hh] at h; cases h
      | some step =>
        rw [hh] at h
        rw [halveStep_mono _ _ _ _ _ hh]
        exact ih _ _ h
    · exact h

/-- The loop with `emit` is the loop that records `(start, step)`, mapped. -/
theorem cidrsLoop_map {α : Type} (emit : Nat → Nat → α) (fuel s t : Nat)
    (acc : List (Nat × Nat)) :
    cidrsLoop emit fuel s t (acc.map (fun b => emit b.1 b.2))
      = (cidrsLoop Prod.mk fuel s t acc).map (List.map (fun b => emit b.1 b.2)) := by
  induction fuel generalizing s acc with
  | zero => simp [cidrsLoop]
  | succ f ih =>
    rw [cidrsLoop, cidrsLoop]
    split_ifs with c
    · cases hh : halveStep f s (firstStep s) t with
      | none => simp
      | some step =>
        simp only []
        rw [← ih]
        simp
    · simp

/-! ## Blocks -/

theorem toCIDR_eq (start step : Nat) : toCIDR start step = (toBlock start step).text := by
  have hv : start % 2 ^ 32 < 2 ^ 32 := Nat.mod_lt _ (by decide)
  have h4 : netip.AddrFromSlice (BigEndianPutUint32 (start % 2 ^ 32))
      = (.v4 (start % 2 ^ 32), true) := by
    simp only [netip.AddrFromSlice, BigEndianPutUint32, List.length_cons, List.length_nil,
      netip.AddrFrom4, List.getD_cons_zero, List.getD_cons_succ]
    simp only [Nat.reduceAdd, if_true]
    congr 2
    omega
  simp only [toCIDR, h4, toBlock, Block.text]

theorem CIDRs_eq_blocks (fuel : Nat) (a : IPRange) :
    a.CIDRs fuel = (a.blocks fuel).map (List.map Block.text) := by
  have h1 := cidrsLoop_map toCIDR fuel a.start a.stop []
  have h2 := cidrsLoop_map toBlock fuel a.start a.stop []
  simp only [List.map_nil] at h1 h2
  unfold IPRange.CIDRs IPRange.blocks
  rw [h1, h2, Option.map_map]
  congr 1
  funext l
  simp only [Function.comp, List.map_map]
  congr 1
  funext b
  exact toCIDR_eq _ _

theorem TrailingZeros64_pow : ∀ j, j ≤ 32 → TrailingZeros64 (2 ^ j) = j := by decide

theorem toBlock_greedy {s t step : Nat} (ht : t ≤ 2 ^ 32) (h : GreedyStep s t step) :
    (toBlock s step).addr = s ∧ 0 ≤ (toBlock s step).bits ∧ (toBlock s step).bits ≤ 32 ∧
      (toBlock s step).size = step ∧ step ∣ s ∧ 0 < step := by
  obtain ⟨j, hj, rfl, hdvd, hfit, _⟩ := h
  have hpos : 0 < 2 ^ j := Nat.two_pow_pos j
  have hs : s % 2 ^ 32 = s := Nat.mod_eq_of_lt (by omega)
  have hsz : (32 - (32 - (j : Int))).toNat = j := by omega
  have hb : toBlock s (2 ^ j) = ⟨s, 32 - (j : Int)⟩ := by
    simp only [toBlock, TrailingZeros64_pow j hj, hs]
  rw [hb]
  refine ⟨rfl, ?_, ?_, ?_, hdvd, hpos⟩
  · show (0 : Int) ≤ 32 - j
    omega
  · show (32 : Int) - j ≤ 32
    omega
  · show 2 ^ (32 - (32 - (j : Int))).toNat = 2 ^ j
    rw [hsz]

theorem Trace.tiles {tr : List (Nat × Nat)} {s t : Nat} (ht : t ≤ 2 ^ 32) (h : Trace tr s t) :
    Tiles (tr.map (fun b => toBlock b.1 b.2)) s t := by
  induction tr generalizing s with
  | nil => exact h
  | cons b tr ih =>
    obtain ⟨h1, h2, h3⟩ := h
    obtain ⟨g1, g2, g3, g4, g5, _⟩ := toBlock_greedy ht h2
    simp only [List.map_cons, Tiles]
    rw [h1]
    refine ⟨g1, g2, g3, ?_, ?_⟩
    · rw [g4, g1]; exact g5
    · rw [g4]; exact ih h3

theorem Block.size_pos (b : Block) : 0 < b.size := Nat.two_pow_pos _

theorem Tiles.bounds {bs : List Block} {s t : Nat} (h : Tiles bs s t) :
    s ≤ t ∧ ∀ b ∈ bs, s ≤ b.addr ∧ b.addr + b.size ≤ t := by
  induction bs generalizing s with
  | nil => exact ⟨le_of_eq h, by simp⟩
  | cons b bs ih =>
    obtain ⟨h1, -, -, -, h5⟩ := h
    obtain ⟨i1, i2⟩ := ih h5
    have := b.size_pos
    refine ⟨by omega, fun x hx => ?_⟩
    rcases List.mem_cons.1 hx with rfl | hx
    · omega
    · have := i2 x hx; omega

theorem Tiles.covers {bs : List Block} {s t : Nat} (h : Tiles bs s t) (p : Nat) :
    (∃ b ∈ bs, b.contains p) ↔ (s ≤ p ∧ p < t) := by
  induction bs generalizing s with
  | nil => simp only [Tiles] at h; simp; omega
  | cons b bs ih =>
    obtain ⟨h1, -, -, -, h5⟩ := h
    have hb := (Tiles.bounds h5).1
    have := b.size_pos
    have hiff := ih h5
    constructor
    · rintro ⟨x, hx, hxp⟩
      rcases List.mem_cons.1 hx with rfl | hx
      · have := hxp.1
        have := hxp.2
        omega
      · have := hiff.1 ⟨x, hx, hxp⟩
        omega
    · intro hp
      by_cases hlt : p < s + b.size
      · exact ⟨b, List.mem_cons_self _ _, by rw [h1]; exact hp.1, by rw [h1]; exact hlt⟩
      · obtain ⟨x, hx, hxp⟩ := hiff.2 ⟨by omega, hp.2⟩
        exact ⟨x, List.mem_cons_of_mem _ hx, hxp⟩

theorem Tiles.ascending {bs : List Block} {s t : Nat} (h : Tiles bs s t) :
    bs.Pairwise (fun b1 b2 => b1.addr + b1.size ≤ b2.addr) := by
  induction bs generalizing s with
  | nil => exact List.Pairwise.nil
  | cons b bs ih =>
    obtain ⟨h1, -, -, -, h5⟩ := h
    refine List.Pairwise.cons (fun x hx => ?_) (ih h5)
    have := ((Tiles.bounds h5).2 x hx).1
    omega

/-! ## Minimality of the decomposition -/

theorem multiple_le_of_lt_add {d m1 m2 : Nat} (h1 : d ∣ m1) (h2 : d ∣ m2)
    (h : m1 < m2 + d) : m1 ≤ m2 := by
  obtain ⟨a, rfl⟩ := h1
  obtain ⟨b, rfl⟩ := h2
  have hd : 0 < d := by
    rcases Nat.eq_zero_or_pos d with h0 | h0
    · subst h0; simp at h
    · exact h0
  have : d * a < d * (b + 1) := by rw [Nat.mul_add, Nat.mul_one]; exact h
  have := Nat.lt_of_mul_lt_mul_left this
  exact Nat.mul_le_mul_left d (by omega)

/-- Aligned blocks are nested or disjoint: of two that share an address, the
smaller lies in the larger. -/
theorem aligned_nested {x i g j p : Nat} (hx : 2 ^ i ∣ x) (hg : 2 ^ j ∣ g) (hij : i ≤ j)
    (hpx : x ≤ p ∧ p < x + 2 ^ i) (hpg : g ≤ p ∧ p < g + 2 ^ j) :
    g ≤ x ∧ x + 2 ^ i ≤ g + 2 ^ j := by
  have hd : 2 ^ i ∣ 2 ^ j := Nat.pow_dvd_pow 2 hij
  have hg' : 2 ^ i ∣ g := dvd_trans hd hg
  have hge : 2 ^ i ∣ g + 2 ^ j := Nat.dvd_add hg' hd
  constructor
  · exact multiple_le_of_lt_add hg' hx (by omega)
  · have h1 : x ≤ g + 2 ^ j - 2 ^ i := by
      have h2 : 2 ^ i ∣ g + 2 ^ j - 2 ^ i := Nat.dvd_sub' hge (dvd_refl _)
      have hle : 2 ^ i ≤ g + 2 ^ j := by
        have := Nat.le_of_dvd (Nat.two_pow_pos j) hd
        omega
      exact multiple_le_of_lt_add hx h2 (by omega)
    have hle : 2 ^ i ≤ g + 2 ^ j := by
      have := Nat.le_of_dvd (Nat.two_pow_pos j) hd
      omega
    omega

theorem greedy_maximal {s0 t cur j : Nat}
    (hmax : ∀ j', j' ≤ 32 → 2 ^ j' ∣ cur → cur + 2 ^ j' ≤ t → j' ≤ j)
    (hno : noStraddle s0 t cur) : maximalIn s0 t cur j := by
  intro x i hi hx hs ht hxc hsub
  have hpos : 0 < 2 ^ j := Nat.two_pow_pos j
  have hxeq : x = cur := by
    by_contra hne
    exact hno x i hi hx hs ht ⟨by omega, by omega⟩
  subst hxeq
  refine ⟨rfl, ?_⟩
  have h1 := hmax i hi hx ht
  have h2 : j ≤ i := by
    by_contra hlt
    have : 2 ^ i < 2 ^ j := Nat.pow_lt_pow_right (by decide) (by omega)
    omega
  omega

theorem maximal_noStraddle {s0 t cur j : Nat} (hd : 2 ^ j ∣ cur)
    (hm : maximalIn s0 t cur j) : noStraddle s0 t (cur + 2 ^ j) := by
  intro x i hi hx hs ht hstr
  have hpos : 0 < 2 ^ j := Nat.two_pow_pos j
  have hp1 : x ≤ cur + 2 ^ j - 1 ∧ cur + 2 ^ j - 1 < x + 2 ^ i := ⟨by omega, by omega⟩
  have hp2 : cur ≤ cur + 2 ^ j - 1 ∧ cur + 2 ^ j - 1 < cur + 2 ^ j := ⟨by omega, by omega⟩
  by_cases hij : i ≤ j
  · have := aligned_nested hx hd hij hp1 hp2
    omega
  · have h1 := aligned_nested hd hx (by omega) hp2 hp1
    have h2 := hm x i hi hx hs ht h1.1 h1.2
    omega

/-- Every block of a run of the loop is aligned, lies in the interval and is
maximal there. -/
theorem Trace.maximal {s0 t : Nat} {tr : List (Nat × Nat)} {cur : Nat} (h : Trace tr cur t)
    (hs : s0 ≤ cur) (hno : noStraddle s0 t cur) :
    ∀ b ∈ tr, ∃ j, b.2 = 2 ^ j ∧ j ≤ 32 ∧ 2 ^ j ∣ b.1 ∧ s0 ≤ b.1 ∧ b.1 + 2 ^ j ≤ t ∧
      maximalIn s0 t b.1 j := by
  induction tr generalizing cur with
  | nil => intro b hb; cases hb
  | cons c tr ih =>
    obtain ⟨h1, ⟨j, hj, hstep, hdvd, hfit, hmax⟩, h3⟩ := h
    have hm := greedy_maximal hmax hno
    intro b hb
    rcases List.mem_cons.1 hb with rfl | hb
    · rw [h1]
      exact ⟨j, hstep, hj, hdvd, hs, hfit, hm⟩
    · rw [hstep] at h3
      exact ih h3 (by omega) (maximal_noStraddle hdvd hm) b hb

theorem Trace.starts_ascend {tr : List (Nat × Nat)} {s t : Nat} (h : Trace tr s t) :
    (∀ b ∈ tr, s ≤ b.1) ∧ (tr.map Prod.fst).Pairwise (fun x y => x < y) := by
  induction tr generalizing s with
  | nil => exact ⟨by simp, List.Pairwise.nil⟩
  | cons c tr ih =>
    obtain ⟨h1, ⟨j, _, hstep, _, _, _⟩, h3⟩ := h
    have hpos : 0 < 2 ^ j := Nat.two_pow_pos j
    obtain ⟨i1, i2⟩ := ih h3
    constructor
    · intro b hb
      rcases List.mem_cons.1 hb with rfl | hb
      · omega
      · have := i1 b hb; omega
    · rw [List.map_cons, List.pairwise_cons]
      refine ⟨fun y hy => ?_, i2⟩
      obtain ⟨b, hb, rfl⟩ := List.mem_map.1 hy
      have := i1 b hb
      omega

/-- A run of the loop is no longer than any list of aligned blocks whose union
is the interval. -/
theorem Trace.length_le {tr : List (Nat × Nat)} {s t : Nat} (h : Trace tr s t)
    (cover : List Block) (hal : ∀ b ∈ cover, b.aligned)
    (hcov : ∀ p, (∃ b ∈ cover, b.contains p) ↔ (s ≤ p ∧ p < t)) :
    tr.length ≤ cover.length := by
  have hmaxi := h.maximal (le_refl s) (fun x i _ _ hs _ hstr => by omega)
  have hsub : tr.map Prod.fst ⊆ cover.map Block.addr := by
    intro g hg
    obtain ⟨b, hb, rfl⟩ := List.mem_map.1 hg
    obtain ⟨j, hstep, hj, hdvd, hs, hfit, hm⟩ := hmaxi b hb
    have hpos : 0 < 2 ^ j := Nat.two_pow_pos j
    obtain ⟨B, hB, hBp⟩ := (hcov b.1).2 ⟨hs, by omega⟩
    obtain ⟨hb0, hb32, hBd⟩ := hal B hB
    have hBpos := B.size_pos
    have hBs : s ≤ B.addr := ((hcov B.addr).1 ⟨B, hB, le_refl _, by omega⟩).1
    have hBt : B.addr + B.size ≤ t := by
      have := ((hcov (B.addr + B.size - 1)).1 ⟨B, hB, by omega, by omega⟩).2
      omega
    have hi : (32 - B.bits).toNat ≤ 32 := by omega
    have hBp' : B.addr ≤ b.1 ∧ b.1 < B.addr + 2 ^ (32 - B.bits).toNat := hBp
    have hgg : b.1 ≤ b.1 ∧ b.1 < b.1 + 2 ^ j := ⟨le_refl _, by omega⟩
    have haddr : B.addr = b.1 := by
      by_cases hij : (32 - B.bits).toNat ≤ j
      · have := aligned_nested hBd hdvd hij hBp' hgg
        omega
      · have h1 := aligned_nested hdvd hBd (by omega) hgg hBp'
        exact (hm B.addr _ hi hBd hBs hBt h1.1 h1.2).1
    exact List.mem_map.2 ⟨B, hB, haddr⟩
  have hnd : (tr.map Prod.fst).Nodup := by
    refine List.Pairwise.imp ?_ h.starts_ascend.2
    intro a b hab
    omega
  have := (hnd.subperm hsub).length_le
  simpa using this

/-! ## A bound on the number of blocks -/

theorem GreedyStep.unique {s t a b : Nat} (ha : GreedyStep s t a) (hb : GreedyStep s t b) :
    a = b := by
  obtain ⟨j, hj, rfl, hd, hf, hm⟩ := ha
  obtain ⟨j', hj', rfl, hd', hf', hm'⟩ := hb
  have h1 := hm j' hj' hd' hf'
  have h2 := hm' j hj hd hf
  have : j = j' := by omega
  rw [this]

theorem GreedyStep.not_fit {s t j : Nat} (ht : t ≤ 2 ^ 32)
    (hj : j ≤ 32) (hmax : ∀ j', j' ≤ 32 → 2 ^ j' ∣ s → s + 2 ^ j' ≤ t → j' ≤ j)
    (hd : 2 ^ (j + 1) ∣ s) : t < s + 2 ^ (j + 1) := by
  by_contra hfit
  by_cases h32 : j + 1 ≤ 32
  · have := hmax (j + 1) h32 hd (by omega)
    omega
  · have : j = 32 := by omega
    subst this
    have : (2 : Nat) ^ 32 < 2 ^ (32 + 1) := by decide
    omega

/-- Once the remaining interval is shorter than the alignment `2 ^ m` of the
cursor, at most `m` blocks follow. -/
theorem Trace.length_limited {t : Nat} (ht : t ≤ 2 ^ 32) :
    ∀ m (tr : List (Nat × Nat)) (s : Nat), Trace tr s t → 2 ^ m ∣ s → t < s + 2 ^ m →
      tr.length ≤ m := by
  intro m
  induction m using Nat.strong_induction_on with
  | _ m ih =>
    intro tr s h hd hlt
    cases tr with
    | nil => simp
    | cons b rest =>
      obtain ⟨h1, ⟨j, hj, hstep, hdj, hfit, hmax⟩, h3⟩ := h
      have hjm : j < m := by
        by_contra hge
        have : 2 ^ m ≤ 2 ^ j := Nat.pow_le_pow_right (by decide) (by omega)
        omega
      have hd1 : 2 ^ (j + 1) ∣ s := dvd_trans (Nat.pow_dvd_pow 2 (by omega)) hd
      have hnf := GreedyStep.not_fit ht hj hmax hd1
      rw [hstep] at h3
      have hrest := ih j hjm rest (s + 2 ^ j) h3 (Nat.dvd_add hdj (dvd_refl _))
        (by rw [Nat.pow_succ] at hnf; omega)
      simp only [List.length_cons]
      omega

theorem Trace.length_aux {t : Nat} (ht : t ≤ 2 ^ 32) :
    ∀ d (tr : List (Nat × Nat)) (s i : Nat), i + d = 33 → 2 ^ i ∣ s → Trace tr s t →
      tr.length ≤ d + 33 := by
  intro d
  induction d using Nat.strong_induction_on with
  | _ d ih =>
    intro tr s i hid hdi h
    cases tr with
    | nil => simp
    | cons b rest =>
      obtain ⟨h1, ⟨j, hj, hstep, hdj, hfit, hmax⟩, h3⟩ := h
      rw [hstep] at h3
      simp only [List.length_cons]
      have hdj' : 2 ^ j ∣ s + 2 ^ j := Nat.dvd_add hdj (dvd_refl _)
      by_cases hL : t < s + 2 ^ (j + 1)
      · have := Trace.length_limited ht j rest (s + 2 ^ j) h3 hdj'
          (by rw [Nat.pow_succ] at hL; omega)
        omega
      · have hnd : ¬ 2 ^ (j + 1) ∣ s := fun hd => hL (GreedyStep.not_fit ht hj hmax hd)
        have hij : i ≤ j := by
          by_contra hlt
          exact hnd (dvd_trans (Nat.pow_dvd_pow 2 (by omega)) hdi)
        have hj31 : j + 1 ≤ 32 := by
          by_contra hgt
          have : j = 32 := by omega
          subst this
          have : (2 : Nat) ^ 32 < 2 ^ (32 + 1) := by decide
          omega
        have hd1 : 2 ^ (j + 1) ∣ s + 2 ^ j := by
          obtain ⟨q, hq⟩ := hdj
          have hodd : q % 2 = 1 := by
            by_contra hev
            apply hnd
            have : q = 2 * (q / 2) := by omega
            rw [hq, this, Nat.pow_succ]
            exact ⟨q / 2, by ring⟩
          have : q + 1 = 2 * ((q + 1) / 2) := by omega
          rw [hq, Nat.pow_succ]
          exact ⟨(q + 1) / 2, by
            calc 2 ^ j * q + 2 ^ j = 2 ^ j * (q + 1) := by ring
              _ = 2 ^ j * (2 * ((q + 1) / 2)) := by rw [← this]
              _ = 2 ^ j * 2 * ((q + 1) / 2) := by ring⟩
        have := ih (32 - j) (by omega) rest (s + 2 ^ j) (j + 1) (by omega) hd1 h3
        omega

/-- A run of the loop inside the 32-bit address space has at most 66 blocks. -/
theorem Trace.length_le_66 {tr : List (Nat × Nat)} {s t : Nat} (ht : t ≤ 2 ^ 32)
    (h : Trace tr s t) : tr.length ≤ 66 :=
  Trace.length_aux ht 33 tr s 0 rfl (by simp) h

/-- The loop returns the run when its fuel exceeds the length of the run by
34. -/
theorem cidrsLoop_of_trace {t : Nat} (ht : t ≤ 2 ^ 32) :
    ∀ (tr : List (Nat × Nat)) (fuel s : Nat) (acc : List (Nat × Nat)), Trace tr s t →
      tr.length + 34 ≤ fuel → cidrsLoop Prod.mk fuel s t acc = some (acc ++ tr) := by
  intro tr
  induction tr with
  | nil =>
    intro fuel s acc h hf
    obtain ⟨f, rfl⟩ : ∃ f, fuel = f + 1 := ⟨fuel - 1, by simp at hf; omega⟩
    simp only [Trace] at h
    simp [cidrsLoop, h]
  | cons b rest ih =>
    intro fuel s acc h hf
    obtain ⟨f, rfl⟩ : ∃ f, fuel = f + 1 := ⟨fuel - 1, by simp at hf; omega⟩
    obtain ⟨h1, hg, h3⟩ := h
    have hg' := hg
    obtain ⟨j, hj, hstep, hdj, hfit, hmax⟩ := hg'
    have hpos : 0 < 2 ^ j := Nat.two_pow_pos j
    have hlt : s < t := by omega
    simp only [List.length_cons] at hf
    obtain ⟨step, hs1, hs2⟩ := halveStep_greedy s t f hlt ht (by omega)
    have hstep' : step = b.2 := hs2.unique hg
    have hb : b = (s, b.2) := by rw [← h1]
    simp only [cidrsLoop, if_pos hlt, hs1, hstep']
    rw [Nat.mod_eq_of_lt (by rw [hstep]; omega), ih f (s + b.2) _ h3 (by omega)]
    rw [List.append_assoc, List.singleton_append, ← hb]

/-- Termination of the loop of `IPRange.CIDRs`: for an interval inside the
32-bit address space, a fuel of 100 suffices, and the result is a run from `s`
to `t`. -/
theorem cidrsLoop_total {s t : Nat} (hst : s ≤ t) (ht : t ≤ 2 ^ 32) :
    ∃ tr, Trace tr s t ∧ tr.length ≤ 66 ∧
      ∀ fuel, 100 ≤ fuel → cidrsLoop Prod.mk fuel s t [] = some tr := by
  obtain ⟨tr, _, htrace⟩ := cidrsLoop_trace t ht (t - s + 34) s [] hst (le_refl _)
  have hlen := Trace.length_le_66 ht htrace
  refine ⟨tr, htrace, hlen, fun fuel hf => ?_⟩
  have := cidrsLoop_of_trace ht tr fuel s [] htrace (by omega)
  simpa using this

/-- What `IPRange.CIDRs` returns for a range inside the 32-bit address space:
with a fuel of at least 100, the texts of the blocks of the run of the loop. -/
theorem CIDRs_of_trace (a : IPRange) (h1 : a.start ≤ a.stop) (h2 : a.stop ≤ 2 ^ 32) :
    ∃ tr, Trace tr a.start a.stop ∧ tr.length ≤ 66 ∧
      ∀ fuel, 100 ≤ fuel →
        a.CIDRs fuel = some ((tr.map (fun b => toBlock b.1 b.2)).map Block.text) := by
  obtain ⟨tr, htrace, hlen, hrun⟩ := cidrsLoop_total h1 h2
  refine ⟨tr, htrace, hlen, fun fuel hf => ?_⟩
  have hb : a.blocks fuel = some (tr.map (fun b => toBlock b.1 b.2)) := by
    have := cidrsLoop_map toBlock fuel a.start a.stop []
    simp only [List.map_nil] at this
    unfold IPRange.blocks
    rw [this, hrun fuel hf]
    rfl
  rw [CIDRs_eq_blocks, hb]
  rfl

/-! ## Printing and parsing a block text -/

set_option maxRecDepth 100000 in
theorem octet_table : ∀ b, b < 256 →
    scanDigits (netip.fmtUint b) 0 0 = some (b, (netip.fmtUint b).length) ∧
    netip.fmtUint b ≠ [] ∧ (netip.fmtUint b).all netip.isDigit = true := by
  decide

set_option maxRecDepth 100000 in
theorem bits_table : ∀ n, n ≤ 32 →
    netip.atoiDigits (netip.fmtUint n) 0 = some n ∧ netip.fmtUint n ≠ [] ∧
    (netip.fmtUint n).all netip.isDigit = true ∧
    ¬ ((netip.fmtUint n).length > 1 ∧
      ¬ ('1' ≤ (netip.fmtUint n).headD '0' ∧ (netip.fmtUint n).headD '0' ≤ '9')) := by
  decide

theorem isDigit_ne {c : Char} (h : netip.isDigit c = true) :
    c ≠ '.' ∧ c ≠ ':' ∧ c ≠ '%' ∧ c ≠ '/' := by
  simp only [netip.isDigit, decide_eq_true_eq] at h
  refine ⟨?_, ?_, ?_, ?_⟩ <;> rintro rfl <;> revert h <;> decide

/-- The loop of `parseIPv4Fields` over an octet followed by a dot. -/
theorem parseIPv4Loop_octet_dot (ds rest : List Char) (hrest : rest ≠ []) :
    ∀ (prev : Option Char) (val n pos : Nat) (fields : List Nat) (v n' : Nat),
      ds ≠ [] → scanDigits ds val n = some (v, n') → pos ≠ 3 →
      netip.parseIPv4Loop (ds ++ '.' :: rest) prev ⟨val, pos, n, fields⟩
        = netip.parseIPv4Loop rest (some '.') ⟨0, pos + 1, 0, fields ++ [v]⟩ := by
  induction ds with
  | nil => intro _ _ _ _ _ _ _ h; exact absurd rfl h
  | cons c ds ih =>
    intro prev val n pos fields v n' _ hscan hpos
    simp only [scanDigits] at hscan
    split_ifs at hscan with c1 c2 c3
    simp only [List.cons_append, netip.parseIPv4Loop, if_pos c1, if_neg c2, if_neg c3]
    cases ds with
    | nil =>
      simp only [scanDigits, Option.some.injEq, Prod.mk.injEq] at hscan
      have hne := (isDigit_ne c1).1
      have hnd : netip.isDigit '.' = false := by decide
      simp only [List.nil_append, netip.parseIPv4Loop, hnd, Bool.false_eq_true, if_false,
        if_true, hrest, hpos, false_or, Option.some.injEq, hne, or_self, reduceCtorEq]
      rw [hscan.1]
    | cons c' ds' => exact ih (some c) _ _ pos fields v n' (by simp) hscan hpos

/-- The loop of `parseIPv4Fields` over the last octet. -/
theorem parseIPv4Loop_octet_end (ds : List Char) :
    ∀ (prev : Option Char) (val n pos : Nat) (fields : List Nat) (v n' : Nat),
      scanDigits ds val n = some (v, n') →
      netip.parseIPv4Loop ds prev ⟨val, pos, n, fields⟩ = some ⟨v, pos, n', fields⟩ := by
  induction ds with
  | nil =>
    intro prev val n pos fields v n' hscan
    simp only [scanDigits, Option.some.injEq, Prod.mk.injEq] at hscan
    simp [netip.parseIPv4Loop, hscan.1, hscan.2]
  | cons c ds ih =>
    intro prev val n pos fields v n' hscan
    simp only [scanDigits] at hscan
    split_ifs at hscan with c1 c2 c3
    simp only [netip.parseIPv4Loop, if_pos c1, if_neg c2, if_neg c3]
    exact ih (some c) _ _ pos fields v n' hscan

theorem quad_bytes (v : Nat) (hv : v < 2 ^ 32) :
    quadValue [v / 2 ^ 24 % 256, v / 2 ^ 16 % 256, v / 2 ^ 8 % 256, v % 256] = v := by
  simp only [quadValue, List.getD_cons_zero, List.getD_cons_succ]
  omega

/-- The dotted quad of a 32-bit value parses back to the value. -/
theorem parseIPv4Fields_String4 (v : Nat) :
    netip.parseIPv4Fields (netip.Addr.String4 v)
      = some [v / 2 ^ 24 % 256, v / 2 ^ 16 % 256, v / 2 ^ 8 % 256, v % 256] := by
  have lt : ∀ x : Nat, x % 256 < 256 := fun x => Nat.mod_lt _ (by decide)
  obtain ⟨s0, n0, _⟩ := octet_table _ (lt (v / 2 ^ 24))
  obtain ⟨s1, n1, _⟩ := octet_table _ (lt (v / 2 ^ 16))
  obtain ⟨s2, n2, _⟩ := octet_table _ (lt (v / 2 ^ 8))
  obtain ⟨s3, n3, _⟩ := octet_table _ (lt v)
  unfold netip.parseIPv4Fields netip.Addr.String4
  rw [parseIPv4Loop_octet_dot _ _ (by simp) none 0 0 0 [] _ _ n0 s0 (by decide),
    parseIPv4Loop_octet_dot _ _ (by simp) _ 0 0 _ _ _ _ n1 s1 (by decide),
    parseIPv4Loop_octet_dot _ _ (by simpa using n3) _ 0 0 _ _ _ _ n2 s2 (by decide),
    parseIPv4Loop_octet_end _ _ 0 0 _ _ _ _ s3]
  simp

theorem find_after_digits (ds rest : List Char) (c : Char) (p : Char → Bool)
    (hds : ∀ d ∈ ds, p d = false) (hc : p c = true) :
    (ds ++ c :: rest).find? p = some c := by
  induction ds with
  | nil => simp [List.find?, hc]
  | cons d ds ih =>
    simp only [List.cons_append, List.find?, hds d (List.mem_cons_self _ _)]
    exact ih (fun x hx => hds x (List.mem_cons_of_mem _ hx))

theorem ParseAddr_String4 (v : Nat) (hv : v < 2 ^ 32) :
    netip.ParseAddr (netip.Addr.String4 v) = some (.v4 v) := by
  have lt : ∀ x : Nat, x % 256 < 256 := fun x => Nat.mod_lt _ (by decide)
  obtain ⟨_, _, d0⟩ := octet_table _ (lt (v / 2 ^ 24))
  have hfind : (netip.Addr.String4 v).find? (fun c => c = '.' ∨ c = ':' ∨ c = '%')
      = some '.' := by
    unfold netip.Addr.String4
    apply find_after_digits
    · intro d hd
      have := isDigit_ne (List.all_eq_true.1 d0 d hd)
      simp [this.1, this.2.1, this.2.2.1]
    · simp
  unfold netip.ParseAddr
  rw [hfind]
  simp only [netip.parseIPv4, parseIPv4Fields_String4, Option.map_some', netip.AddrFrom4]
  have := quad_bytes v hv
  simp only [quadValue] at this
  rw [this]

theorem takeWhile_prefix {α : Type} (p : α → Bool) (l1 l2 : List α) (a : α)
    (h1 : ∀ x ∈ l1, p x = true) (ha : p a = false) :
    (l1 ++ a :: l2).takeWhile p = l1 := by
  induction l1 with
  | nil => simp [List.takeWhile, ha]
  | cons x l1 ih =>
    rw [List.cons_append, List.takeWhile_cons, h1 x (List.mem_cons_self _ _),
      ih (fun y hy => h1 y (List.mem_cons_of_mem _ hy))]
    rfl

theorem splitLastSlash_digits (addr ds : List Char) (hds : ∀ d ∈ ds, netip.isDigit d = true) :
    netip.splitLastSlash (addr ++ '/' :: ds) = some (addr, ds) := by
  have hrev : (addr ++ '/' :: ds).reverse = ds.reverse ++ '/' :: addr.reverse := by simp
  have htw : ((addr ++ '/' :: ds).reverse.takeWhile (fun c => c ≠ '/')) = ds.reverse := by
    rw [hrev]
    apply takeWhile_prefix
    · intro x hx
      have := (isDigit_ne (hds x (List.mem_reverse.1 hx))).2.2.2
      simpa using this
    · simp
  unfold netip.splitLastSlash
  simp only [htw, List.reverse_reverse, List.length_append, List.length_cons]
  rw [if_neg (by omega)]
  have : addr.length + (ds.length + 1) - ds.length - 1 = addr.length := by omega
  rw [this, List.take_left']
  rfl

/-- Parsing the canonical text of a block gives back its address and length. -/
theorem ParsePrefix_cidrText (v n : Nat) (hv : v < 2 ^ 32) (hn : n ≤ 32) :
    netip.ParsePrefix (cidrText v n) = .ok ⟨.v4 v, n⟩ := by
  obtain ⟨b1, b2, b3, b4⟩ := bits_table n hn
  unfold netip.ParsePrefix
  simp only [cidrText, splitLastSlash_digits _ _ (fun d hd => List.all_eq_true.1 b3 d hd),
    ParseAddr_String4 v hv, b1]
  rw [if_neg (by simp), if_neg b4, if_neg b2]
  simp only [netip.Addr.Is6, Bool.false_eq_true, if_false]
  rw [if_neg (by omega)]
  unfold netip.PrefixFrom
  rw [if_neg]
  simp [netip.Addr.IsValid, netip.Addr.BitLen]
  omega

/-! ## The range of a parsed text -/

theorem clearLow_eq (v k : Nat) : v / 2 ^ k * 2 ^ k = clearLow v k := by
  unfold clearLow
  have := Nat.div_add_mod v (2 ^ k)
  rw [Nat.mul_comm] at this
  omega

theorem parseIPv4Loop_inv (s : List Char) :
    ∀ (prev : Option Char) (st st' : netip.v4State), v4Inv st →
      netip.parseIPv4Loop s prev st = some st' → v4Inv st' := by
  induction s with
  | nil =>
    intro prev st st' hinv h
    simp only [netip.parseIPv4Loop, Option.some.injEq] at h
    rw [← h]; exact hinv
  | cons c rest ih =>
    intro prev st st' hinv h
    obtain ⟨i1, i2, i3, i4⟩ := hinv
    simp only [netip.parseIPv4Loop] at h
    split_ifs at h with c1 c2 c3 c4 c5 c6
    · refine ih _ _ _ ?_ h
      refine ⟨i1, i2, ?_, i4⟩
      show st.val * 10 + (c.toNat - '0'.toNat) ≤ 255
      omega
    · refine ih _ _ _ ?_ h
      refine ⟨by simp [i1], ?_, by simp, ?_⟩
      · show st.pos + 1 ≤ 3
        omega
      intro x hx
      rcases List.mem_append.1 hx with hx | hx
      · exact i4 x hx
      · simp at hx; omega

/-- What `parseIPv4Fields` returns is four octets, each at most 255. -/
theorem parseIPv4Fields_shape {s : List Char} {f : List Nat}
    (h : netip.parseIPv4Fields s = some f) :
    ∃ a b c d, f = [a, b, c, d] ∧ a ≤ 255 ∧ b ≤ 255 ∧ c ≤ 255 ∧ d ≤ 255 := by
  unfold netip.parseIPv4Fields at h
  split at h
  · cases h
  · rename_i st hst
    split_ifs at h with c1
    injection h with h
    obtain ⟨i1, i2, i3, i4⟩ := parseIPv4Loop_inv s none _ st ⟨rfl, by decide, by decide, by simp⟩ hst
    have hlen : st.fields.length = 3 := by omega
    match hf : st.fields, hlen, i4 with
    | [a, b, c], _, i4 =>
      refine ⟨a, b, c, st.val, by rw [← h, hf]; rfl, ?_, ?_, ?_, i3⟩
      · exact i4 a (by simp)
      · exact i4 b (by simp)
      · exact i4 c (by simp)

theorem quadValue_four (a b c d : Nat) (ha : a ≤ 255) (hb : b ≤ 255) (hc : c ≤ 255)
    (hd : d ≤ 255) : quadValue [a, b, c, d] = a * 2 ^ 24 + b * 2 ^ 16 + c * 2 ^ 8 + d := by
  simp only [quadValue, List.getD_cons_zero, List.getD_cons_succ]
  omega

theorem Trace.self {tr : List (Nat × Nat)} {s : Nat} (h : Trace tr s s) : tr = [] := by
  cases tr with
  | nil => rfl
  | cons b rest =>
    obtain ⟨_, ⟨j, _, _, _, hfit, _⟩, _⟩ := h
    have := Nat.two_pow_pos j
    omega

/-- The run of the loop over an aligned block is the block itself. -/
theorem Trace.single {tr : List (Nat × Nat)} {v k : Nat} (hk : k ≤ 32) (hd : 2 ^ k ∣ v)
    (h : Trace tr v (v + 2 ^ k)) : tr = [(v, 2 ^ k)] := by
  have hpos : 0 < 2 ^ k := Nat.two_pow_pos k
  cases tr with
  | nil => simp only [Trace] at h; omega
  | cons b rest =>
    obtain ⟨h1, ⟨j, hj, hstep, hdj, hfit, hmax⟩, h3⟩ := h
    have h4 := hmax k hk hd (le_refl _)
    have h5 : j ≤ k := by
      by_contra hlt
      have : 2 ^ k < 2 ^ j := Nat.pow_lt_pow_right (by decide) (by omega)
      omega
    have hjk : j = k := by omega
    subst hjk
    rw [hstep] at h3
    have hb : b = (v, 2 ^ j) := by rw [← h1, ← hstep]
    rw [h3.self, hb]

theorem aligned_block_end {v k n : Nat} (hv : v < 2 ^ 32) (hn : n ≤ 32) (hk : k = 32 - n)
    (hd : 2 ^ k ∣ v) : v + 2 ^ k ≤ 2 ^ 32 := by
  obtain ⟨q, rfl⟩ := hd
  have hpos : 0 < 2 ^ k := Nat.two_pow_pos k
  have hsplit : (2 : Nat) ^ 32 = 2 ^ k * 2 ^ n := by
    rw [← Nat.pow_add]; congr 1; omega
  have hq : q < 2 ^ n := by
    rw [hsplit] at hv
    exact Nat.lt_of_mul_lt_mul_left hv
  calc 2 ^ k * q + 2 ^ k = 2 ^ k * (q + 1) := by ring
    _ ≤ 2 ^ k * 2 ^ n := Nat.mul_le_mul_left _ hq
    _ = 2 ^ 32 := hsplit.symm

/-- Decides `FromCIDR` from what `ParsePrefix` returns for an IPv4 text. -/
theorem FromCIDR_of_parse {cidr : String} {a n : Nat} (ha : a < 2 ^ 32) (hn : n ≤ 32)
    (hp : netip.ParsePrefix cidr = .ok ⟨.v4 a, n⟩) :
    FromCIDR cidr = .ok ⟨a / 2 ^ (32 - n) * 2 ^ (32 - n),
      a / 2 ^ (32 - n) * 2 ^ (32 - n) + 2 ^ (32 - n)⟩ := by
  have hk : 32 - n ≤ 32 := by omega
  have hm : netip.Prefix.Masked ⟨.v4 a, n⟩ = ⟨.v4 (a / 2 ^ (32 - n) * 2 ^ (32 - n)), n⟩ := by
    unfold netip.Prefix.Masked
    simp only []
    rw [if_neg (by omega), if_neg (by omega)]
    simp only [Int.toNat_ofNat]
    rw [land_mask _ _ ha hk]
    unfold netip.PrefixFrom
    rw [if_neg]
    simp [netip.Addr.IsValid, netip.Addr.BitLen]
    omega
  have hlt : a / 2 ^ (32 - n) * 2 ^ (32 - n) < 2 ^ 32 :=
    lt_of_le_of_lt (Nat.div_mul_le_self _ _) ha
  have hpow : 2 ^ (32 - n) ≤ 2 ^ 32 := Nat.pow_le_pow_right (by decide) hk
  have hsh : (32 - ((n : Nat) : Int)).toNat = 32 - n := by omega
  unfold FromCIDR
  simp only [hp, netip.Prefix.IsValid, netip.Prefix.Addr, netip.Addr.Is4, netip.Prefix.Bits, hm,
    bigEndian_asSlice, hsh, Nat.one_shiftLeft]
  rw [if_neg (by simp), if_neg (by simp)]
  rw [Nat.mod_eq_of_lt hlt, Nat.mod_eq_of_lt (a := 2 ^ (32 - n)) (by omega),
    Nat.mod_eq_of_lt (by omega)]

theorem fmtInt_ofNat (n : Nat) : netip.fmtInt (n : Int) = netip.fmtUint n := by
  unfold netip.fmtInt
  rw [if_neg (by omega)]
  simp

theorem CIDRs_loop_single (fuel : Nat) (r : IPRange) (l : List String)
    (h : r.CIDRs fuel = some l) : IPRanges.CIDRs fuel ⟨[r], true⟩ = some l := by
  simp [IPRanges.CIDRs, IPRanges.CIDRs.loop, h]

/-! ## Errors of `FromCIDR` and `FromCIDRs` -/

/-- The errors of `FromCIDR`: the error of `ParsePrefix`, or "not v4" for a
parsed prefix whose address is not IPv4; the "invalid" error is never
returned. -/
theorem FromCIDR_error_iff (c : String) (e : CidrError) :
    FromCIDR c = .error e ↔
      (∃ pe, netip.ParsePrefix c = .error pe ∧ e = .parse pe) ∨
      (∃ p, netip.ParsePrefix c = .ok p ∧ p.Addr.Is4 = false ∧ e = .notV4 p c) := by
  unfold FromCIDR
  cases hp : netip.ParsePrefix c with
  | error pe =>
    simp only [Except.error.injEq, reduceCtorEq, false_and, exists_false, or_false,
      exists_eq_left']
    exact ⟨fun h => h.symm, fun h => h.symm⟩
  | ok p =>
    obtain ⟨_, _, ip, n, _, _, _, _, _, rfl⟩ := ParsePrefix_ok hp
    have hv : netip.Prefix.IsValid ⟨ip, n⟩ = true := by simp [netip.Prefix.IsValid]
    simp only [hv, Bool.not_true, Bool.false_eq_true, if_false, reduceCtorEq, false_and,
      exists_false, false_or, Except.ok.injEq, exists_eq_left']
    cases h4 : (netip.Prefix.Addr ⟨ip, n⟩).Is4 with
    | true => simp
    | false =>
      simp only [Bool.not_false, if_true, Except.error.injEq, true_and]
      exact ⟨fun h => h.symm, fun h => h.symm⟩

theorem FromCIDRs_loop_error (cidrs : List String) :
    ∀ (acc : List IPRange) (e : CidrError),
      FromCIDRs.loop cidrs acc = .error e ↔
        ∃ pre c post, cidrs = pre ++ c :: post ∧ (∀ c' ∈ pre, ∃ r, FromCIDR c' = .ok r) ∧
          FromCIDR c = .error e := by
  induction cidrs with
  | nil =>
    intro acc e
    simp [FromCIDRs.loop]
  | cons c cs ih =>
    intro acc e
    simp only [FromCIDRs.loop]
    cases hc : FromCIDR c with
    | error e' =>
      simp only [Except.error.injEq]
      constructor
      · rintro rfl
        exact ⟨[], c, cs, rfl, by simp, hc⟩
      · rintro ⟨pre, c', post, heq, hpre, herr⟩
        cases pre with
        | nil =>
          simp only [List.nil_append, List.cons.injEq] at heq
          rw [← heq.1, hc] at herr
          injection herr
        | cons p pre' =>
          simp only [List.cons_append, List.cons.injEq] at heq
          obtain ⟨r, hr⟩ := hpre p (List.mem_cons_self _ _)
          rw [← heq.1, hc] at hr
          cases hr
    | ok r =>
      simp only []
      rw [ih]
      constructor
      · rintro ⟨pre, c', post, heq, hpre, herr⟩
        refine ⟨c :: pre, c', post, by rw [heq]; rfl, ?_, herr⟩
        intro x hx
        rcases List.mem_cons.1 hx with rfl | hx
        · exact ⟨r, hc⟩
        · exact hpre x hx
      · rintro ⟨pre, c', post, heq, hpre, herr⟩
        cases pre with
        | nil =>
          simp only [List.nil_append, List.cons.injEq] at heq
          rw [← heq.1, hc] at herr
          cases herr
        | cons p pre' =>
          simp only [List.cons_append, List.cons.injEq] at heq
          exact ⟨pre', c', post, heq.2, fun x hx => hpre x (List.mem_cons_of_mem _ hx), herr⟩

theorem FromCIDRs_error_iff (cidrs : List String) (e : CidrError) :
    FromCIDRs cidrs = .error e ↔
      ∃ pre c post, cidrs = pre ++ c :: post ∧ (∀ c' ∈ pre, ∃ r, FromCIDR c' = .ok r) ∧
        FromCIDR c = .error e := by
  rw [← FromCIDRs_loop_error cidrs [] e]
  unfold FromCIDRs
  cases FromCIDRs.loop cidrs [] with
  | error e' => simp
  | ok rs => simp

/-! ## Endpoints of the sweep output -/

theorem sweepStep_fromInput {S : Nat → Prop} {st : sweepState} {e : endpoint}
    (he : S e.ip) (hu : e.ss = 1 ∨ e.ss = -1) (h : fromInputInv S st) :
    fromInputInv S (sweepStep st e) := by
  obtain ⟨h1, h2⟩ := h
  simp only [sweepStep]
  split_ifs with c1 c2
  · exact ⟨h1, fun _ => he⟩
  · refine ⟨?_, fun hc => ?_⟩
    · intro r hr
      rcases List.mem_append.1 hr with hr | hr
      · exact h1 r hr
      · simp at hr; subst hr; exact ⟨h2 (by omega), he⟩
    · simp at hc; omega
  · refine ⟨h1, fun hc => h2 ?_⟩
    simp at hc
    by_contra hlt
    apply c1
    constructor <;> omega

theorem sweepFrom_fromInput {S : Nat → Prop} (l : List endpoint) (st : sweepState)
    (hl : ∀ e ∈ l, S e.ip) (hu : unitDeltas l) (h : fromInputInv S st) :
    fromInputInv S (sweepFrom st l) := by
  induction l generalizing st with
  | nil => exact h
  | cons e l ih =>
    rw [sweepFrom_cons]
    exact ih _ (fun x hx => hl x (List.mem_cons_of_mem _ hx))
      (fun x hx => hu x (List.mem_cons_of_mem _ hx))
      (sweepStep_fromInput (hl e (List.mem_cons_self _ _)) (hu e (List.mem_cons_self _ _)) h)

/-- Every endpoint of a range that `endpointsToRanges` returns is the address of
one of the endpoints it was given. -/
theorem endpointsToRanges_fromInput {l : List endpoint} {out : List IPRange}
    (hu : unitDeltas l) (h : endpointsToRanges l = .ok out) :
    ∀ r ∈ out, (∃ e ∈ l, e.ip = r.start) ∧ ∃ e ∈ l, e.ip = r.stop := by
  have hinv := sweepFrom_fromInput (S := fun p => ∃ e ∈ l, e.ip = p) l ⟨0, 0, []⟩
    (fun e he => ⟨e, he, rfl⟩) hu ⟨by simp, by simp⟩
  unfold endpointsToRanges at h
  simp only [] at h
  split_ifs at h
  injection h with h
  rw [← h]
  exact hinv.1

theorem mem_endpoints {invert : Bool} {l : List IPRange} {e : endpoint}
    (he : e ∈ l.flatMap (rangeEndpoints invert)) :
    ∃ r ∈ l, e.ip = r.start ∨ e.ip = r.stop := by
  rw [List.mem_flatMap] at he
  obtain ⟨r, hr, he⟩ := he
  simp only [rangeEndpoints, List.mem_cons, List.mem_singleton, List.not_mem_nil,
    or_false] at he
  rcases he with rfl | rfl
  · exact ⟨r, hr, Or.inl rfl⟩
  · exact ⟨r, hr, Or.inr rfl⟩

/-- The sweep after the sort, with where its endpoints come from: every
endpoint of an output range is an endpoint address of the input. -/
theorem sweep_sorted_fromInput (l : List endpoint) (hu : unitDeltas l)
    (out : List IPRange) (h : endpointsToRanges (sortByIP l) = .ok out) :
    ∀ r ∈ out, (∃ e ∈ l, e.ip = r.start) ∧ ∃ e ∈ l, e.ip = r.stop := by
  have hperm := sortByIP_perm l
  have hu' : unitDeltas (sortByIP l) := fun e he => hu e (hperm.subset he)
  intro r hr
  obtain ⟨⟨e1, h1, h1'⟩, ⟨e2, h2, h2'⟩⟩ := endpointsToRanges_fromInput hu' h r hr
  exact ⟨⟨e1, hperm.subset h1, h1'⟩, ⟨e2, hperm.subset h2, h2'⟩⟩

theorem Simplify_wf (a y : IPRanges) (ha : WellFormed a.ranges) (h : a.Simplify = .ok y) :
    WellFormed y.ranges := by
  cases hf : a.simplified with
  | true =>
    obtain ⟨y', hy', _, h1, _⟩ := Simplify_ok a
    rw [hy'] at h
    injection h with h
    rw [← h, h1 hf]
    exact ha
  | false =>
    obtain ⟨out, hout, hcan, _⟩ := Simplify_unflagged a hf
    rw [hout] at h
    injection h with h
    rw [← h]
    have hsw : endpointsToRanges (sortByIP (a.ranges.flatMap (rangeEndpoints false)))
        = .ok out := by
      unfold IPRanges.Simplify at hout
      rw [hf] at hout
      simp only [Bool.false_eq_true, if_false, toEndpoints_eq] at hout
      cases hres : endpointsToRanges (sortByIP (a.ranges.flatMap (rangeEndpoints false))) with
      | error p => rw [hres] at hout; cases hout
      | ok o =>
        rw [hres] at hout
        injection hout with hout
        injection hout with hout
        rw [hout]
    intro r hr
    refine ⟨hcan.2 r hr, ?_⟩
    obtain ⟨_, ⟨e, he, hes⟩⟩ := sweep_sorted_fromInput _ (unitDeltas_bind _ _) out hsw r hr
    obtain ⟨r', hr', hor⟩ := mem_endpoints he
    have := ha r' hr'
    rcases hor with h1 | h1 <;> omega

theorem Subtract_wf (a b y : IPRanges) (ha : WellFormed a.ranges) (hb : WellFormed b.ranges)
    (h : a.Subtract b = .ok y) : WellFormed y.ranges := by
  obtain ⟨a', ha', _, _, _⟩ := Simplify_ok a
  have hwa' := Simplify_wf a a' ha ha'
  obtain ⟨out, hout, hcan, _⟩ := Subtract_spec a b
  rw [hout] at h
  injection h with h
  rw [← h]
  have hsw : endpointsToRanges (sortByIP (a'.ranges.flatMap (rangeEndpoints false)
      ++ b.ranges.flatMap (rangeEndpoints true))) = .ok out := by
    unfold IPRanges.Subtract at hout
    simp only [ha', toEndpoints_eq] at hout
    cases hres : endpointsToRanges (sortByIP (a'.ranges.flatMap (rangeEndpoints false)
      ++ b.ranges.flatMap (rangeEndpoints true))) with
    | error p => rw [hres] at hout; cases hout
    | ok o =>
      rw [hres] at hout
      injection hout with hout
      injection hout with hout
      rw [hout]
  have hu : unitDeltas (a'.ranges.flatMap (rangeEndpoints false)
      ++ b.ranges.flatMap (rangeEndpoints true)) := by
    intro e he
    rcases List.mem_append.1 he with he | he
    · exact unitDeltas_bind _ _ e he
    · exact unitDeltas_bind _ _ e he
  intro r hr
  refine ⟨hcan.2 r hr, ?_⟩
  obtain ⟨_, ⟨e, he, hes⟩⟩ := sweep_sorted_fromInput _ hu out hsw r hr
  rcases List.mem_append.1 he with he | he
  · obtain ⟨r', hr', hor⟩ := mem_endpoints he
    have := hwa' r' hr'
    rcases hor with h1 | h1 <;> omega
  · obtain ⟨r', hr', hor⟩ := mem_endpoints he
    have := hb r' hr'
    rcases hor with h1 | h1 <;> omega

/-- Every range of every range set of the public operations is non-empty and
lies within the 32-bit address space. -/
theorem Built.wf {x : IPRanges} (h : Built x) : WellFormed x.ranges := by
  induction h with
  | fromCIDRs cidrs x hx => exact FromCIDRs_wf cidrs x hx
  | add a b _ _ iha ihb =>
    intro r hr
    rcases List.mem_append.1 hr with hr | hr
    · exact iha r hr
    · exact ihb r hr
  | simplify a x _ hx ih => exact Simplify_wf a x ih hx
  | subtract a b x _ _ hx iha ihb => exact Subtract_wf a b x iha ihb hx

/-! ## Canonical lists -/

/-- Two distinct ranges of a canonical list are separated by a gap. -/
theorem Canonical.separated {l : List IPRange} (h : Canonical l) :
    ∀ r1 ∈ l, ∀ r2 ∈ l, r1 ≠ r2 → r1.stop < r2.start ∨ r2.stop < r1.start := by
  have hp : l.Pairwise (fun r1 r2 => r1.stop < r2.start ∨ r2.stop < r1.start) :=
    List.Pairwise.imp (fun h => Or.inl h) h.1
  exact List.Pairwise.forall (fun a b hab => hab.symm) hp

/-- In a canonical list, an interval whose addresses are all covered lies in
the one range that meets it. -/
theorem Canonical.interval_in_range {l : List IPRange} (h : Canonical l) {x y g : Nat}
    {r : IPRange} (hr : r ∈ l) (hall : ∀ p, x ≤ p → p < y → covers l p)
    (hg : x ≤ g ∧ g < y) (hrg : r.contains g) : r.start ≤ x ∧ y ≤ r.stop := by
  have hsep := h.separated
  have hwf := h.2
  constructor
  · by_contra hlt
    obtain ⟨r', hr', hp1, hp2⟩ := hall (r.start - 1) (by omega) (by have := hrg.1; omega)
    have hne : r ≠ r' := by
      rintro rfl
      omega
    have := hwf r hr
    have := hwf r' hr'
    rcases hsep r hr r' hr' hne with h1 | h1 <;> omega
  · by_contra hlt
    obtain ⟨r', hr', hp1, hp2⟩ := hall r.stop (by have := hrg.2; omega) (by omega)
    have hne : r ≠ r' := by
      rintro rfl
      omega
    have := hwf r hr
    have := hwf r' hr'
    rcases hsep r hr r' hr' hne with h1 | h1 <;> omega

theorem Canonical.tail {r : IPRange} {l : List IPRange} (h : Canonical (r :: l)) :
    Canonical l :=
  ⟨(List.pairwise_cons.1 h.1).2, fun x hx => h.2 x (List.mem_cons_of_mem _ hx)⟩

/-- The first range of a canonical list starts at the least covered address
and stops at the first address after it that is not covered. -/
theorem Canonical.head_spec {r : IPRange} {l : List IPRange} (h : Canonical (r :: l)) :
    covers (r :: l) r.start ∧ (∀ p, covers (r :: l) p → r.start ≤ p) ∧
      ¬ covers (r :: l) r.stop ∧ ∀ p, r.start ≤ p → p < r.stop → covers (r :: l) p := by
  have hlt := h.2 r (List.mem_cons_self _ _)
  have hrest := (List.pairwise_cons.1 h.1).1
  refine ⟨⟨r, List.mem_cons_self _ _, le_refl _, hlt⟩, ?_, ?_, ?_⟩
  · rintro p ⟨r', hr', hp1, hp2⟩
    rcases List.mem_cons.1 hr' with rfl | hr'
    · exact hp1
    · have := hrest r' hr'; omega
  · rintro ⟨r', hr', hp1, hp2⟩
    rcases List.mem_cons.1 hr' with rfl | hr'
    · omega
    · have := hrest r' hr'; omega
  · intro p h1 h2
    exact ⟨r, List.mem_cons_self _ _, h1, h2⟩

/-- A canonical list is determined by the addresses it covers. -/
theorem Canonical.eq_of_covers {l1 l2 : List IPRange} (h1 : Canonical l1) (h2 : Canonical l2)
    (hsame : ∀ p, covers l1 p ↔ covers l2 p) : l1 = l2 := by
  induction l1 generalizing l2 with
  | nil =>
    cases l2 with
    | nil => rfl
    | cons r2 t2 =>
      have := (hsame r2.start).2 h2.head_spec.1
      obtain ⟨_, hr, _⟩ := this
      cases hr
  | cons r1 t1 ih =>
    cases l2 with
    | nil =>
      have := (hsame r1.start).1 h1.head_spec.1
      obtain ⟨_, hr, _⟩ := this
      cases hr
    | cons r2 t2 =>
      obtain ⟨a1, a2, a3, a4⟩ := h1.head_spec
      obtain ⟨b1, b2, b3, b4⟩ := h2.head_spec
      have hlt1 := h1.2 r1 (List.mem_cons_self _ _)
      have hlt2 := h2.2 r2 (List.mem_cons_self _ _)
      have hstart : r1.start = r2.start := by
        have := a2 r2.start ((hsame _).2 b1)
        have := b2 r1.start ((hsame _).1 a1)
        omega
      have hstop : r1.stop = r2.stop := by
        by_contra hne
        rcases Nat.lt_or_gt_of_ne hne with hlt | hlt
        · exact a3 ((hsame _).2 (b4 r1.stop (by omega) hlt))
        · exact b3 ((hsame _).1 (a4 r2.stop (by omega) hlt))
      have heq : r1 = r2 := by
        cases r1; cases r2
        simp only [IPRange.mk.injEq] at *
        exact ⟨hstart, hstop⟩
      subst heq
      have hr1 := (List.pairwise_cons.1 h1.1).1
      have hr2 := (List.pairwise_cons.1 h2.1).1
      have htail : ∀ p, covers t1 p ↔ covers t2 p := by
        intro p
        constructor
        · rintro ⟨r', hr', hp⟩
          obtain ⟨r'', hr'', hp''⟩ := (hsame p).1 ⟨r', List.mem_cons_of_mem _ hr', hp⟩
          rcases List.mem_cons.1 hr'' with rfl | hr''
          · have := hr1 r' hr'
            have := hp.1
            have := hp''.2
            omega
          · exact ⟨r'', hr'', hp''⟩
        · rintro ⟨r', hr', hp⟩
          obtain ⟨r'', hr'', hp''⟩ := (hsame p).2 ⟨r', List.mem_cons_of_mem _ hr', hp⟩
          rcases List.mem_cons.1 hr'' with rfl | hr''
          · have := hr2 r' hr'
            have := hp.1
            have := hp''.2
            omega
          · exact ⟨r'', hr'', hp''⟩
      rw [ih h1.tail h2.tail htail]

/-- What `Simplify` returns for a range set of the data model with `start ≤ stop`
ranges: a canonical set that covers the same addresses. -/
theorem Simplify_covers (a : IPRanges) (hinv : a.Inv) (hwf : ∀ r ∈ a.ranges, r.start ≤ r.stop) :
    ∃ y, a.Simplify = .ok y ∧ y.simplified = true ∧ Canonical y.ranges ∧
      ∀ p, covers y.ranges p ↔ covers a.ranges p := by
  cases hf : a.simplified with
  | true =>
    obtain ⟨y, hy, hs, h1, _⟩ := Simplify_ok a
    refine ⟨y, hy, hs, ?_, ?_⟩
    · rw [h1 hf]; exact hinv hf
    · rw [h1 hf]; exact fun _ => Iff.rfl
  | false =>
    obtain ⟨out, hout, hcan, hcov⟩ := Simplify_unflagged a hf
    exact ⟨_, hout, rfl, hcan, hcov hwf⟩

/-! ## Decomposition of a range set -/

theorem covers_cons (r : IPRange) (l : List IPRange) (p : Nat) :
    covers (r :: l) p ↔ (r.contains p ∨ covers l p) := by
  simp [covers]

/-- A canonical list inside the 32-bit address space covers as many addresses
as the lengths of its ranges add up to. -/
theorem Canonical.coveredCount_eq {l : List IPRange} (h : Canonical l)
    (hb : ∀ r ∈ l, r.stop ≤ 2 ^ 32) :
    coveredCount l = (l.map (fun r => r.stop - r.start)).sum := by
  induction l with
  | nil => simp [coveredCount, covers]
  | cons r l ih =>
    have hrest := (List.pairwise_cons.1 h.1).1
    have hr := hb r (List.mem_cons_self _ _)
    have ihl := ih h.tail (fun x hx => hb x (List.mem_cons_of_mem _ hx))
    unfold coveredCount at ihl ⊢
    have hsplit : (Finset.range (2 ^ 32)).filter (fun p => covers (r :: l) p)
        = Finset.Ico r.start r.stop ∪ (Finset.range (2 ^ 32)).filter (fun p => covers l p) := by
      ext p
      simp only [Finset.mem_filter, Finset.mem_range, covers_cons, Finset.mem_union,
        Finset.mem_Ico, IPRange.contains]
      constructor
      · rintro ⟨hp, h1 | h1⟩
        · exact Or.inl h1
        · exact Or.inr ⟨hp, h1⟩
      · rintro (h1 | h1)
        · exact ⟨by omega, Or.inl h1⟩
        · exact ⟨h1.1, Or.inr h1.2⟩
    have hdisj : Disjoint (Finset.Ico r.start r.stop)
        ((Finset.range (2 ^ 32)).filter (fun p => covers l p)) := by
      rw [Finset.disjoint_left]
      intro p hp1 hp2
      simp only [Finset.mem_Ico] at hp1
      simp only [Finset.mem_filter] at hp2
      obtain ⟨r', hr', hp3, _⟩ := hp2.2
      have := hrest r' hr'
      omega
    rw [hsplit, Finset.card_union_of_disjoint hdisj, Nat.card_Ico, ihl]
    simp

theorem Trace.sum_steps {tr : List (Nat × Nat)} {s t : Nat} (h : Trace tr s t) :
    s ≤ t ∧ (tr.map Prod.snd).sum = t - s := by
  induction tr generalizing s with
  | nil => simp only [Trace] at h; simp [h]
  | cons b tr ih =>
    obtain ⟨_, ⟨j, _, hstep, _, hfit, _⟩, h3⟩ := h
    obtain ⟨i1, i2⟩ := ih h3
    rw [hstep] at i1 i2
    simp only [List.map_cons, List.sum_cons, i2, hstep]
    omega

theorem Traces.exists {rs : List IPRange} (hwf : WellFormed rs) : ∃ trs, Traces rs trs := by
  induction rs with
  | nil => exact ⟨[], List.Forall₂.nil⟩
  | cons r rs ih =>
    obtain ⟨trs, htrs⟩ := ih (fun x hx => hwf x (List.mem_cons_of_mem _ hx))
    have hr := hwf r (List.mem_cons_self _ _)
    obtain ⟨tr, htr, _⟩ := cidrsLoop_total (le_of_lt hr.1) hr.2
    exact ⟨tr :: trs, List.Forall₂.cons htr htrs⟩

/-- What `IPRanges.CIDRs` returns for well-formed ranges: with a fuel of at
least 100, the texts of the blocks of the runs of its ranges, in order. -/
theorem Traces.CIDRs_loop {rs : List IPRange} {trs : List (List (Nat × Nat))}
    (hwf : WellFormed rs) (h : Traces rs trs) (fuel : Nat) (hf : 100 ≤ fuel) :
    ∀ acc, IPRanges.CIDRs.loop fuel rs acc
      = some (acc ++ (trs.flatten.map (fun b => toBlock b.1 b.2)).map Block.text) := by
  induction h with
  | nil => intro acc; simp [IPRanges.CIDRs.loop]
  | @cons r tr rs trs htr _ ih =>
    intro acc
    have hr := hwf r (List.mem_cons_self _ _)
    obtain ⟨tr', htr', _, hrun⟩ := CIDRs_of_trace r (le_of_lt hr.1) hr.2
    have heq : tr' = tr := by
      have h1 := cidrsLoop_of_trace hr.2 tr' (tr'.length + tr.length + 34) r.start [] htr'
        (by omega)
      have h2 := cidrsLoop_of_trace hr.2 tr (tr'.length + tr.length + 34) r.start [] htr
        (by omega)
      rw [h1] at h2
      simpa using h2
    subst heq
    simp only [IPRanges.CIDRs.loop, hrun fuel hf]
    rw [ih (fun x hx => hwf x (List.mem_cons_of_mem _ hx))]
    simp

theorem Traces.sum_sizes {rs : List IPRange} {trs : List (List (Nat × Nat))}
    (hwf : WellFormed rs) (h : Traces rs trs) :
    ((trs.flatten.map (fun b => toBlock b.1 b.2)).map Block.size).sum
      = (rs.map (fun r => r.stop - r.start)).sum := by
  induction h with
  | nil => simp
  | @cons r tr rs trs htr _ ih =>
    have hr := hwf r (List.mem_cons_self _ _)
    have hsz : ∀ (tr : List (Nat × Nat)) (s : Nat), Trace tr s r.stop →
        ((tr.map (fun b => toBlock b.1 b.2)).map Block.size) = tr.map Prod.snd := by
      intro tr
      induction tr with
      | nil => intro s _; rfl
      | cons b tr ih' =>
        intro s hs
        obtain ⟨h1, hg, h3⟩ := hs
        have := (toBlock_greedy hr.2 hg).2.2.2.1
        simp only [List.map_cons, ih' _ h3]
        rw [h1, this]
    simp only [List.flatten_cons, List.map_append, List.sum_append, List.map_cons,
      List.sum_cons, ih (fun x hx => hwf x (List.mem_cons_of_mem _ hx)), hsz tr _ htr,
      htr.sum_steps.2]

/-- The block of a step of the loop is aligned, and its text parses back to its
address and prefix length. -/
theorem toBlock_text {s t step : Nat} (ht : t ≤ 2 ^ 32) (h : GreedyStep s t step) :
    (toBlock s step).aligned ∧
      netip.ParsePrefix (toBlock s step).text
        = .ok ⟨.v4 (toBlock s step).addr, (toBlock s step).bits⟩ := by
  have hg := toBlock_greedy ht h
  obtain ⟨j, hj, rfl, hdvd, hfit, _⟩ := h
  have hpos : 0 < 2 ^ j := Nat.two_pow_pos j
  have hs : s % 2 ^ 32 = s := Nat.mod_eq_of_lt (by omega)
  have hb : toBlock s (2 ^ j) = ⟨s, ((32 - j : Nat) : Int)⟩ := by
    simp only [toBlock, TrailingZeros64_pow j hj, hs]
    congr 1
    omega
  refine ⟨⟨hg.2.1, hg.2.2.1, ?_⟩, ?_⟩
  · rw [hg.2.2.2.1, hg.1]; exact hdvd
  · rw [hb]
    have := ParsePrefix_cidrText s (32 - j) (by omega) (by omega)
    simpa [Block.text, cidrText, fmtInt_ofNat] using this

/-! ## Minimality of the decomposition of a canonical set -/

/-- Every start of a run of the loop is the address of a block of any list of
aligned blocks that covers the interval and whose blocks, when they meet the
interval, lie in it. -/
theorem Trace.starts_subset {tr : List (Nat × Nat)} {s t : Nat} (h : Trace tr s t)
    (cover : List Block) (hal : ∀ b ∈ cover, b.aligned)
    (hcov : ∀ p, s ≤ p → p < t → ∃ b ∈ cover, b.contains p)
    (hin : ∀ b ∈ cover, ∀ p, s ≤ p → p < t → b.contains p →
      s ≤ b.addr ∧ b.addr + b.size ≤ t) :
    tr.map Prod.fst ⊆ cover.map Block.addr := by
  have hmaxi := h.maximal (le_refl s) (fun x i _ _ hs _ hstr => by omega)
  intro g hg
  obtain ⟨b, hb, rfl⟩ := List.mem_map.1 hg
  obtain ⟨j, hstep, hj, hdvd, hs, hfit, hm⟩ := hmaxi b hb
  have hpos : 0 < 2 ^ j := Nat.two_pow_pos j
  obtain ⟨B, hB, hBp⟩ := hcov b.1 hs (by omega)
  obtain ⟨hb0, hb32, hBd⟩ := hal B hB
  obtain ⟨hBs, hBt⟩ := hin B hB b.1 hs (by omega) hBp
  have hi : (32 - B.bits).toNat ≤ 32 := by omega
  have hBp' : B.addr ≤ b.1 ∧ b.1 < B.addr + 2 ^ (32 - B.bits).toNat := hBp
  have hgg : b.1 ≤ b.1 ∧ b.1 < b.1 + 2 ^ j := ⟨le_refl _, by omega⟩
  have haddr : B.addr = b.1 := by
    by_cases hij : (32 - B.bits).toNat ≤ j
    · have := aligned_nested hBd hdvd hij hBp' hgg
      omega
    · have h1 := aligned_nested hdvd hBd (by omega) hgg hBp'
      exact (hm B.addr _ hi hBd hBs hBt h1.1 h1.2).1
  exact List.mem_map.2 ⟨B, hB, haddr⟩

theorem Trace.starts_bounds {tr : List (Nat × Nat)} {s t : Nat} (h : Trace tr s t) :
    ∀ b ∈ tr, s ≤ b.1 ∧ b.1 < t := by
  have hmaxi := h.maximal (le_refl s) (fun x i _ _ hs _ hstr => by omega)
  intro b hb
  obtain ⟨j, _, _, _, hs, hfit, _⟩ := hmaxi b hb
  have hpos : 0 < 2 ^ j := Nat.two_pow_pos j
  exact ⟨hs, by omega⟩

/-- The starts of the runs of a canonical list ascend, and each lies in a range
of the list. -/
theorem Traces.all_starts_ascend {rs : List IPRange} {trs : List (List (Nat × Nat))}
    (hcan : Canonical rs) (h : Traces rs trs) :
    (∀ a ∈ trs.flatten.map Prod.fst, ∃ r ∈ rs, r.start ≤ a ∧ a < r.stop) ∧
      (trs.flatten.map Prod.fst).Pairwise (fun a b => a < b) := by
  induction h with
  | nil => exact ⟨by simp, by simp⟩
  | @cons r tr rs trs htr _ ih =>
    obtain ⟨i1, i2⟩ := ih hcan.tail
    have hrest := (List.pairwise_cons.1 hcan.1).1
    have hb := htr.starts_bounds
    simp only [List.flatten_cons, List.map_append]
    constructor
    · intro a ha
      rcases List.mem_append.1 ha with ha | ha
      · obtain ⟨b, hb', rfl⟩ := List.mem_map.1 ha
        exact ⟨r, List.mem_cons_self _ _, hb b hb'⟩
      · obtain ⟨r', hr', hp⟩ := i1 a ha
        exact ⟨r', List.mem_cons_of_mem _ hr', hp⟩
    · rw [List.pairwise_append]
      refine ⟨htr.starts_ascend.2, i2, ?_⟩
      intro a ha b hb'
      obtain ⟨c, hc, rfl⟩ := List.mem_map.1 ha
      obtain ⟨r', hr', hp⟩ := i1 b hb'
      have := hb c hc
      have := hrest r' hr'
      omega

/-- The runs of a canonical list have, together, no more blocks than any list
of aligned blocks whose union is the address set of the list. -/
theorem Traces.total_length_le {rs : List IPRange} {trs : List (List (Nat × Nat))}
    (hcan : Canonical rs) (h : Traces rs trs) (cover : List Block)
    (hal : ∀ b ∈ cover, b.aligned)
    (hcov : ∀ p, (∃ b ∈ cover, b.contains p) ↔ covers rs p) :
    trs.flatten.length ≤ cover.length := by
  have hsub : trs.flatten.map Prod.fst ⊆ cover.map Block.addr := by
    have key : ∀ (rs' : List IPRange) (trs' : List (List (Nat × Nat))), Traces rs' trs' →
        (∀ r ∈ rs', r ∈ rs) → trs'.flatten.map Prod.fst ⊆ cover.map Block.addr := by
      intro rs' trs' h'
      induction h' with
      | nil => intro _; simp
      | @cons r tr rs' trs' htr _ ih =>
        intro hmem
        simp only [List.flatten_cons, List.map_append]
        apply List.append_subset.2
        refine ⟨?_, ih (fun x hx => hmem x (List.mem_cons_of_mem _ hx))⟩
        have hr := hmem r (List.mem_cons_self _ _)
        apply htr.starts_subset cover hal
        · intro p h1 h2
          exact (hcov p).2 ⟨r, hr, h1, h2⟩
        · intro B hB p h1 h2 hBp
          have hBpos := B.size_pos
          exact hcan.interval_in_range hr
            (fun q hq1 hq2 => (hcov q).1 ⟨B, hB, hq1, hq2⟩) hBp ⟨h1, h2⟩
    exact key rs trs h (fun r hr => hr)
  have hnd : (trs.flatten.map Prod.fst).Nodup := by
    refine List.Pairwise.imp ?_ (h.all_starts_ascend hcan).2
    intro a b hab
    omega
  have := (hnd.subperm hsub).length_le
  rw [List.length_map, List.length_map] at this
  exact this

/-! ## Slices: the list model at the time of return -/

open Slices in
/-- The slice `append` returns holds the elements of its first argument followed
by the appended ones. -/
theorem appendSlice_read (grow : Nat → Nat → Nat) (h : Heap) (s : Slice)
    (xs : List IPRange) (hv : s.valid h) :
    (appendSlice grow h s xs).1.read (appendSlice grow h s xs).2 = h.read s ++ xs := by
  obtain ⟨hlen, hcap⟩ := hv
  unfold appendSlice
  split_ifs with c
  · simp only [Heap.read]
    rcases hcap with h0 | ⟨h1, h2⟩
    · have hl : s.len = 0 := by omega
      have hx : xs = [] := by
        have : xs.length = 0 := by omega
        exact List.length_eq_zero.1 this
      simp [hl, hx]
    · have hget : (h.set s.arr (writeAt (h.getD s.arr []) s.len xs)).getD s.arr []
          = writeAt (h.getD s.arr []) s.len xs := by
        simp [List.getD_eq_getElem?_getD, List.getElem?_set, h1]
      rw [hget]
      unfold writeAt
      have hl : ((h.getD s.arr []).take s.len).length = s.len := by
        rw [List.length_take]; omega
      exact List.take_left' (by rw [List.length_append, hl])
  · simp only [Heap.read]
    have hget : (h ++ [(h.getD s.arr []).take s.len ++ xs ++
        List.replicate (grow s.cap (s.len + xs.length) - (s.len + xs.length))
          (⟨0, 0⟩ : IPRange)]).getD h.length []
        = (h.getD s.arr []).take s.len ++ xs ++
          List.replicate (grow s.cap (s.len + xs.length) - (s.len + xs.length))
            (⟨0, 0⟩ : IPRange) := by
      simp [List.getD_eq_getElem?_getD]
    rw [hget]
    have hl : ((h.getD s.arr []).take s.len).length = s.len := by
      rw [List.length_take]
      rcases hcap with h0 | ⟨h1, h2⟩ <;> omega
    exact List.take_left' (by rw [List.length_append, hl])

open Slices in
/-- At the time `Add` returns, its result holds the ranges of `a` followed by
those of `b`: the list model of `IPRanges.Add`. -/
theorem Slices_Add_read (grow : Nat → Nat → Nat) (h : Heap) (a b : Slices.IPRanges)
    (hv : a.ranges.valid h) :
    (Slices.Add grow h a b).1.read (Slices.Add grow h a b).2.ranges
      = (IPRanges.Add ⟨h.read a.ranges, a.simplified⟩ ⟨h.read b.ranges, b.simplified⟩).ranges :=
  appendSlice_read grow h a.ranges (h.read b.ranges) hv

theorem Trace.greedy {tr : List (Nat × Nat)} {s t : Nat} (h : Trace tr s t) :
    ∀ b ∈ tr, GreedyStep b.1 t b.2 := by
  induction tr generalizing s with
  | nil => intro b hb; cases hb
  | cons c tr ih =>
    obtain ⟨h1, hg, h3⟩ := h
    intro b hb
    rcases List.mem_cons.1 hb with rfl | hb
    · rw [h1]; exact hg
    · exact ih h3 b hb

theorem Traces.each_greedy {rs : List IPRange} {trs : List (List (Nat × Nat))}
    (hwf : WellFormed rs) (h : Traces rs trs) :
    ∀ b ∈ trs.flatten, ∃ t, t ≤ 2 ^ 32 ∧ GreedyStep b.1 t b.2 := by
  induction h with
  | nil => intro b hb; simp at hb
  | @cons r tr rs trs htr _ ih =>
    intro b hb
    rw [List.flatten_cons] at hb
    rcases List.mem_append.1 hb with hb | hb
    · exact ⟨r.stop, (hwf r (List.mem_cons_self _ _)).2, htr.greedy b hb⟩
    · exact ih (fun x hx => hwf x (List.mem_cons_of_mem _ hx)) b hb

theorem coveredCount_congr {l1 l2 : List IPRange} (h : ∀ p, covers l1 p ↔ covers l2 p) :
    coveredCount l1 = coveredCount l2 := by
  unfold coveredCount
  exact congrArg Finset.card (Finset.filter_congr (fun p _ => h p))

/-- The decomposition of a canonical, well-formed range list: with a fuel of at
least 100, `IPRanges.CIDRs` returns the texts of aligned blocks whose sizes add
up to the number of covered addresses, and no more of them than any list of
aligned blocks with the same union. -/
theorem CIDRs_canonical (y : IPRanges) (hcan : Canonical y.ranges) (hwf : WellFormed y.ranges) :
    ∃ bs : List Block,
      (∀ fuel, 100 ≤ fuel → y.CIDRs fuel = some (bs.map Block.text)) ∧
      (∀ b ∈ bs, b.aligned ∧ netip.ParsePrefix b.text = .ok ⟨.v4 b.addr, b.bits⟩) ∧
      (bs.map Block.size).sum = coveredCount y.ranges ∧
      ∀ cover : List Block, (∀ b ∈ cover, b.aligned) →
        (∀ p, (∃ b ∈ cover, b.contains p) ↔ covers y.ranges p) →
        bs.length ≤ cover.length := by
  obtain ⟨trs, htrs⟩ := Traces.exists hwf
  refine ⟨trs.flatten.map (fun b => toBlock b.1 b.2), ?_, ?_, ?_, ?_⟩
  · intro fuel hf
    have := htrs.CIDRs_loop hwf fuel hf []
    simpa [IPRanges.CIDRs] using this
  · intro b hb
    obtain ⟨c, hc, rfl⟩ := List.mem_map.1 hb
    obtain ⟨t, ht, hg⟩ := htrs.each_greedy hwf c hc
    exact toBlock_text ht hg
  · rw [htrs.sum_sizes hwf, hcan.coveredCount_eq (fun r hr => (hwf r hr).2)]
  · intro cover hal hcov
    have := htrs.total_length_le hcan cover hal hcov
    rw [List.length_map]
    exact this

/-! ## The capacity of a grown slice -/

theorem nextslicecap_loop_ge (fuel newcap newLen : Nat) (h : newLen ≤ newcap + 192 * fuel) :
    newLen ≤ Slices.nextslicecap.loop fuel newcap newLen := by
  induction fuel generalizing newcap with
  | zero =>
    rw [Slices.nextslicecap.loop]
    omega
  | succ n ih =>
    rw [Slices.nextslicecap.loop]
    split_ifs with hge
    · exact hge
    · apply ih
      omega

theorem nextslicecap_ge (newLen oldCap : Nat) : newLen ≤ Slices.nextslicecap newLen oldCap := by
  unfold Slices.nextslicecap
  split_ifs with h1 h2
  · exact le_rfl
  · omega
  · exact nextslicecap_loop_ge _ _ _ (by omega)

theorem roundupsize_ge (size : Nat) : size ≤ Slices.roundupsize size := by
  unfold Slices.roundupsize
  split_ifs with h
  · cases hf : Slices.class_to_size.find? (fun c => decide (size ≤ c)) with
    | none => exact le_rfl
    | some c =>
      have := List.find?_some hf
      simpa using this
  · omega

/-- The array `append` allocates holds the `newLen` elements. -/
theorem gcGrow_ge (oldCap newLen : Nat) : newLen ≤ Slices.gcGrow oldCap newLen := by
  unfold Slices.gcGrow
  have h1 := nextslicecap_ge newLen oldCap
  have h2 := roundupsize_ge (Slices.nextslicecap newLen oldCap * 16)
  omega

/-- Capacities of `gcGrow`: the doubling of `FromCIDRs`, which appends one
range at a time, and the rounding to a size class of a longer `append`. -/
theorem gcGrow_eval :
    Slices.gcGrow 0 1 = 1 ∧ Slices.gcGrow 1 2 = 2 ∧ Slices.gcGrow 2 3 = 4 ∧
    Slices.gcGrow 4 5 = 8 ∧ Slices.gcGrow 0 17 = 18 ∧ Slices.gcGrow 0 5 = 5 ∧
    Slices.gcGrow 16 33 = 36 ∧ Slices.gcGrow 256 257 = 512 ∧ Slices.gcGrow 512 513 = 848 ∧
    Slices.gcGrow 0 3000 = 3072 := by
  decide

/-! ## Claims -/

/-- C1 (subtraction correctness).  For range sets `a` and `b` whose ranges
satisfy `start < stop ≤ 2 ^ 32`, `a` being a range set of the data model (a set
flagged simplified is canonical, as every set of the public operations is, see
`Built.inv`), `Subtract a b` returns a set, and an address lies in one of its
ranges exactly when it lies in a range of `a` and in no range of `b`. -/
theorem Subtract_correct (a b : IPRanges) (ha : WellFormed a.ranges)
    (hb : WellFormed b.ranges) (hinv : a.Inv) :
    ∃ x, a.Subtract b = .ok x ∧
      ∀ p, covers x.ranges p ↔ (covers a.ranges p ∧ ¬ covers b.ranges p) := by
  obtain ⟨out, hout, _, hcov⟩ := Subtract_spec a b
  exact ⟨_, hout, hcov hinv (fun r hr => le_of_lt (ha r hr).1) (fun r hr => le_of_lt (hb r hr).1)⟩

/-- Witness of C1: `10.0.0.0/24` minus `10.0.0.128/25` is `10.0.0.0/25`. -/
theorem Subtract_correct_witness :
    FromCIDRs ["10.0.0.0/24"] = .ok ⟨[⟨167772160, 167772416⟩], true⟩ ∧
    FromCIDRs ["10.0.0.128/25"] = .ok ⟨[⟨167772288, 167772416⟩], true⟩ ∧
    IPRanges.Subtract ⟨[⟨167772160, 167772416⟩], true⟩ ⟨[⟨167772288, 167772416⟩], true⟩
      = .ok ⟨[⟨167772160, 167772288⟩], true⟩ ∧
    IPRanges.CIDRs 64 ⟨[⟨167772160, 167772288⟩], true⟩ = some ["10.0.0.0/25"] ∧
    ∃ x, IPRanges.Subtract ⟨[⟨167772160, 167772416⟩], true⟩ ⟨[⟨167772288, 167772416⟩], true⟩
        = .ok x ∧
      ∀ p, covers x.ranges p ↔
        (covers [⟨167772160, 167772416⟩] p ∧ ¬ covers [⟨167772288, 167772416⟩] p) :=
  ⟨rfl, rfl, rfl, rfl,
    Subtract_correct ⟨[⟨167772160, 167772416⟩], true⟩ ⟨[⟨167772288, 167772416⟩], true⟩
      (by decide) (by decide) (by decide)⟩

/-- C2 (union correctness).  For range sets `a` and `b` whose ranges satisfy
`start < stop ≤ 2 ^ 32`, `Simplify (Add a b)` returns a set, and an address lies
in one of its ranges exactly when it lies in a range of `a` or in a range of
`b`. -/
theorem Simplify_Add_correct (a b : IPRanges) (ha : WellFormed a.ranges)
    (hb : WellFormed b.ranges) :
    ∃ x, (a.Add b).Simplify = .ok x ∧
      ∀ p, covers x.ranges p ↔ (covers a.ranges p ∨ covers b.ranges p) := by
  obtain ⟨out, hout, _, hcov⟩ := Simplify_unflagged (a.Add b) rfl
  refine ⟨_, hout, fun p => ?_⟩
  have hwf : ∀ r ∈ (a.Add b).ranges, r.start ≤ r.stop := by
    intro r hr
    rcases List.mem_append.1 hr with hr | hr
    · exact le_of_lt (ha r hr).1
    · exact le_of_lt (hb r hr).1
  rw [hcov hwf p]
  simp only [covers, IPRanges.Add, List.mem_append]
  constructor
  · rintro ⟨r, hr | hr, hp⟩
    · exact Or.inl ⟨r, hr, hp⟩
    · exact Or.inr ⟨r, hr, hp⟩
  · rintro (⟨r, hr, hp⟩ | ⟨r, hr, hp⟩)
    · exact ⟨r, Or.inl hr, hp⟩
    · exact ⟨r, Or.inr hr, hp⟩

/-- Witness of C2: the union of the overlapping `10.0.0.0/24` and `10.0.0.128/25`
with `10.0.1.0/24`. -/
theorem Simplify_Add_correct_witness :
    (IPRanges.Add ⟨[⟨167772160, 167772416⟩, ⟨167772288, 167772416⟩], false⟩
        ⟨[⟨167772416, 167772672⟩], true⟩).Simplify
      = .ok ⟨[⟨167772160, 167772672⟩], true⟩ ∧
    ∃ x, (IPRanges.Add ⟨[⟨167772160, 167772416⟩, ⟨167772288, 167772416⟩], false⟩
        ⟨[⟨167772416, 167772672⟩], true⟩).Simplify = .ok x ∧
      ∀ p, covers x.ranges p ↔
        (covers [⟨167772160, 167772416⟩, ⟨167772288, 167772416⟩] p ∨
          covers [⟨167772416, 167772672⟩] p) :=
  ⟨rfl, Simplify_Add_correct ⟨[⟨167772160, 167772416⟩, ⟨167772288, 167772416⟩], false⟩
    ⟨[⟨167772416, 167772672⟩], true⟩ (by decide) (by decide)⟩

/-- C3 (canonical invariant of simplify).  For every range set `x` built with
`FromCIDRs`, `Add`, `Simplify` and `Subtract`, `Simplify x` returns a set whose
range list is sorted ascending by `start`, pairwise disjoint, and in which each
range stops strictly before the next one starts; a set that is already flagged
simplified is returned as it is. -/
theorem Simplify_canonical (x : IPRanges) (hx : Built x) :
    ∃ y, x.Simplify = .ok y ∧ (x.simplified = true → y = x) ∧
      y.ranges.Sorted (fun r1 r2 => r1.start < r2.start) ∧
      y.ranges.Pairwise IPRange.disjoint ∧
      y.ranges.Chain' (fun r1 r2 => r1.stop < r2.start) := by
  obtain ⟨y, hy, _, h1, h2⟩ := Simplify_ok x
  have hcan : Canonical y.ranges := by
    cases hf : x.simplified with
    | true => rw [h1 hf]; exact hx.inv hf
    | false => exact h2 hf
  exact ⟨y, hy, h1, hcan.sorted, hcan.pairwise_disjoint, hcan.chain⟩

/-- Witness of C3: the set of `10.0.0.0/25` and `10.0.0.128/25`, which simplifies
to the single range of `10.0.0.0/24`. -/
theorem Simplify_canonical_witness :
    IPRanges.Simplify ⟨[⟨167772160, 167772288⟩, ⟨167772288, 167772416⟩], false⟩
      = .ok ⟨[⟨167772160, 167772416⟩], true⟩ ∧
    ∃ y, IPRanges.Simplify ⟨[⟨167772160, 167772288⟩, ⟨167772288, 167772416⟩], false⟩ = .ok y ∧
      ((false = true) → y = ⟨[⟨167772160, 167772288⟩, ⟨167772288, 167772416⟩], false⟩) ∧
      y.ranges.Sorted (fun r1 r2 => r1.start < r2.start) ∧
      y.ranges.Pairwise IPRange.disjoint ∧
      y.ranges.Chain' (fun r1 r2 => r1.stop < r2.start) :=
  ⟨rfl, Simplify_canonical ⟨[⟨167772160, 167772288⟩, ⟨167772288, 167772416⟩], false⟩
    (Built.fromCIDRs ["10.0.0.0/25", "10.0.0.128/25"] _ rfl)⟩

/-- C4 (subtract returns a canonical set).  For all range sets `a` and `b`,
`Subtract a b` returns a set flagged simplified whose range list is sorted
ascending by `start`, pairwise disjoint, and in which each range stops strictly
before the next one starts.  No assumption on the ranges of `a` and `b` is
needed. -/
theorem Subtract_canonical (a b : IPRanges) :
    ∃ x, a.Subtract b = .ok x ∧ x.simplified = true ∧
      x.ranges.Sorted (fun r1 r2 => r1.start < r2.start) ∧
      x.ranges.Pairwise IPRange.disjoint ∧
      x.ranges.Chain' (fun r1 r2 => r1.stop < r2.start) ∧
      ∀ r ∈ x.ranges, r.start < r.stop := by
  obtain ⟨out, hout, hcan, _⟩ := Subtract_spec a b
  exact ⟨_, hout, rfl, hcan.sorted, hcan.pairwise_disjoint, hcan.chain, hcan.2⟩

/-- C5 (decomposition is an exact ordered tiling by aligned blocks).  For every
range with `start < stop ≤ 2 ^ 32`, `IPRange.CIDRs` terminates (a fuel of 100
suffices) and returns the texts of a non-empty list of blocks that tile the
range: every block has a prefix length between 0 and 32 and an address
divisible by its size, the first starts at `start`, each next one starts where
the one before ends, and the last ends at `stop`.  Hence the blocks ascend, are
pairwise disjoint, and cover exactly the range. -/
theorem CIDRs_tiling (a : IPRange) (h1 : a.start < a.stop) (h2 : a.stop ≤ 2 ^ 32) :
    ∃ bs, (∀ fuel, 100 ≤ fuel → a.CIDRs fuel = some (bs.map Block.text)) ∧ bs ≠ [] ∧
      Tiles bs a.start a.stop ∧
      bs.Pairwise (fun b1 b2 => b1.addr + b1.size ≤ b2.addr) ∧
      (∀ p, (∃ b ∈ bs, b.contains p) ↔ (a.start ≤ p ∧ p < a.stop)) := by
  obtain ⟨tr, htrace, _, hrun⟩ := CIDRs_of_trace a (le_of_lt h1) h2
  have ht := htrace.tiles h2
  refine ⟨_, hrun, ?_, ht, ht.ascending, ht.covers⟩
  intro hnil
  rw [hnil] at ht
  simp only [Tiles] at ht
  omega

/-- Witness of C5: the range from 1 to 100 falls into eight blocks. -/
theorem CIDRs_tiling_witness :
    IPRange.CIDRs 100 ⟨1, 100⟩ = some ["0.0.0.1/32", "0.0.0.2/31", "0.0.0.4/30", "0.0.0.8/29",
      "0.0.0.16/28", "0.0.0.32/27", "0.0.0.64/27", "0.0.0.96/30"] ∧
    ∃ bs, (∀ fuel, 100 ≤ fuel → IPRange.CIDRs fuel ⟨1, 100⟩ = some (bs.map Block.text)) ∧
      bs ≠ [] ∧ Tiles bs 1 100 ∧
      bs.Pairwise (fun b1 b2 => b1.addr + b1.size ≤ b2.addr) ∧
      (∀ p, (∃ b ∈ bs, b.contains p) ↔ (1 ≤ p ∧ p < 100)) :=
  ⟨rfl, CIDRs_tiling ⟨1, 100⟩ (by decide) (by decide)⟩

/-- C6 (decomposition is minimal).  For every range with `start < stop ≤ 2 ^ 32`
and every list of CIDR-aligned blocks (prefix length between 0 and 32, address
a multiple of the size) whose union is exactly the range, `IPRange.CIDRs`
returns (a fuel of 100 suffices) a list that is no longer than that list. -/
theorem CIDRs_minimal (a : IPRange) (h1 : a.start < a.stop) (h2 : a.stop ≤ 2 ^ 32)
    (cover : List Block) (hal : ∀ b ∈ cover, b.aligned)
    (hcov : ∀ p, (∃ b ∈ cover, b.contains p) ↔ (a.start ≤ p ∧ p < a.stop)) :
    ∃ l, (∀ fuel, 100 ≤ fuel → a.CIDRs fuel = some l) ∧ l.length ≤ cover.length := by
  obtain ⟨tr, htrace, _, hrun⟩ := CIDRs_of_trace a (le_of_lt h1) h2
  refine ⟨_, hrun, ?_⟩
  simpa using htrace.length_le cover hal hcov

/-- Witness of C6: the range from 0 to 4 is one block, and the two blocks
`0.0.0.0/31` and `0.0.0.2/31` cover it as well. -/
theorem CIDRs_minimal_witness :
    IPRange.CIDRs 100 ⟨0, 4⟩ = some ["0.0.0.0/30"] ∧
    ∃ l, (∀ fuel, 100 ≤ fuel → IPRange.CIDRs fuel ⟨0, 4⟩ = some l) ∧
      l.length ≤ [(⟨0, 31⟩ : Block), ⟨2, 31⟩].length :=
  ⟨rfl, CIDRs_minimal ⟨0, 4⟩ (by decide) (by decide) [⟨0, 31⟩, ⟨2, 31⟩]
    (by
      intro b hb
      simp only [List.mem_cons, List.mem_singleton, List.not_mem_nil, or_false] at hb
      rcases hb with rfl | rfl <;> refine ⟨by decide, by decide, ?_⟩ <;> decide)
    (by
      intro p
      simp only [List.mem_cons, List.mem_singleton, List.not_mem_nil, or_false,
        exists_eq_or_imp, exists_eq_left, Block.contains, Block.size]
      have e : (32 - (31 : Int)).toNat = 1 := by decide
      rw [e]
      omega)⟩

/-- C7 (round trip of a single block).  For every prefix length `n ≤ 32` and
every 32-bit address `v` whose low `32 - n` bits are zero, `FromCIDRs` of the
canonical text of the block succeeds with the one range from `v` to
`v + 2 ^ (32 - n)`, and `CIDRs` of that set (a fuel of 100 suffices) is the list
of that one text. -/
theorem roundtrip_single (v n : Nat) (hn : n ≤ 32) (hv : v < 2 ^ 32)
    (hal : v % 2 ^ (32 - n) = 0) :
    FromCIDRs [cidrText v n] = .ok ⟨[⟨v, v + 2 ^ (32 - n)⟩], true⟩ ∧
      ∀ fuel, 100 ≤ fuel →
        IPRanges.CIDRs fuel ⟨[⟨v, v + 2 ^ (32 - n)⟩], true⟩ = some [cidrText v n] := by
  have hd : 2 ^ (32 - n) ∣ v := Nat.dvd_of_mod_eq_zero hal
  have hdiv : v / 2 ^ (32 - n) * 2 ^ (32 - n) = v := Nat.div_mul_cancel hd
  have hend := aligned_block_end hv hn rfl hd
  constructor
  · have := FromCIDR_of_parse hv hn (ParsePrefix_cidrText v n hv hn)
    rw [hdiv] at this
    simp [FromCIDRs, FromCIDRs.loop, this]
  · intro fuel hf
    apply CIDRs_loop_single
    obtain ⟨tr, htrace, _, hrun⟩ := CIDRs_of_trace ⟨v, v + 2 ^ (32 - n)⟩ (by simp) hend
    rw [hrun fuel hf, Trace.single (by omega) hd htrace]
    have hb : toBlock v (2 ^ (32 - n)) = ⟨v, (n : Int)⟩ := by
      simp only [toBlock, TrailingZeros64_pow _ (show 32 - n ≤ 32 by omega),
        Nat.mod_eq_of_lt hv]
      congr 1
      omega
    simp only [List.map_cons, List.map_nil, hb, Block.text, fmtInt_ofNat, cidrText]

/-- Witness of C7: `0.0.0.0/0`, whose range stops at `2 ^ 32`. -/
theorem roundtrip_single_witness :
    cidrText 0 0 = "0.0.0.0/0" ∧
    FromCIDRs ["0.0.0.0/0"] = .ok ⟨[⟨0, 4294967296⟩], true⟩ ∧
    IPRanges.CIDRs 100 ⟨[⟨0, 4294967296⟩], true⟩ = some ["0.0.0.0/0"] ∧
    (FromCIDRs [cidrText 0 0] = .ok ⟨[⟨0, 0 + 2 ^ (32 - 0)⟩], true⟩ ∧
      ∀ fuel, 100 ≤ fuel →
        IPRanges.CIDRs fuel ⟨[⟨0, 0 + 2 ^ (32 - 0)⟩], true⟩ = some [cidrText 0 0]) :=
  ⟨by decide, rfl, rfl, roundtrip_single 0 0 (by decide) (by decide) (by decide)⟩

/-- C8 (parse arithmetic).  When `FromCIDR` accepts a text, the text splits at
its last `/` into a dotted quad `a.b.c.d` of octets and a prefix length
`n ≤ 32`; the range starts at the big-endian value of the quad with its low
`32 - n` bits cleared and stops `2 ^ (32 - n)` later, without wrap-around (at
most at `2 ^ 32`).  For `n = 0` the range goes from 0 to `2 ^ 32`, for `n = 32`
it holds the one address of the quad. -/
theorem FromCIDR_arith (cidr : String) (r : IPRange) (h : FromCIDR cidr = .ok r) :
    ∃ addrStr bitsStr a b c d, ∃ n : Nat,
      netip.splitLastSlash cidr.data = some (addrStr, bitsStr) ∧
      netip.parseIPv4Fields addrStr = some [a, b, c, d] ∧
      a ≤ 255 ∧ b ≤ 255 ∧ c ≤ 255 ∧ d ≤ 255 ∧
      netip.atoiDigits bitsStr 0 = some n ∧ n ≤ 32 ∧
      r.start = clearLow (a * 2 ^ 24 + b * 2 ^ 16 + c * 2 ^ 8 + d) (32 - n) ∧
      r.stop = r.start + 2 ^ (32 - n) ∧ r.stop ≤ 2 ^ 32 ∧
      (n = 0 → r.start = 0 ∧ r.stop = 2 ^ 32) ∧
      (n = 32 → r.start = a * 2 ^ 24 + b * 2 ^ 16 + c * 2 ^ 8 + d ∧ r.stop = r.start + 1) := by
  obtain ⟨addrStr, bitsStr, f, n, hsplit, hf, hbits, hn, hs, ht⟩ := FromCIDR_ok h
  obtain ⟨a, b, c, d, rfl, ha, hb, hc, hd⟩ := parseIPv4Fields_shape hf
  have hq := quadValue_four a b c d ha hb hc hd
  have hlt := quadValue_lt [a, b, c, d]
  rw [hq] at hs hlt
  rw [clearLow_eq] at hs
  refine ⟨addrStr, bitsStr, a, b, c, d, n, hsplit, hf, ha, hb, hc, hd, hbits, hn, hs, ht,
    (FromCIDR_wf h).2, ?_, ?_⟩
  · rintro rfl
    have h0 : r.start = 0 := by
      rw [hs]
      unfold clearLow
      simp only [Nat.sub_zero]
      rw [Nat.mod_eq_of_lt hlt]
      omega
    exact ⟨h0, by rw [ht, h0]; rfl⟩
  · rintro rfl
    have h0 : r.start = a * 2 ^ 24 + b * 2 ^ 16 + c * 2 ^ 8 + d := by
      rw [hs]
      unfold clearLow
      simp only [Nat.sub_self, pow_zero, Nat.mod_one, Nat.sub_zero]
    exact ⟨h0, by rw [ht]; rfl⟩

/-- Witness of C8: `10.1.2.3/8` is the range of `10.0.0.0/8`. -/
theorem FromCIDR_arith_witness :
    ∃ addrStr bitsStr a b c d, ∃ n : Nat,
      netip.splitLastSlash "10.1.2.3/8".data = some (addrStr, bitsStr) ∧
      netip.parseIPv4Fields addrStr = some [a, b, c, d] ∧
      a ≤ 255 ∧ b ≤ 255 ∧ c ≤ 255 ∧ d ≤ 255 ∧
      netip.atoiDigits bitsStr 0 = some n ∧ n ≤ 32 ∧
      (167772160 : Nat) = clearLow (a * 2 ^ 24 + b * 2 ^ 16 + c * 2 ^ 8 + d) (32 - n) ∧
      (184549376 : Nat) = 167772160 + 2 ^ (32 - n) ∧ (184549376 : Nat) ≤ 2 ^ 32 ∧
      (n = 0 → (167772160 : Nat) = 0 ∧ (184549376 : Nat) = 2 ^ 32) ∧
      (n = 32 → (167772160 : Nat) = a * 2 ^ 24 + b * 2 ^ 16 + c * 2 ^ 8 + d ∧
        (184549376 : Nat) = 167772160 + 1) :=
  FromCIDR_arith "10.1.2.3/8" ⟨167772160, 184549376⟩ rfl

/-- C9 (parse failure and propagation).  `FromCIDRs` returns an error exactly
when some entry is not a text `ParsePrefix` accepts or is one whose address is
not IPv4; the error is then the one `FromCIDR` gives for the first entry it
rejects, whatever entries parsed before it.  `FromCIDR` itself returns the
error of `ParsePrefix`, or "not v4" for a parsed prefix with another address.
The text `::1/128` fails as not IPv4 and `not-a-cidr` as a parse error. -/
theorem FromCIDRs_error (cidrs : List String) :
    ((∃ e, FromCIDRs cidrs = .error e) ↔
      ∃ c ∈ cidrs, (∃ pe, netip.ParsePrefix c = .error pe) ∨
        (∃ p, netip.ParsePrefix c = .ok p ∧ p.Addr.Is4 = false)) ∧
    (∀ e, FromCIDRs cidrs = .error e ↔
      ∃ pre c post, cidrs = pre ++ c :: post ∧ (∀ c' ∈ pre, ∃ r, FromCIDR c' = .ok r) ∧
        FromCIDR c = .error e) ∧
    (∀ c e, FromCIDR c = .error e ↔
      (∃ pe, netip.ParsePrefix c = .error pe ∧ e = .parse pe) ∨
      (∃ p, netip.ParsePrefix c = .ok p ∧ p.Addr.Is4 = false ∧ e = .notV4 p c)) ∧
    FromCIDRs ["::1/128"]
      = .error (.notV4 ⟨.v6 [0, 0, 0, 0, 0, 0, 0, 0, 0, 0, 0, 0, 0, 0, 0, 1] [], 128⟩ "::1/128") ∧
    FromCIDRs ["not-a-cidr"] = .error (.parse ⟨"not-a-cidr"⟩) ∧
    FromCIDRs ["10.0.0.0/24", "::1/128", "not-a-cidr"]
      = .error (.notV4 ⟨.v6 [0, 0, 0, 0, 0, 0, 0, 0, 0, 0, 0, 0, 0, 0, 0, 1] [], 128⟩ "::1/128") := by
  refine ⟨?_, FromCIDRs_error_iff cidrs, FromCIDR_error_iff, rfl, rfl, rfl⟩
  constructor
  · rintro ⟨e, he⟩
    obtain ⟨pre, c, post, heq, _, herr⟩ := (FromCIDRs_error_iff cidrs e).1 he
    refine ⟨c, by rw [heq]; simp, ?_⟩
    rcases (FromCIDR_error_iff c e).1 herr with ⟨pe, hpe, _⟩ | ⟨p, hp, h4, _⟩
    · exact Or.inl ⟨pe, hpe⟩
    · exact Or.inr ⟨p, hp, h4⟩
  · rintro ⟨c, hc, hbad⟩
    cases hres : FromCIDRs cidrs with
    | error e => exact ⟨e, rfl⟩
    | ok x =>
      exfalso
      have hmap := (FromCIDRs_ok cidrs x hres).1
      have hmem : FromCIDR c ∈ x.ranges.map Except.ok := by
        rw [← hmap]; exact List.mem_map_of_mem _ hc
      obtain ⟨r, _, hr⟩ := List.mem_map.1 hmem
      rcases hbad with ⟨pe, hpe⟩ | ⟨p, hp, h4⟩
      · have := (FromCIDR_error_iff c (.parse pe)).2 (Or.inl ⟨pe, hpe, rfl⟩)
        rw [this] at hr
        cases hr
      · have := (FromCIDR_error_iff c (.notV4 p c)).2 (Or.inr ⟨p, hp, h4, rfl⟩)
        rw [this] at hr
        cases hr

/-- C10 (shape of what `FromCIDRs` returns).  For every list of texts that all
parse, `FromCIDRs` returns a set with one range per entry, in input order (the
range list is the list of what `FromCIDR` returns for the texts, duplicates and
overlaps kept), flagged simplified exactly when the list has fewer than two
entries. -/
theorem FromCIDRs_shape (cidrs : List String) (h : ∀ c ∈ cidrs, ∃ r, FromCIDR c = .ok r) :
    ∃ x, FromCIDRs cidrs = .ok x ∧ x.ranges.length = cidrs.length ∧
      cidrs.map FromCIDR = x.ranges.map Except.ok ∧
      (x.simplified = true ↔ cidrs.length < 2) := by
  cases hres : FromCIDRs cidrs with
  | error e =>
    exfalso
    obtain ⟨pre, c, post, heq, _, herr⟩ := (FromCIDRs_error_iff cidrs e).1 hres
    obtain ⟨r, hr⟩ := h c (by rw [heq]; simp)
    rw [hr] at herr
    cases herr
  | ok x =>
    obtain ⟨hmap, hflag⟩ := FromCIDRs_ok cidrs x hres
    refine ⟨x, rfl, ?_, hmap, ?_⟩
    · have := congrArg List.length hmap
      simpa using this.symm
    · rw [hflag]; simp

/-- Witness of C10: three texts, two of them equal and the third inside them. -/
theorem FromCIDRs_shape_witness :
    FromCIDRs ["10.0.0.0/24", "10.0.0.0/24", "10.0.0.128/25"]
      = .ok ⟨[⟨167772160, 167772416⟩, ⟨167772160, 167772416⟩, ⟨167772288, 167772416⟩], false⟩ ∧
    ∃ x, FromCIDRs ["10.0.0.0/24", "10.0.0.0/24", "10.0.0.128/25"] = .ok x ∧
      x.ranges.length = ["10.0.0.0/24", "10.0.0.0/24", "10.0.0.128/25"].length ∧
      ["10.0.0.0/24", "10.0.0.0/24", "10.0.0.128/25"].map FromCIDR = x.ranges.map Except.ok ∧
      (x.simplified = true ↔ ["10.0.0.0/24", "10.0.0.0/24", "10.0.0.128/25"].length < 2) :=
  ⟨rfl, FromCIDRs_shape ["10.0.0.0/24", "10.0.0.0/24", "10.0.0.128/25"] (by
    intro c hc
    simp only [List.mem_cons, List.mem_singleton, List.not_mem_nil, or_false] at hc
    rcases hc with rfl | rfl | rfl <;> exact ⟨_, rfl⟩)⟩

/-- C11 (union is lazy concatenation).  For all range sets `a` and `b`, the
range list of `Add a b` is the range list of `a` followed by that of `b`, with
nothing merged, sorted or removed, and its flag is `false`. -/
theorem Add_concat (a b : IPRanges) :
    (a.Add b).ranges = a.ranges ++ b.ranges ∧ (a.Add b).simplified = false ∧
      (a.Add b).ranges.length = a.ranges.length + b.ranges.length := by
  refine ⟨rfl, rfl, ?_⟩
  simp [IPRanges.Add]

/-- C12 (persistent values under union), evaluated on slices.  With `a` parsed
from three texts (a slice of length 3 and capacity 4), `b` and `c` from one
text each, `x = Add a b` writes the range of `b` into the fourth cell of the
array of `a`, and `y = Add a c` then writes the range of `c` into the same
cell: the range list of `x`, first `a` followed by `b`, becomes `a` followed by
`c`. -/
theorem Add_shared_array :
    Slices.FromCIDRs Slices.gcGrow ["10.0.0.0/24", "10.0.1.0/24", "10.0.2.0/24"] []
      = .ok ([[⟨167772160, 167772416⟩],
              [⟨167772160, 167772416⟩, ⟨167772416, 167772672⟩],
              [⟨167772160, 167772416⟩, ⟨167772416, 167772672⟩, ⟨167772672, 167772928⟩, ⟨0, 0⟩]],
             ⟨⟨2, 3, 4⟩, false⟩) ∧
    Slices.FromCIDRs Slices.gcGrow ["10.0.3.0/24"]
        [[⟨167772160, 167772416⟩],
         [⟨167772160, 167772416⟩, ⟨167772416, 167772672⟩],
         [⟨167772160, 167772416⟩, ⟨167772416, 167772672⟩, ⟨167772672, 167772928⟩, ⟨0, 0⟩]]
      = .ok ([[⟨167772160, 167772416⟩],
              [⟨167772160, 167772416⟩, ⟨167772416, 167772672⟩],
              [⟨167772160, 167772416⟩, ⟨167772416, 167772672⟩, ⟨167772672, 167772928⟩, ⟨0, 0⟩],
              [⟨167772928, 167773184⟩]],
             ⟨⟨3, 1, 1⟩, true⟩) ∧
    Slices.FromCIDRs Slices.gcGrow ["10.0.4.0/24"]
        [[⟨167772160, 167772416⟩],
         [⟨167772160, 167772416⟩, ⟨167772416, 167772672⟩],
         [⟨167772160, 167772416⟩, ⟨167772416, 167772672⟩, ⟨167772672, 167772928⟩, ⟨0, 0⟩],
         [⟨167772928, 167773184⟩]]
      = .ok ([[⟨167772160, 167772416⟩],
              [⟨167772160, 167772416⟩, ⟨167772416, 167772672⟩],
              [⟨167772160, 167772416⟩, ⟨167772416, 167772672⟩, ⟨167772672, 167772928⟩, ⟨0, 0⟩],
              [⟨167772928, 167773184⟩], [⟨167773184, 167773440⟩]],
             ⟨⟨4, 1, 1⟩, true⟩) ∧
    Slices.Add Slices.gcGrow
        [[⟨167772160, 167772416⟩],
         [⟨167772160, 167772416⟩, ⟨167772416, 167772672⟩],
         [⟨167772160, 167772416⟩, ⟨167772416, 167772672⟩, ⟨167772672, 167772928⟩, ⟨0, 0⟩],
         [⟨167772928, 167773184⟩], [⟨167773184, 167773440⟩]]
        ⟨⟨2, 3, 4⟩, false⟩ ⟨⟨3, 1, 1⟩, true⟩
      = ([[⟨167772160, 167772416⟩],
          [⟨167772160, 167772416⟩, ⟨167772416, 167772672⟩],
          [⟨167772160, 167772416⟩, ⟨167772416, 167772672⟩, ⟨167772672, 167772928⟩,
            ⟨167772928, 167773184⟩],
          [⟨167772928, 167773184⟩], [⟨167773184, 167773440⟩]],
         ⟨⟨2, 4, 4⟩, false⟩) ∧
    Slices.Add Slices.gcGrow
        [[⟨167772160, 167772416⟩],
         [⟨167772160, 167772416⟩, ⟨167772416, 167772672⟩],
         [⟨167772160, 167772416⟩, ⟨167772416, 167772672⟩, ⟨167772672, 167772928⟩,
           ⟨167772928, 167773184⟩],
         [⟨167772928, 167773184⟩], [⟨167773184, 167773440⟩]]
        ⟨⟨2, 3, 4⟩, false⟩ ⟨⟨4, 1, 1⟩, true⟩
      = ([[⟨167772160, 167772416⟩],
          [⟨167772160, 167772416⟩, ⟨167772416, 167772672⟩],
          [⟨167772160, 167772416⟩, ⟨167772416, 167772672⟩, ⟨167772672, 167772928⟩,
            ⟨167773184, 167773440⟩],
          [⟨167772928, 167773184⟩], [⟨167773184, 167773440⟩]],
         ⟨⟨2, 4, 4⟩, false⟩) ∧
    Slices.Heap.read
        [[⟨167772160, 167772416⟩],
         [⟨167772160, 167772416⟩, ⟨167772416, 167772672⟩],
         [⟨167772160, 167772416⟩, ⟨167772416, 167772672⟩, ⟨167772672, 167772928⟩,
           ⟨167772928, 167773184⟩],
         [⟨167772928, 167773184⟩], [⟨167773184, 167773440⟩]] ⟨2, 4, 4⟩
      = [⟨167772160, 167772416⟩, ⟨167772416, 167772672⟩, ⟨167772672, 167772928⟩,
          ⟨167772928, 167773184⟩] ∧
    Slices.Heap.read
        [[⟨167772160, 167772416⟩],
         [⟨167772160, 167772416⟩, ⟨167772416, 167772672⟩],
         [⟨167772160, 167772416⟩, ⟨167772416, 167772672⟩, ⟨167772672, 167772928⟩,
           ⟨167773184, 167773440⟩],
         [⟨167772928, 167773184⟩], [⟨167773184, 167773440⟩]] ⟨2, 4, 4⟩
      = [⟨167772160, 167772416⟩, ⟨167772416, 167772672⟩, ⟨167772672, 167772928⟩,
          ⟨167773184, 167773440⟩] :=
  ⟨rfl, rfl, rfl, rfl, rfl, rfl, rfl⟩

/-- C13 (idempotence of simplify).  For every range set `x`, `Simplify x`
returns a set flagged simplified, and `Simplify` of that set returns it again:
the same range list. -/
theorem Simplify_idempotent (x : IPRanges) :
    ∃ y, x.Simplify = .ok y ∧ y.simplified = true ∧
      ∃ z, y.Simplify = .ok z ∧ z.ranges = y.ranges ∧ z.simplified = true := by
  obtain ⟨y, hy, hs, _, _⟩ := Simplify_ok x
  obtain ⟨z, hz, hzs, h1, _⟩ := Simplify_ok y
  exact ⟨y, hy, hs, z, hz, by rw [h1 hs], hzs⟩

/-- C14 (coverage preservation).  For every range set `x` of the data model
with well-formed ranges, `Simplify x` returns a set whose `CIDRs` (a fuel of
100 suffices) are the texts of aligned blocks, each text parsing back to its
block, and the sizes `2 ^ (32 - prefix)` of these blocks add up to the number
of 32-bit addresses that lie in some range of `x`, each counted once. -/
theorem coverage_preserved (x : IPRanges) (hwf : WellFormed x.ranges) (hinv : x.Inv) :
    ∃ y, x.Simplify = .ok y ∧ ∃ bs : List Block,
      (∀ fuel, 100 ≤ fuel → y.CIDRs fuel = some (bs.map Block.text)) ∧
      (∀ b ∈ bs, b.aligned ∧ netip.ParsePrefix b.text = .ok ⟨.v4 b.addr, b.bits⟩) ∧
      (bs.map (fun b => 2 ^ (32 - b.bits).toNat)).sum = coveredCount x.ranges := by
  obtain ⟨y, hy, _, hcan, hcov⟩ := Simplify_covers x hinv (fun r hr => le_of_lt (hwf r hr).1)
  obtain ⟨bs, h1, h2, h3, _⟩ := CIDRs_canonical y hcan (Simplify_wf x y hwf hy)
  refine ⟨y, hy, bs, h1, h2, ?_⟩
  rw [← coveredCount_congr hcov, ← h3]
  rfl

/-- Witness of C14: the overlapping `10.0.0.0/24` and `10.0.0.128/25`. -/
theorem coverage_preserved_witness :
    IPRanges.Simplify ⟨[⟨167772160, 167772416⟩, ⟨167772288, 167772416⟩], false⟩
      = .ok ⟨[⟨167772160, 167772416⟩], true⟩ ∧
    IPRanges.CIDRs 100 ⟨[⟨167772160, 167772416⟩], true⟩ = some ["10.0.0.0/24"] ∧
    ∃ y, IPRanges.Simplify ⟨[⟨167772160, 167772416⟩, ⟨167772288, 167772416⟩], false⟩
        = .ok y ∧ ∃ bs : List Block,
      (∀ fuel, 100 ≤ fuel → y.CIDRs fuel = some (bs.map Block.text)) ∧
      (∀ b ∈ bs, b.aligned ∧ netip.ParsePrefix b.text = .ok ⟨.v4 b.addr, b.bits⟩) ∧
      (bs.map (fun b => 2 ^ (32 - b.bits).toNat)).sum
        = coveredCount [⟨167772160, 167772416⟩, ⟨167772288, 167772416⟩] :=
  ⟨rfl, rfl, coverage_preserved
    ⟨[⟨167772160, 167772416⟩, ⟨167772288, 167772416⟩], false⟩ (by decide) (by decide)⟩

/-- Counterexample to C15.  The range list of the range from 0 to 20 and the
reversed range from 10 to 5 is handed to the sweep by `Simplify`, and the list
of the reversed range and the empty range at 7 by `Subtract`, whose minuend is
flagged simplified: the deltas sum to zero, the final count is zero, and both
operations return a range list instead of the panic.  (The fields of
`IPRanges` are unexported and no public operation builds such a range, so
these values are built inside the package.) -/
theorem sweep_accepts_reversed :
    (∃ r ∈ ([⟨0, 20⟩, ⟨10, 5⟩] : List IPRange), r.start ≥ r.stop) ∧
    (sweepFrom ⟨0, 0, []⟩
      (sortByIP (IPRanges.toEndpoints ⟨[⟨0, 20⟩, ⟨10, 5⟩], false⟩ false))).cnt = 0 ∧
    IPRanges.Simplify ⟨[⟨0, 20⟩, ⟨10, 5⟩], false⟩ = .ok ⟨[⟨0, 5⟩, ⟨10, 20⟩], true⟩ ∧
    IPRanges.Subtract ⟨[⟨0, 20⟩], true⟩ ⟨[⟨10, 5⟩, ⟨7, 7⟩], false⟩ = .ok ⟨[⟨0, 20⟩], true⟩ ∧
    ¬ ((∃ r ∈ ([⟨0, 20⟩, ⟨10, 5⟩] : List IPRange), r.start ≥ r.stop) →
      ∃ p, IPRanges.Simplify ⟨[⟨0, 20⟩, ⟨10, 5⟩], false⟩ = .error p) := by
  refine ⟨by decide, rfl, rfl, rfl, ?_⟩
  intro h
  obtain ⟨p, hp⟩ := h (by decide)
  have hok : IPRanges.Simplify ⟨[⟨0, 20⟩, ⟨10, 5⟩], false⟩ = .ok ⟨[⟨0, 5⟩, ⟨10, 20⟩], true⟩ := rfl
  rw [hok] at hp
  cases hp

/-- C15, amended (malformed ranges are not rejected).  Whenever the range
lists of `a` and `b` include a range with `start ≥ stop`, which no pair of
sets built by the public operations does: the final count of the sweep of
`Simplify a` is still zero, and `Simplify a` returns a range list, not the
panic, canonical when `a` is not flagged simplified (the case in which the
sweep runs), and covering exactly the addresses of `a` when moreover every
malformed range is empty (`start = stop`); and, whatever the flag of `a`, the
final count of the sweep of `Subtract a b` is zero and `Subtract a b` returns a
canonical range list, not the panic. -/
theorem malformed_not_rejected (a b : IPRanges)
    (hm : ∃ r ∈ a.ranges ++ b.ranges, r.start ≥ r.stop) :
    ¬ (Built a ∧ Built b) ∧
    (sweepFrom ⟨0, 0, []⟩ (sortByIP (a.toEndpoints false))).cnt = 0 ∧
    (∃ y, a.Simplify = .ok y ∧
      (a.simplified = false → Canonical y.ranges ∧
        ((∀ r ∈ a.ranges, r.start ≤ r.stop) → ∀ p, covers y.ranges p ↔ covers a.ranges p))) ∧
    (∃ a' z, a.Simplify = .ok a' ∧
      (sweepFrom ⟨0, 0, []⟩
        (sortByIP (a'.toEndpoints false ++ b.toEndpoints true))).cnt = 0 ∧
      a.Subtract b = .ok z ∧ z.simplified = true ∧ Canonical z.ranges) := by
  refine ⟨?_, ?_, ?_, ?_⟩
  · rintro ⟨ha, hb⟩
    obtain ⟨r, hr, hge⟩ := hm
    rcases List.mem_append.1 hr with hr | hr
    · have := (ha.wf r hr).1
      omega
    · have := (hb.wf r hr).1
      omega
  · rw [sweepFrom_cnt, ((sortByIP_perm _).map _).sum_eq, toEndpoints_eq, sum_bind]
    rfl
  · cases hf : a.simplified with
    | true =>
      obtain ⟨y, hy, _⟩ := Simplify_ok a
      exact ⟨y, hy, fun h => absurd h (by simp)⟩
    | false =>
      obtain ⟨out, hout, hcan, hcov⟩ := Simplify_unflagged a hf
      exact ⟨_, hout, fun _ => ⟨hcan, hcov⟩⟩
  · obtain ⟨a', ha', _⟩ := Simplify_ok a
    obtain ⟨out, hout, hcan, _⟩ := Subtract_spec a b
    refine ⟨a', _, ha', ?_, hout, rfl, hcan⟩
    rw [sweepFrom_cnt, ((sortByIP_perm _).map _).sum_eq, List.map_append, List.sum_append,
      toEndpoints_eq, toEndpoints_eq, sum_bind, sum_bind]
    rfl

/-- Witness of C15, amended, at two pairs: a set not flagged simplified that
holds a reversed range, with a subtrahend that holds an empty one; and a
minuend flagged simplified, with a subtrahend that holds a reversed range and
an empty one. -/
theorem malformed_not_rejected_witness :
    ((∃ r ∈ ([⟨0, 20⟩, ⟨10, 5⟩] : List IPRange) ++ [⟨7, 7⟩], r.start ≥ r.stop) ∧
      ¬ (Built ⟨[⟨0, 20⟩, ⟨10, 5⟩], false⟩ ∧ Built ⟨[⟨7, 7⟩], false⟩) ∧
      (sweepFrom ⟨0, 0, []⟩
        (sortByIP (IPRanges.toEndpoints ⟨[⟨0, 20⟩, ⟨10, 5⟩], false⟩ false))).cnt = 0 ∧
      (∃ y, IPRanges.Simplify ⟨[⟨0, 20⟩, ⟨10, 5⟩], false⟩ = .ok y ∧
        (false = false → Canonical y.ranges ∧
          ((∀ r ∈ ([⟨0, 20⟩, ⟨10, 5⟩] : List IPRange), r.start ≤ r.stop) →
            ∀ p, covers y.ranges p ↔ covers [⟨0, 20⟩, ⟨10, 5⟩] p))) ∧
      (∃ a' z, IPRanges.Simplify ⟨[⟨0, 20⟩, ⟨10, 5⟩], false⟩ = .ok a' ∧
        (sweepFrom ⟨0, 0, []⟩
          (sortByIP (a'.toEndpoints false ++
            IPRanges.toEndpoints ⟨[⟨7, 7⟩], false⟩ true))).cnt = 0 ∧
        IPRanges.Subtract ⟨[⟨0, 20⟩, ⟨10, 5⟩], false⟩ ⟨[⟨7, 7⟩], false⟩ = .ok z ∧
        z.simplified = true ∧ Canonical z.ranges)) ∧
    ((∃ r ∈ ([⟨0, 20⟩] : List IPRange) ++ [⟨10, 5⟩, ⟨7, 7⟩], r.start ≥ r.stop) ∧
      ¬ (Built ⟨[⟨0, 20⟩], true⟩ ∧ Built ⟨[⟨10, 5⟩, ⟨7, 7⟩], false⟩) ∧
      (sweepFrom ⟨0, 0, []⟩
        (sortByIP (IPRanges.toEndpoints ⟨[⟨0, 20⟩], true⟩ false))).cnt = 0 ∧
      (∃ y, IPRanges.Simplify ⟨[⟨0, 20⟩], true⟩ = .ok y ∧
        (true = false → Canonical y.ranges ∧
          ((∀ r ∈ ([⟨0, 20⟩] : List IPRange), r.start ≤ r.stop) →
            ∀ p, covers y.ranges p ↔ covers [⟨0, 20⟩] p))) ∧
      (∃ a' z, IPRanges.Simplify ⟨[⟨0, 20⟩], true⟩ = .ok a' ∧
        (sweepFrom ⟨0, 0, []⟩
          (sortByIP (a'.toEndpoints false ++
            IPRanges.toEndpoints ⟨[⟨10, 5⟩, ⟨7, 7⟩], false⟩ true))).cnt = 0 ∧
        IPRanges.Subtract ⟨[⟨0, 20⟩], true⟩ ⟨[⟨10, 5⟩, ⟨7, 7⟩], false⟩ = .ok z ∧
        z.simplified = true ∧ Canonical z.ranges)) :=
  ⟨⟨by decide,
      malformed_not_rejected ⟨[⟨0, 20⟩, ⟨10, 5⟩], false⟩ ⟨[⟨7, 7⟩], false⟩ (by decide)⟩,
    ⟨by decide,
      malformed_not_rejected ⟨[⟨0, 20⟩], true⟩ ⟨[⟨10, 5⟩, ⟨7, 7⟩], false⟩ (by decide)⟩⟩

/-- C16 (range well-formedness is an invariant of the API).  Every range of
every range set built with `FromCIDRs`, `Add`, `Simplify` and `Subtract`
satisfies `start < stop ≤ 2 ^ 32`.  The sweep, run on the sorted endpoints of
any list with unit deltas, emits only ranges with `start < stop` whose two
endpoints are addresses of endpoints it was given. -/
theorem Built_ranges_wf (x : IPRanges) (hx : Built x) :
    (∀ r ∈ x.ranges, 0 ≤ r.start ∧ r.start < r.stop ∧ r.stop ≤ 2 ^ 32) ∧
    ∀ (l : List endpoint) (out : List IPRange), unitDeltas l →
      endpointsToRanges (sortByIP l) = .ok out →
      ∀ r ∈ out, r.start < r.stop ∧ (∃ e ∈ l, e.ip = r.start) ∧ ∃ e ∈ l, e.ip = r.stop := by
  refine ⟨fun r hr => ⟨Nat.zero_le _, hx.wf r hr⟩, ?_⟩
  intro l out hu hout r hr
  have hu' : unitDeltas (sortByIP l) := fun e he => hu e ((sortByIP_perm l).subset he)
  have hcan := endpointsToRanges_canonical (sortByIP_sorted l) hu' hout
  exact ⟨hcan.2 r hr, sweep_sorted_fromInput l hu out hout r hr⟩

/-- Witness of C16: the difference of `10.0.0.0/24` and `10.0.0.64/26`. -/
theorem Built_ranges_wf_witness :
    IPRanges.Subtract ⟨[⟨167772160, 167772416⟩], true⟩ ⟨[⟨167772224, 167772288⟩], true⟩
      = .ok ⟨[⟨167772160, 167772224⟩, ⟨167772288, 167772416⟩], true⟩ ∧
    ((∀ r ∈ ([⟨167772160, 167772224⟩, ⟨167772288, 167772416⟩] : List IPRange),
        0 ≤ r.start ∧ r.start < r.stop ∧ r.stop ≤ 2 ^ 32) ∧
      ∀ (l : List endpoint) (out : List IPRange), unitDeltas l →
        endpointsToRanges (sortByIP l) = .ok out →
        ∀ r ∈ out, r.start < r.stop ∧ (∃ e ∈ l, e.ip = r.start) ∧ ∃ e ∈ l, e.ip = r.stop) :=
  ⟨rfl, Built_ranges_wf ⟨[⟨167772160, 167772224⟩, ⟨167772288, 167772416⟩], true⟩
    (Built.subtract ⟨[⟨167772160, 167772416⟩], true⟩ ⟨[⟨167772224, 167772288⟩], true⟩ _
      (Built.fromCIDRs ["10.0.0.0/24"] _ rfl) (Built.fromCIDRs ["10.0.0.64/26"] _ rfl) rfl)⟩

/-- C17 (simplified output is globally minimal).  For every range set `x` built
with the public operations and every list of CIDR-aligned blocks whose union is
exactly the address set of `x`, `CIDRs (Simplify x)` (a fuel of 100 suffices)
is no longer than that list. -/
theorem Simplify_CIDRs_minimal (x : IPRanges) (hx : Built x) (cover : List Block)
    (hal : ∀ b ∈ cover, b.aligned)
    (hcov : ∀ p, (∃ b ∈ cover, b.contains p) ↔ covers x.ranges p) :
    ∃ y l, x.Simplify = .ok y ∧ (∀ fuel, 100 ≤ fuel → y.CIDRs fuel = some l) ∧
      l.length ≤ cover.length := by
  obtain ⟨y, hy, _, hcan, hsame⟩ :=
    Simplify_covers x hx.inv (fun r hr => le_of_lt (hx.wf r hr).1)
  obtain ⟨bs, h1, _, _, h4⟩ := CIDRs_canonical y hcan (Simplify_wf x y hx.wf hy)
  refine ⟨y, _, hy, h1, ?_⟩
  rw [List.length_map]
  exact h4 cover hal (fun p => (hcov p).trans (hsame p).symm)

/-- Witness of C17: `10.0.0.0/25` and `10.0.0.128/25` against the cover by
four `/26` blocks. -/
theorem Simplify_CIDRs_minimal_witness :
    IPRanges.Simplify ⟨[⟨167772160, 167772288⟩, ⟨167772288, 167772416⟩], false⟩
      = .ok ⟨[⟨167772160, 167772416⟩], true⟩ ∧
    IPRanges.CIDRs 100 ⟨[⟨167772160, 167772416⟩], true⟩ = some ["10.0.0.0/24"] ∧
    ∃ y l, IPRanges.Simplify ⟨[⟨167772160, 167772288⟩, ⟨167772288, 167772416⟩], false⟩
        = .ok y ∧ (∀ fuel, 100 ≤ fuel → y.CIDRs fuel = some l) ∧
      l.length ≤ [(⟨167772160, 26⟩ : Block), ⟨167772224, 26⟩, ⟨167772288, 26⟩,
        ⟨167772352, 26⟩].length :=
  ⟨rfl, rfl, Simplify_CIDRs_minimal
    ⟨[⟨167772160, 167772288⟩, ⟨167772288, 167772416⟩], false⟩
    (Built.fromCIDRs ["10.0.0.0/25", "10.0.0.128/25"] _ rfl)
    [⟨167772160, 26⟩, ⟨167772224, 26⟩, ⟨167772288, 26⟩, ⟨167772352, 26⟩]
    (by
      intro b hb
      simp only [List.mem_cons, List.mem_singleton, List.not_mem_nil, or_false] at hb
      rcases hb with rfl | rfl | rfl | rfl <;> refine ⟨by decide, by decide, ?_⟩ <;> decide)
    (by
      intro p
      have e : (32 - (26 : Int)).toNat = 6 := by decide
      simp only [List.mem_cons, List.mem_singleton, List.not_mem_nil, or_false,
        exists_eq_or_imp, exists_eq_left, Block.contains, Block.size, covers,
        IPRange.contains, e]
      omega)⟩

/-- C18 (the tie-break merges touching ranges).  For every range set not
flagged simplified, with well-formed ranges, that holds the ranges from `s` to
`m` and from `m` to `e` with `s < m < e`, `Simplify` returns a set with one
range that contains both; it is the only range of the result that meets them,
and no range of the result starts or stops at `m`. -/
theorem Simplify_merges_touching (x : IPRanges) (hf : x.simplified = false)
    (hwf : WellFormed x.ranges) (s m e : Nat) (h1 : ⟨s, m⟩ ∈ x.ranges)
    (h2 : ⟨m, e⟩ ∈ x.ranges) (hsm : s < m) (hme : m < e) :
    ∃ y, x.Simplify = .ok y ∧
      (∃ r ∈ y.ranges, r.start ≤ s ∧ e ≤ r.stop ∧
        ∀ r' ∈ y.ranges, (∃ p, s ≤ p ∧ p < e ∧ r'.contains p) → r' = r) ∧
      ∀ r ∈ y.ranges, r.start ≠ m ∧ r.stop ≠ m := by
  obtain ⟨out, hout, hcan, hcov⟩ := Simplify_unflagged x hf
  have hcov := hcov (fun r hr => le_of_lt (hwf r hr).1)
  have hall : ∀ p, s ≤ p → p < e → covers out p := by
    intro p hp1 hp2
    rw [hcov p]
    by_cases hpm : p < m
    · exact ⟨⟨s, m⟩, h1, hp1, hpm⟩
    · exact ⟨⟨m, e⟩, h2, by simp only; omega, hp2⟩
  have hmeet : ∀ r ∈ out, ∀ p, s ≤ p → p < e → r.contains p → r.start ≤ s ∧ e ≤ r.stop :=
    fun r hr p hp1 hp2 hrp => hcan.interval_in_range hr hall ⟨hp1, hp2⟩ hrp
  have hone : ∀ r ∈ out, ∀ r' ∈ out, r.start ≤ s ∧ e ≤ r.stop → r'.start ≤ s ∧ e ≤ r'.stop →
      r' = r := by
    intro r hr r' hr' hb hb'
    by_contra hne
    rcases hcan.separated r' hr' r hr hne with h | h <;> omega
  obtain ⟨r, hr, hrs⟩ := hall s (le_refl _) (by omega)
  have hrb := hmeet r hr s (le_refl _) (by omega) hrs
  refine ⟨_, hout, ⟨r, hr, hrb.1, hrb.2, ?_⟩, ?_⟩
  · rintro r' hr' ⟨p, hp1, hp2, hp3⟩
    exact hone r hr r' hr' hrb (hmeet r' hr' p hp1 hp2 hp3)
  · intro r' hr'
    have hlt := hcan.2 r' hr'
    constructor
    · intro hstart
      have := hmeet r' hr' m (by omega) hme ⟨by omega, by omega⟩
      omega
    · intro hstop
      have := hmeet r' hr' (m - 1) (by omega) (by omega) ⟨by omega, by omega⟩
      omega

/-- Witness of C18: `10.0.0.0/25` and `10.0.0.128/25` simplify to the one range
of `10.0.0.0/24`. -/
theorem Simplify_merges_touching_witness :
    FromCIDRs ["10.0.0.0/25", "10.0.0.128/25"]
      = .ok ⟨[⟨167772160, 167772288⟩, ⟨167772288, 167772416⟩], false⟩ ∧
    IPRanges.Simplify ⟨[⟨167772160, 167772288⟩, ⟨167772288, 167772416⟩], false⟩
      = .ok ⟨[⟨167772160, 167772416⟩], true⟩ ∧
    IPRanges.CIDRs 100 ⟨[⟨167772160, 167772416⟩], true⟩ = some ["10.0.0.0/24"] ∧
    ∃ y, IPRanges.Simplify ⟨[⟨167772160, 167772288⟩, ⟨167772288, 167772416⟩], false⟩ = .ok y ∧
      (∃ r ∈ y.ranges, r.start ≤ 167772160 ∧ 167772416 ≤ r.stop ∧
        ∀ r' ∈ y.ranges, (∃ p, 167772160 ≤ p ∧ p < 167772416 ∧ r'.contains p) → r' = r) ∧
      ∀ r ∈ y.ranges, r.start ≠ 167772288 ∧ r.stop ≠ 167772288 :=
  ⟨rfl, rfl, rfl, Simplify_merges_touching
    ⟨[⟨167772160, 167772288⟩, ⟨167772288, 167772416⟩], false⟩ rfl (by decide)
    167772160 167772288 167772416 (by simp) (by simp) (by decide) (by decide)⟩

/-- C19 (the failure branch of the sweep is unreachable).  For all range sets
`a` and `b`, whatever their ranges, the endpoint list of `Simplify a` and that
of `Subtract a b` have deltas that sum to zero, the sweep over them ends with
count zero, and neither operation panics. -/
theorem sweep_never_panics (a b : IPRanges) :
    (∀ invert, ((a.toEndpoints invert).map endpoint.ss).sum = 0) ∧
    (sweepFrom ⟨0, 0, []⟩ (sortByIP (a.toEndpoints false))).cnt = 0 ∧
    (∃ y, a.Simplify = .ok y ∧
      ((y.toEndpoints false ++ b.toEndpoints true).map endpoint.ss).sum = 0 ∧
      (sweepFrom ⟨0, 0, []⟩
        (sortByIP (y.toEndpoints false ++ b.toEndpoints true))).cnt = 0) ∧
    (∃ z, a.Subtract b = .ok z) := by
  have hsum : ∀ (c : IPRanges) (invert : Bool),
      ((c.toEndpoints invert).map endpoint.ss).sum = 0 :=
    fun c invert => by rw [toEndpoints_eq, sum_bind]
  obtain ⟨y, hy, _⟩ := Simplify_ok a
  obtain ⟨out, hout, _⟩ := Subtract_spec a b
  have h2 : ((y.toEndpoints false ++ b.toEndpoints true).map endpoint.ss).sum = 0 := by
    rw [List.map_append, List.sum_append, hsum, hsum]; rfl
  refine ⟨hsum a, ?_, ⟨y, hy, h2, ?_⟩, ⟨_, hout⟩⟩
  · rw [sweepFrom_cnt, ((sortByIP_perm _).map _).sum_eq, hsum]; rfl
  · rw [sweepFrom_cnt, ((sortByIP_perm _).map _).sum_eq, h2]; rfl

/-- C20 (canonical form is unique).  For range sets `x` and `y` built with the
public operations that cover the same addresses, `Simplify x` and `Simplify y`
have the same range list, whatever the order and multiplicity of the ranges of
`x` and `y`; and every sorted rearrangement of the endpoints of `x` is the list
the sweep is run on, so the result does not depend on how the sort orders equal
endpoints. -/
theorem Simplify_unique (x y : IPRanges) (hx : Built x) (hy : Built y)
    (hsame : ∀ p, covers x.ranges p ↔ covers y.ranges p) :
    (∃ x' y', x.Simplify = .ok x' ∧ y.Simplify = .ok y' ∧ x'.ranges = y'.ranges) ∧
    ∀ l', l'.Perm (x.toEndpoints false) → l'.Sorted byIP.le →
      l' = sortByIP (x.toEndpoints false) := by
  refine ⟨?_, fun l' hp hs => sortByIP_unique _ l' hp hs⟩
  obtain ⟨x', hx', _, hcx, hsx⟩ :=
    Simplify_covers x hx.inv (fun r hr => le_of_lt (hx.wf r hr).1)
  obtain ⟨y', hy', _, hcy, hsy⟩ :=
    Simplify_covers y hy.inv (fun r hr => le_of_lt (hy.wf r hr).1)
  exact ⟨x', y', hx', hy', hcx.eq_of_covers hcy
    (fun p => (hsx p).trans ((hsame p).trans (hsy p).symm))⟩

/-- Witness of C20: the same addresses given as two blocks, and as three in
another order with one of them twice covered. -/
theorem Simplify_unique_witness :
    IPRanges.Simplify ⟨[⟨167772160, 167772288⟩, ⟨167772288, 167772416⟩], false⟩
      = .ok ⟨[⟨167772160, 167772416⟩], true⟩ ∧
    IPRanges.Simplify
        ⟨[⟨167772288, 167772416⟩, ⟨167772160, 167772416⟩, ⟨167772160, 167772288⟩], false⟩
      = .ok ⟨[⟨167772160, 167772416⟩], true⟩ ∧
    ((∃ x' y', IPRanges.Simplify ⟨[⟨167772160, 167772288⟩, ⟨167772288, 167772416⟩], false⟩
        = .ok x' ∧
      IPRanges.Simplify
        ⟨[⟨167772288, 167772416⟩, ⟨167772160, 167772416⟩, ⟨167772160, 167772288⟩], false⟩
        = .ok y' ∧ x'.ranges = y'.ranges) ∧
    ∀ l', l'.Perm (IPRanges.toEndpoints
        ⟨[⟨167772160, 167772288⟩, ⟨167772288, 167772416⟩], false⟩ false) →
      l'.Sorted byIP.le →
      l' = sortByIP (IPRanges.toEndpoints
        ⟨[⟨167772160, 167772288⟩, ⟨167772288, 167772416⟩], false⟩ false)) :=
  ⟨rfl, rfl, Simplify_unique
    ⟨[⟨167772160, 167772288⟩, ⟨167772288, 167772416⟩], false⟩
    ⟨[⟨167772288, 167772416⟩, ⟨167772160, 167772416⟩, ⟨167772160, 167772288⟩], false⟩
    (Built.fromCIDRs ["10.0.0.0/25", "10.0.0.128/25"] _ rfl)
    (Built.fromCIDRs ["10.0.0.128/25", "10.0.0.0/24", "10.0.0.0/25"] _ rfl)
    (by
      intro p
      simp only [covers, List.mem_cons, List.mem_singleton, List.not_mem_nil, or_false,
        exists_eq_or_imp, exists_eq_left, IPRange.contains]
      omega)⟩

end Cidrcalc
